import Mathlib

/-!
# c-vector: a type-erased growable array

Shallow embedding of `src/vector.c` and proofs about it.

* A C `int` is an `Int`.  The sizes that `VectorNew` and `elemAddingRequiered` compute
  (`elemSize * initialAllocation`, `allocatedSize + reallocSize`,
  `elemSize * allocatedSize`) are checked against the range of a 32-bit `int`: a result
  outside it is a signed overflow, which is undefined behaviour in C, and the operation
  ends in `Fault.undefined` (a compiler usually lets the value wrap around, and the
  allocator is then asked for another number of bytes than the slots need).  The other
  `int` expressions of the source are counts up to `logicalSize` and byte offsets into
  the buffer, which are in range whenever the size of the buffer is.
* An element is the list of its `elemSize` bytes; the type `β` of a byte is arbitrary.
* The heap is a list of blocks of bytes.  A block is addressed by its number, counted
  from 1; the address 0 is `NULL`.  A pointer is a block number with a byte offset.  A
  released block stays in the list as `none`, so that an access through a pointer into
  it is detected.  The pointers that callers pass (`v`, `elemAddr`, `key`) are never
  `NULL`, so the `!= NULL` assertions on them always pass and are left out; `elems` is
  asserted not to be `NULL` where the source does so, after `malloc` and `realloc`, and
  is `NULL` only in the state in which such an assertion stops the run.
* `malloc` and `realloc` may return `NULL`: the machine carries, for each of their
  coming calls, whether the allocator refuses it (`refuse`), and a request of a negative
  `int` number of bytes, which converts to a `size_t` above every object size, is always
  refused.  A refused `realloc` leaves the block as it was.  Whether a granted `realloc`
  extends a block where it is or moves it to another address is the allocator's choice
  as well (`relocate`).
* A callback is named by a number (its address); every call of the destructor, of the
  search comparator and of the visit function is appended to the machine's trace together
  with the bytes of the element(s) it was given (the comparisons `qsort` makes are not
  recorded).  The destructor and the comparators do not touch the container; the visit
  function rewrites the bytes of the element it is given.
* A failed `assert` and undefined behaviour (an access outside a live block, a signed
  overflow) are the two ways an operation can fail.
* An operation that fails returns no state.  Where the state at the point of failure
  matters, the mutating operations are given a second time as `...Run`: the same steps,
  with a failure carrying the machine and the struct reached so far.  `..Run_agrees`
  shows that both forms give the same result.
* The loops of the source and the library searches and sort carry a fuel argument that
  their callers set to the number of elements, which the loops never exceed.
-/

namespace CVector


/-! ## Machine model -/

deriving instance DecidableEq for Except

/-- The two ways in which an operation can fail: an `assert` that fails, and undefined
behaviour (an access outside a live block, a signed overflow). -/
inductive Fault where
  | assertion
  | undefined
deriving DecidableEq, Repr

/-- A pointer: the block it points into and the byte offset from the block's start. -/
structure Ptr where
  block : Nat
  off : Int
deriving DecidableEq, Repr

/-- A recorded callback invocation. -/
inductive Call (β : Type) where
  | free (fn : Nat) (elem : List β)
  | compare (key elem : List β)
  | visit (elem : List β) (auxData : Nat)
deriving DecidableEq, Repr

/-- The state outside the `vector` struct: heap, allocator choices, content of fresh
storage and the trace of callback invocations (oldest first).  `relocate` lists, for
the coming granted calls of `realloc`, whether the block is moved; `refuse` lists, for
the coming calls of `malloc` and `realloc`, whether the allocator returns `NULL` (past
the end of the list it never does). -/
structure Machine (β : Type) where
  heap : List (Option (List β))
  relocate : List Bool
  junk : β
  trace : List (Call β)
  refuse : List Bool
deriving DecidableEq, Repr

/-- The null pointer: the address of no block. -/
def NULL : Nat := 0

/-- The largest value of a C `int` (32 bits). -/
def INT_MAX : Int := 2147483647

/-- The smallest value of a C `int` (32 bits). -/
def INT_MIN : Int := -2147483648

/-- The result of an `int` operation whose mathematical value is `x`: a value outside
the range of `int` is a signed overflow, which is undefined behaviour. -/
def intResult (x : Int) : Except Fault Int :=
  if INT_MIN ≤ x ∧ x ≤ INT_MAX then .ok x else .error .undefined

/-- Pointer arithmetic on `char *`. -/
def Ptr.add (p : Ptr) (k : Int) : Ptr := { p with off := p.off + k }

/-- The live block an address refers to: block number `b` is entry `b - 1` of the heap,
and `NULL` refers to no block. -/
def Machine.block {β : Type} (m : Machine β) (b : Nat) : Option (List β) :=
  if b = NULL then none else m.heap.getD (b - 1) none

/-- Read `n` bytes at `p`. -/
def load {β : Type} (m : Machine β) (p : Ptr) (n : Int) : Except Fault (List β) :=
  match m.block p.block with
  | some blk =>
    if 0 ≤ p.off ∧ 0 ≤ n ∧ p.off + n ≤ blk.length then
      .ok ((blk.drop p.off.toNat).take n.toNat)
    else .error .undefined
  | none => .error .undefined

/-- Write `bytes` at `p`. -/
def store {β : Type} (m : Machine β) (p : Ptr) (bytes : List β) : Except Fault (Machine β) :=
  match m.block p.block with
  | some blk =>
    if 0 ≤ p.off ∧ p.off + bytes.length ≤ blk.length then
      let blk' := blk.take p.off.toNat ++ bytes ++ blk.drop (p.off.toNat + bytes.length)
      .ok { m with heap := m.heap.set (p.block - 1) (some blk') }
    else .error .undefined
  | none => .error .undefined

/-! ## C library -/

/-- The C library's `memmove` between two places of the heap: the `n` bytes at `src` are
copied to `dst` as if through a temporary buffer. -/
def memmove {β : Type} (m : Machine β) (dst src : Ptr) (n : Int) : Except Fault (Machine β) := do
  let bytes ← load m src n
  store m dst bytes

/-- The C library's `memmove` from the caller's object `x` (the bytes at `elemAddr`)
into the heap. -/
def memmoveFrom {β : Type} (m : Machine β) (dst : Ptr) (x : List β) (n : Int) :
    Except Fault (Machine β) :=
  if 0 ≤ n ∧ n ≤ x.length then store m dst (x.take n.toNat) else .error .undefined

/-- The C library's `malloc`, called with the `int` value `size` as its `size_t`
argument: `NULL` when the allocator refuses the request or `size` is negative, and
otherwise the address of a fresh block of `size` bytes of unspecified content. -/
def malloc {β : Type} (m : Machine β) (size : Int) : Machine β × Nat :=
  let m0 := { m with refuse := m.refuse.tail }
  if m.refuse.head? = some true ∨ size < 0 then (m0, NULL)
  else ({ m0 with heap := m.heap ++ [some (List.replicate size.toNat m.junk)] },
    m.heap.length + 1)

/-- The C library's `realloc`, called with the `int` value `size` as its `size_t`
argument.  On `NULL` it is `malloc`.  On a live block it returns `NULL` and leaves the
block as it was when the allocator refuses the request or `size` is negative; otherwise
the block keeps its first bytes and has `size` bytes afterwards, and it stays at its
address or moves to a fresh one (the old one is then released), as the allocator
chooses. -/
def realloc {β : Type} (m : Machine β) (b : Nat) (size : Int) : Except Fault (Machine β × Nat) :=
  if b = NULL then .ok (malloc m size) else
  match m.block b with
  | some blk =>
    let m0 := { m with refuse := m.refuse.tail }
    if m.refuse.head? = some true ∨ size < 0 then .ok (m0, NULL) else
    let blk' := blk.take size.toNat ++ List.replicate (size.toNat - blk.length) m.junk
    match m.relocate with
    | true :: rest =>
      .ok ({ m0 with heap := m.heap.set (b - 1) none ++ [some blk'], relocate := rest },
        m.heap.length + 1)
    | _ :: rest => .ok ({ m0 with heap := m.heap.set (b - 1) (some blk'), relocate := rest }, b)
    | [] => .ok ({ m0 with heap := m.heap.set (b - 1) (some blk') }, b)
  | none => .error .undefined

/-- Modelled from the spec: `lfind` of `<search.h>` is not part of the repository; it
scans the `nmemb` elements of `size` bytes from `base` in index order and returns the
address of the first one on which `compar key` is 0, or `NULL`. -/
def lfind {β : Type} (m : Machine β) (key : List β) (base : Ptr) (nmemb : Nat) (size : Int)
    (compar : List β → List β → Int) : Except Fault (Machine β × Option Ptr) :=
  match nmemb with
  | 0 => .ok (m, none)
  | rest + 1 => do
    let elem ← load m base size
    let m1 := { m with trace := m.trace ++ [Call.compare key elem] }
    if compar key elem = 0 then .ok (m1, some base)
    else lfind m1 key (base.add size) rest size compar

/-- The loop of `bsearch` on the index range `[l, u)`; `fuel` bounds the number of
iterations, and `u - l` drops at every iteration. -/
def bsearchLoop {β : Type} (key : List β) (base : Ptr) (size : Int)
    (compar : List β → List β → Int) :
    Nat → Machine β → Nat → Nat → Except Fault (Machine β × Option Ptr)
  | 0, m, _, _ => .ok (m, none)
  | fuel + 1, m, l, u =>
    if l < u then do
      let idx := (l + u) / 2
      let p := base.add (idx * size)
      let elem ← load m p size
      let m1 := { m with trace := m.trace ++ [Call.compare key elem] }
      let comparison := compar key elem
      if comparison < 0 then bsearchLoop key base size compar fuel m1 l idx
      else if comparison > 0 then bsearchLoop key base size compar fuel m1 (idx + 1) u
      else .ok (m1, some p)
    else .ok (m, none)

/-- Modelled from the spec: `bsearch` of `<stdlib.h>` is not part of the repository; it
is a binary search over the `nmemb` elements of `size` bytes from `base`, halving the
index range on the sign of `compar key`, and returns the address of an element on which
`compar key` is 0, or `NULL`. -/
def bsearch {β : Type} (m : Machine β) (key : List β) (base : Ptr) (nmemb : Nat) (size : Int)
    (compar : List β → List β → Int) : Except Fault (Machine β × Option Ptr) :=
  bsearchLoop key base size compar nmemb m 0 nmemb

/-! ## The container: `vector.c` -/

/-- Modelled from the spec: the header `vector.h` that declares this struct is absent;
the fields are the ones `vector.c` reads and writes (`elems` is the address of the
buffer, `freeFn` the optional destructor). -/
structure vector where
  elems : Nat
  elemSize : Int
  logicalSize : Int
  allocatedSize : Int
  reallocSize : Int
  freeFn : Option Nat
deriving DecidableEq, Repr

/-- Source `freeVecElement`: call the destructor, when there is one, on the element at
`elem`. -/
def freeVecElement {β : Type} (m : Machine β) (v : vector) (elem : Ptr) :
    Except Fault (Machine β) :=
  match v.freeFn with
  | some fn => do
    let bytes ← load m elem v.elemSize
    .ok { m with trace := m.trace ++ [Call.free fn bytes] }
  | none => .ok m

/-- Source `elemAddingRequiered`: grow the buffer by `reallocSize` slots when it is full.
The new capacity is stored before `realloc` is called, and the result of `realloc` is
stored before it is asserted not to be `NULL`. -/
def elemAddingRequiered {β : Type} (m : Machine β) (v : vector) :
    Except Fault (Machine β × vector) :=
  if v.logicalSize = v.allocatedSize then do
    let allocatedSize ← intResult (v.allocatedSize + v.reallocSize)
    let v1 := { v with allocatedSize := allocatedSize }
    let size ← intResult (v1.elemSize * v1.allocatedSize)
    let (m1, p) ← realloc m v1.elems size
    let v2 := { v1 with elems := p }
    if ¬ (v2.elems ≠ NULL) then .error .assertion else
    .ok (m1, v2)
  else .ok (m, v)

/-- Source constant `DefaultAllocSize`. -/
def DefaultAllocSize : Int := 1

/-- Source `VectorNew`.  The size of the buffer is a product of two `int`s, and the
result of `malloc` is stored before it is asserted not to be `NULL`. -/
def VectorNew {β : Type} (m : Machine β) (elemSize : Int) (freeFn : Option Nat)
    (initialAllocation : Int) : Except Fault (Machine β × vector) :=
  if ¬ (elemSize > 0) then .error .assertion else
  let initialAllocation := if initialAllocation ≤ 0 then DefaultAllocSize else initialAllocation
  do
  let size ← intResult (elemSize * initialAllocation)
  let (m1, p) := malloc m size
  let v : vector := { elems := p, elemSize := elemSize, logicalSize := 0,
                      allocatedSize := initialAllocation, reallocSize := initialAllocation,
                      freeFn := freeFn }
  if ¬ (v.elems ≠ NULL) then .error .assertion else
  .ok (m1, v)

/-- Source `VectorLength`. -/
def VectorLength (v : vector) : Int := v.logicalSize

/-- Source `VectorNth`: the address of the slot at `position`. -/
def VectorNth (v : vector) (position : Int) : Except Fault Ptr :=
  if ¬ (position ≥ 0) then .error .assertion else
  if ¬ (position < v.logicalSize) then .error .assertion else
  .ok ((Ptr.mk v.elems 0).add (position * v.elemSize))

/-- Source `VectorReplace`. -/
def VectorReplace {β : Type} (m : Machine β) (v : vector) (elemAddr : List β) (position : Int) :
    Except Fault (Machine β × vector) := do
  let elemOnPosition ← VectorNth v position
  let m1 ← freeVecElement m v elemOnPosition
  let m2 ← memmoveFrom m1 elemOnPosition elemAddr v.elemSize
  .ok (m2, v)

/-- Source `VectorAppend`. -/
def VectorAppend {β : Type} (m : Machine β) (v : vector) (elemAddr : List β) :
    Except Fault (Machine β × vector) := do
  let (m1, v1) ← elemAddingRequiered m v
  let v2 := { v1 with logicalSize := v1.logicalSize + 1 }
  let slot ← VectorNth v2 (v2.logicalSize - 1)
  let m2 ← memmoveFrom m1 slot elemAddr v2.elemSize
  .ok (m2, v2)

/-- Source `VectorInsert`.  The slot address is taken before the buffer is grown and is
used afterwards, as in the source. -/
def VectorInsert {β : Type} (m : Machine β) (v : vector) (elemAddr : List β) (position : Int) :
    Except Fault (Machine β × vector) :=
  if position = v.logicalSize then VectorAppend m v elemAddr else do
  let elemOnPosition ← VectorNth v position
  let (m1, v1) ← elemAddingRequiered m v
  let m2 ← memmove m1 (elemOnPosition.add v1.elemSize) elemOnPosition
              (v1.elemSize * (v1.logicalSize - position))
  let m3 ← memmoveFrom m2 elemOnPosition elemAddr v1.elemSize
  .ok (m3, { v1 with logicalSize := v1.logicalSize + 1 })

/-- Source `VectorDelete`. -/
def VectorDelete {β : Type} (m : Machine β) (v : vector) (position : Int) :
    Except Fault (Machine β × vector) := do
  let elemOnPosition ← VectorNth v position
  let m1 ← freeVecElement m v elemOnPosition
  let v1 := { v with logicalSize := v.logicalSize - 1 }
  let m2 ← memmove m1 elemOnPosition (elemOnPosition.add v1.elemSize)
              (v1.elemSize * (v1.logicalSize - position))
  .ok (m2, v1)

/-- Source constant `kNotFound`. -/
def kNotFound : Int := -1

/-- Source `VectorSearch`. -/
def VectorSearch {β : Type} (m : Machine β) (v : vector) (key : List β)
    (searchFn : List β → List β → Int) (startIndex : Int) (isSorted : Bool) :
    Except Fault (Machine β × Int) :=
  if v.logicalSize = 0 then .ok (m, kNotFound) else do
  let startPos ← VectorNth v startIndex
  let elemsNumToSearch := (v.logicalSize - startIndex).toNat
  let (m1, found) ←
    if isSorted then bsearch m key startPos elemsNumToSearch v.elemSize searchFn
    else lfind m key startPos elemsNumToSearch v.elemSize searchFn
  match found with
  | none => .ok (m1, kNotFound)
  | some p => .ok (m1, (p.off - (Ptr.mk v.elems 0).off).tdiv v.elemSize)

/-! ## What a container holds -/

/-- The container `v` is well formed in the machine `m` and holds the sequence `s` of
elements: its fields are consistent, its buffer is a live block of
`elemSize * allocatedSize` bytes, and the buffer starts with the bytes of the elements
of `s`, one after the other. -/
structure Holds {β : Type} (m : Machine β) (v : vector) (s : List (List β)) : Prop where
  elemSize_pos : 0 < v.elemSize
  reallocSize_pos : 0 < v.reallocSize
  length_eq : v.logicalSize = s.length
  le_alloc : v.logicalSize ≤ v.allocatedSize
  elem_len : ∀ x ∈ s, (x.length : Int) = v.elemSize
  live : ∃ buf, m.block v.elems = some buf ∧ (buf.length : Int) = v.elemSize * v.allocatedSize
    ∧ s.flatten <+: buf

/-- The bytes of the slot at `position`, read through `VectorNth`. -/
def elemAt {β : Type} (m : Machine β) (v : vector) (position : Int) : Except Fault (List β) := do
  let p ← VectorNth v position
  load m p v.elemSize

/-- The trace entries of one destructor call on `x`: none when no destructor is set. -/
def destructorCalls {β : Type} (v : vector) (x : List β) : List (Call β) :=
  match v.freeFn with
  | some fn => [Call.free fn x]
  | none => []

/-- Calls `VectorAppend` on the elements of `xs`, first to last. -/
def appendAll {β : Type} (m : Machine β) (v : vector) :
    List (List β) → Except Fault (Machine β × vector)
  | [] => .ok (m, v)
  | x :: xs => do
    let (m1, v1) ← VectorAppend m v x
    appendAll m1 v1 xs

/-- The comparator is consistent with a total order: swapping its arguments flips the
sign of its result, and "not above" is transitive. -/
structure ConsistentComparator {β : Type} (compar : List β → List β → Int) : Prop where
  swap : ∀ a b, compar a b < 0 ↔ 0 < compar b a
  trans : ∀ a b c, compar a b ≤ 0 → compar b c ≤ 0 → compar a c ≤ 0

/-- The elements of `s` from index `start` on are sorted ascending under the comparator:
no element is above its successor. -/
def SortedFrom {β : Type} (compar : List β → List β → Int) (s : List (List β)) (start : Nat) :
    Prop :=
  ∀ (i : Nat) (hi : i + 1 < s.length), start ≤ i → compar s[i] s[i + 1] ≤ 0

/-! ## Dispose, sort and map -/

/-- The C library's `free`: the block is released; on `NULL` nothing happens. -/
def free {β : Type} (m : Machine β) (b : Nat) : Except Fault (Machine β) :=
  if b = NULL then .ok m else
  match m.block b with
  | some _ => .ok { m with heap := m.heap.set (b - 1) none }
  | none => .error .undefined

/-- The loop of source `VectorDispose`: the destructor `fn` is called on the slots from
index `i` on while `i < logicalSize`; `fuel` bounds the number of iterations. -/
def VectorDisposeLoop {β : Type} (v : vector) (fn : Nat) :
    Nat → Int → Machine β → Except Fault (Machine β)
  | 0, _, m => .ok m
  | fuel + 1, i, m =>
    if i < v.logicalSize then do
      let elem ← VectorNth v i
      let bytes ← load m elem v.elemSize
      VectorDisposeLoop v fn fuel (i + 1) { m with trace := m.trace ++ [Call.free fn bytes] }
    else .ok m

/-- Source `VectorDispose`. -/
def VectorDispose {β : Type} (m : Machine β) (v : vector) : Except Fault (Machine β) := do
  let m1 ← match v.freeFn with
    | some fn => VectorDisposeLoop v fn v.logicalSize.toNat 0 m
    | none => .ok m
  free m1 v.elems

/-- The first `count` consecutive pieces of `size` bytes of `bytes`. -/
def chunks {β : Type} (size : Nat) : Nat → List β → List (List β)
  | 0, _ => []
  | count + 1, bytes => bytes.take size :: chunks size count (bytes.drop size)

/-- Quicksort on a list of elements with the first element as pivot: the elements the
comparator puts below the pivot, sorted, then the pivot, then the others, sorted.
`fuel` bounds the depth of the recursion. -/
def quicksort {β : Type} (compar : List β → List β → Int) : Nat → List (List β) → List (List β)
  | 0, xs => xs
  | _ + 1, [] => []
  | fuel + 1, pivot :: rest =>
    quicksort compar fuel (rest.filter (fun a => compar a pivot < 0))
      ++ pivot :: quicksort compar fuel (rest.filter (fun a => ¬ compar a pivot < 0))

/-- Modelled from the spec: `qsort` of `<stdlib.h>` is not part of the repository; it
sorts the `nmemb` elements of `size` bytes from `base` in place with a comparison sort of
the quicksort class, here `quicksort` on the elements read from the buffer. -/
def qsort {β : Type} (m : Machine β) (base : Ptr) (nmemb : Nat) (size : Int)
    (compar : List β → List β → Int) : Except Fault (Machine β) := do
  let bytes ← load m base (nmemb * size)
  store m base (quicksort compar nmemb (chunks size.toNat nmemb bytes)).flatten

/-- Source `VectorSort`. -/
def VectorSort {β : Type} (m : Machine β) (v : vector) (compare : List β → List β → Int) :
    Except Fault (Machine β × vector) := do
  let m1 ← qsort m (Ptr.mk v.elems 0) v.logicalSize.toNat v.elemSize compare
  .ok (m1, v)

/-- One call `mapFn(elem, auxData)` of the visit function: it is handed the element at
`elem`, and the bytes it leaves there are `mapFn bytes auxData`. -/
def callMapFn {β : Type} (m : Machine β) (mapFn : List β → Nat → List β) (elem : Ptr)
    (size : Int) (auxData : Nat) : Except Fault (Machine β) := do
  let bytes ← load m elem size
  let m1 := { m with trace := m.trace ++ [Call.visit bytes auxData] }
  if (mapFn bytes auxData).length = bytes.length then store m1 elem (mapFn bytes auxData)
  else .error .undefined

/-- The loop of source `VectorMap`; `fuel` bounds the number of iterations. -/
def VectorMapLoop {β : Type} (v : vector) (mapFn : List β → Nat → List β) (auxData : Nat) :
    Nat → Int → Machine β → Except Fault (Machine β)
  | 0, _, m => .ok m
  | fuel + 1, i, m =>
    if i < v.logicalSize then do
      let elem ← VectorNth v i
      let m1 ← callMapFn m mapFn elem v.elemSize auxData
      VectorMapLoop v mapFn auxData fuel (i + 1) m1
    else .ok m

/-- Source `VectorMap`; a `NULL` visit function is `none`. -/
def VectorMap {β : Type} (m : Machine β) (v : vector) (mapFn : Option (List β → Nat → List β))
    (auxData : Nat) : Except Fault (Machine β × vector) :=
  match mapFn with
  | none => .error .assertion
  | some fn => do
    let m1 ← VectorMapLoop v fn auxData v.logicalSize.toNat 0 m
    .ok (m1, v)

/-! ## The state in which an operation stops -/

/-- The step result `r`, obtained in the state `(m, v)`: when the step fails, the
operation stops in that state. -/
def inState {β α : Type} (m : Machine β) (v : vector) (r : Except Fault α) :
    Except (Fault × Machine β × vector) α :=
  match r with
  | .ok a => .ok a
  | .error e => .error (e, m, v)

/-- Source `elemAddingRequiered`, keeping the state in which a failing step stops it. -/
def elemAddingRequieredRun {β : Type} (m : Machine β) (v : vector) :
    Except (Fault × Machine β × vector) (Machine β × vector) :=
  if v.logicalSize = v.allocatedSize then do
    let allocatedSize ← inState m v (intResult (v.allocatedSize + v.reallocSize))
    let v1 := { v with allocatedSize := allocatedSize }
    let size ← inState m v1 (intResult (v1.elemSize * v1.allocatedSize))
    let (m1, p) ← inState m v1 (realloc m v1.elems size)
    let v2 := { v1 with elems := p }
    if ¬ (v2.elems ≠ NULL) then .error (.assertion, m1, v2) else
    .ok (m1, v2)
  else .ok (m, v)

/-- Source `VectorReplace`, keeping the state in which a failing step stops it. -/
def VectorReplaceRun {β : Type} (m : Machine β) (v : vector) (elemAddr : List β)
    (position : Int) : Except (Fault × Machine β × vector) (Machine β × vector) := do
  let elemOnPosition ← inState m v (VectorNth v position)
  let m1 ← inState m v (freeVecElement m v elemOnPosition)
  let m2 ← inState m1 v (memmoveFrom m1 elemOnPosition elemAddr v.elemSize)
  .ok (m2, v)

/-- Source `VectorAppend`, keeping the state in which a failing step stops it. -/
def VectorAppendRun {β : Type} (m : Machine β) (v : vector) (elemAddr : List β) :
    Except (Fault × Machine β × vector) (Machine β × vector) := do
  let (m1, v1) ← elemAddingRequieredRun m v
  let v2 := { v1 with logicalSize := v1.logicalSize + 1 }
  let slot ← inState m1 v2 (VectorNth v2 (v2.logicalSize - 1))
  let m2 ← inState m1 v2 (memmoveFrom m1 slot elemAddr v2.elemSize)
  .ok (m2, v2)

/-- Source `VectorInsert`, keeping the state in which a failing step stops it. -/
def VectorInsertRun {β : Type} (m : Machine β) (v : vector) (elemAddr : List β)
    (position : Int) : Except (Fault × Machine β × vector) (Machine β × vector) :=
  if position = v.logicalSize then VectorAppendRun m v elemAddr else do
  let elemOnPosition ← inState m v (VectorNth v position)
  let (m1, v1) ← elemAddingRequieredRun m v
  let m2 ← inState m1 v1 (memmove m1 (elemOnPosition.add v1.elemSize) elemOnPosition
              (v1.elemSize * (v1.logicalSize - position)))
  let m3 ← inState m2 v1 (memmoveFrom m2 elemOnPosition elemAddr v1.elemSize)
  .ok (m3, { v1 with logicalSize := v1.logicalSize + 1 })

/-- Source `VectorDelete`, keeping the state in which a failing step stops it. -/
def VectorDeleteRun {β : Type} (m : Machine β) (v : vector) (position : Int) :
    Except (Fault × Machine β × vector) (Machine β × vector) := do
  let elemOnPosition ← inState m v (VectorNth v position)
  let m1 ← inState m v (freeVecElement m v elemOnPosition)
  let v1 := { v with logicalSize := v.logicalSize - 1 }
  let m2 ← inState m1 v1 (memmove m1 elemOnPosition (elemOnPosition.add v1.elemSize)
              (v1.elemSize * (v1.logicalSize - position)))
  .ok (m2, v1)

/-! ## Invariants of the struct -/

/-- The size invariant of the struct: `0 ≤ logicalSize ≤ allocatedSize`, `elemSize > 0`
and `reallocSize > 0`. -/
def SizesOk (v : vector) : Prop :=
  0 ≤ v.logicalSize ∧ v.logicalSize ≤ v.allocatedSize ∧ 0 < v.elemSize ∧ 0 < v.reallocSize

/-- The capacity after `n` appends to a fresh container of capacity `c`:
`c * max 1 ⌈n / c⌉`. -/
def appendCapacity (c n : Int) : Int := c * max 1 ((n + c - 1) / c)

/-- The fields fixed at construction are the same in both structs. -/
def SameConfig (v v1 : vector) : Prop :=
  v1.elemSize = v.elemSize ∧ v1.reallocSize = v.reallocSize ∧ v1.freeFn = v.freeFn

/-- The property `P` holds of the struct in the state a run ends in, whether the run
returns or stops. -/
def endsIn {β : Type} (P : vector → Prop)
    (r : Except (Fault × Machine β × vector) (Machine β × vector)) : Prop :=
  match r with
  | .ok (_, v1) => P v1
  | .error (_, _, v1) => P v1

/-- How the struct may differ in a state reached by `VectorAppend` or `VectorInsert`: the
capacity is as before or, when the container was full, larger by `reallocSize`; the
length is as before or larger by one, and then the capacity has grown if the container
was full. -/
def AddStep (v v1 : vector) : Prop :=
  SameConfig v v1
  ∧ (v1.allocatedSize = v.allocatedSize
      ∨ (v.logicalSize = v.allocatedSize ∧ v1.allocatedSize = v.allocatedSize + v.reallocSize))
  ∧ (v1.logicalSize = v.logicalSize
      ∨ (v1.logicalSize = v.logicalSize + 1
          ∧ (v.logicalSize = v.allocatedSize
              → v1.allocatedSize = v.allocatedSize + v.reallocSize)))

/-- How the struct may differ in a state reached by `VectorDelete`: the capacity is as
before; the length is as before or, when it was positive, smaller by one. -/
def DeleteStep (v v1 : vector) : Prop :=
  SameConfig v v1 ∧ v1.allocatedSize = v.allocatedSize
  ∧ (v1.logicalSize = v.logicalSize ∨ (v1.logicalSize = v.logicalSize - 1 ∧ 0 < v.logicalSize))

/-- How the struct that `elemAddingRequiered` returns differs: the length is kept and
the capacity is larger by `reallocSize` exactly when the container was full. -/
def GrowStep (v v1 : vector) : Prop :=
  SameConfig v v1 ∧ v1.logicalSize = v.logicalSize
  ∧ v1.allocatedSize = (if v.logicalSize = v.allocatedSize
      then v.allocatedSize + v.reallocSize else v.allocatedSize)

/-- How the struct differs in a state in which `elemAddingRequiered` stops or returns:
the length is kept and the capacity is as before or, when the container was full,
larger by `reallocSize`. -/
def GrowStop (v v1 : vector) : Prop :=
  SameConfig v v1 ∧ v1.logicalSize = v.logicalSize
  ∧ (v1.allocatedSize = v.allocatedSize
      ∨ (v.logicalSize = v.allocatedSize ∧ v1.allocatedSize = v.allocatedSize + v.reallocSize))

/-- The state `(m1, v1)` in which a run stops when `realloc` has returned `NULL` for the
growth of the full container `v` in the machine `m`: the new capacity and the `NULL` are
already stored in the struct, the allocator has used up one of its answers, and nothing
else has changed (heap, trace, `logicalSize`). -/
def GrowthRefused {β : Type} (m : Machine β) (v : vector) (m1 : Machine β) (v1 : vector) :
    Prop :=
  v.logicalSize = v.allocatedSize
  ∧ m1 = { m with refuse := m.refuse.tail }
  ∧ v1 = { v with allocatedSize := v.allocatedSize + v.reallocSize, elems := NULL }

/-- The capacity has not decreased and the fields fixed at construction are the same. -/
def NoShrink (v v1 : vector) : Prop :=
  v.allocatedSize ≤ v1.allocatedSize ∧ SameConfig v v1

/-! ## What the allocator is asked for -/

/-- The allocator refuses none of its coming calls. -/
def Grants {β : Type} (m : Machine β) : Prop := ∀ b ∈ m.refuse, b = false

/-- The growth step of `elemAddingRequiered` on `v` goes through: the size of the grown
buffer, and with it the grown capacity, is within the range of `int`, and the allocator
does not refuse its next call. -/
def CanGrow {β : Type} (m : Machine β) (v : vector) : Prop :=
  v.elemSize * (v.allocatedSize + v.reallocSize) ≤ INT_MAX ∧ m.refuse.head? ≠ some true

instance {β : Type} (m : Machine β) : Decidable (Grants m) :=
  inferInstanceAs (Decidable (∀ b ∈ m.refuse, b = false))

instance {β : Type} (m : Machine β) (v : vector) : Decidable (CanGrow m v) :=
  inferInstanceAs (Decidable (v.elemSize * (v.allocatedSize + v.reallocSize) ≤ INT_MAX
    ∧ m.refuse.head? ≠ some true))

/-! ## Concrete machines and containers -/

/-- A machine with an empty heap whose allocator refuses no request and moves a block
at the listed calls of `realloc`. -/
def emptyMachine (relocate : List Bool) : Machine Nat :=
  { heap := [], relocate := relocate, junk := 0, trace := [], refuse := [] }

/-- A full container of two 4-byte elements, `1` and `2`, whose allocator will grant the
next growth and move the buffer. -/
def fullMachine : Machine Nat :=
  { heap := [some [1, 0, 0, 0, 2, 0, 0, 0]], relocate := [true], junk := 0, trace := [],
    refuse := [] }

/-- The `vector` struct of the container in `fullMachine`. -/
def fullVector : vector :=
  { elems := 1, elemSize := 4, logicalSize := 2, allocatedSize := 2, reallocSize := 2,
    freeFn := none }

/-- A full container of three 1-byte elements with a destructor, whose allocator will
grant the next growth and move the buffer. -/
def roundTripMachine : Machine Nat :=
  { heap := [some [10, 20, 30]], relocate := [true], junk := 0, trace := [], refuse := [] }

/-- The `vector` struct of the container in `roundTripMachine`. -/
def roundTripVector : vector :=
  { elems := 1, elemSize := 1, logicalSize := 3, allocatedSize := 3, reallocSize := 3,
    freeFn := some 7 }

/-- A container of five 1-byte elements `5, 7, 7, 9, 11` with room for six. -/
def searchMachine : Machine Nat :=
  { heap := [some [5, 7, 7, 9, 11, 0]], relocate := [], junk := 0, trace := [], refuse := [] }

/-- The `vector` struct of the container in `searchMachine`. -/
def searchVector : vector :=
  { elems := 1, elemSize := 1, logicalSize := 5, allocatedSize := 6, reallocSize := 2,
    freeFn := none }

/-- A machine with an empty heap whose allocator returns `NULL` at the listed calls of
`malloc` and `realloc`, and does not move a block. -/
def refusingMachine (refuse : List Bool) : Machine Nat :=
  { heap := [], relocate := [], junk := 0, trace := [], refuse := refuse }

/-- A comparator on 1-byte elements: the difference of the two bytes. -/
def byteCompare (a b : List Nat) : Int := (a.headD 0 : Int) - (b.headD 0 : Int)

/-- An empty container of 4-byte elements with room for two. -/
def emptyVector : vector :=
  { elems := 1, elemSize := 4, logicalSize := 0, allocatedSize := 2, reallocSize := 2,
    freeFn := none }

/-- A full container of four 1-byte elements `7, 5, 9, 7`. -/
def sortMachine : Machine Nat :=
  { heap := [some [7, 5, 9, 7]], relocate := [], junk := 0, trace := [], refuse := [] }

/-- The `vector` struct of the container in `sortMachine`. -/
def sortVector : vector :=
  { elems := 1, elemSize := 1, logicalSize := 4, allocatedSize := 4, reallocSize := 4,
    freeFn := none }

/-- The full container of `fullMachine`, with an allocator that refuses the next
request. -/
def fullRefusedMachine : Machine Nat :=
  { heap := [some [1, 0, 0, 0, 2, 0, 0, 0]], relocate := [], junk := 0, trace := [],
    refuse := [true] }

/-- The full container of `roundTripMachine`, with an allocator that refuses the next
request. -/
def roundTripRefusedMachine : Machine Nat :=
  { heap := [some [10, 20, 30]], relocate := [], junk := 0, trace := [], refuse := [true] }

/-- A full container of one element of 2^30 bytes. -/
def wideMachine : Machine Nat :=
  { heap := [some (List.replicate 1073741824 0)], relocate := [], junk := 0, trace := [],
    refuse := [] }

/-- The `vector` struct of the container in `wideMachine`. -/
def wideVector : vector :=
  { elems := 1, elemSize := 1073741824, logicalSize := 1, allocatedSize := 1, reallocSize := 1,
    freeFn := none }

/-- A full container of three 1-byte elements `1, 2, 3`. -/
def orderedMachine : Machine Nat :=
  { heap := [some [1, 2, 3]], relocate := [], junk := 0, trace := [], refuse := [] }

/-- The `vector` struct of the container in `orderedMachine`. -/
def orderedVector : vector :=
  { elems := 1, elemSize := 1, logicalSize := 3, allocatedSize := 3, reallocSize := 3,
    freeFn := none }

/-- A comparator that is not an order: it reports equal elements as equal and puts
every element below every other one. -/
def matchOnly (a b : List Nat) : Int := if a = b then 0 else -1

/-! ## Heap lemmas -/

theorem bind_eq_ok {ε α γ : Type} {x : Except ε α} {f : α → Except ε γ} {b : γ}
    (h : (x >>= f) = .ok b) : ∃ a, x = .ok a ∧ f a = .ok b := by
  cases x with
  | error e => exact Except.noConfusion h
  | ok a => exact ⟨a, rfl, h⟩

theorem getD_set_self {γ : Type} (l : List (Option γ)) (b : Nat) (x : Option γ)
    (h : b < l.length) : (l.set b x).getD b none = x := by
  simp [List.getD_eq_getElem?_getD, List.getElem?_set, h]

theorem getD_append_self {γ : Type} (l : List (Option γ)) (x : Option γ) :
    (l ++ [x]).getD l.length none = x := by
  simp [List.getD_eq_getElem?_getD]

theorem block_lt {β : Type} {m : Machine β} {b : Nat} {buf : List β}
    (h : m.block b = some buf) : b ≠ NULL ∧ b - 1 < m.heap.length := by
  unfold Machine.block at h
  by_cases hb : b = NULL
  · rw [if_pos hb] at h
    exact Option.noConfusion h
  · rw [if_neg hb] at h
    refine ⟨hb, ?_⟩
    by_contra hlt
    have : m.heap.getD (b - 1) none = none := by
      simp [List.getD_eq_getElem?_getD, List.getElem?_eq_none (Nat.le_of_not_lt hlt)]
    rw [this] at h
    exact Option.noConfusion h

theorem block_succ {β : Type} (m : Machine β) (n : Nat) :
    m.block (n + 1) = m.heap.getD n none := by
  rw [Machine.block, if_neg (show ¬ (n + 1 = NULL) from Nat.succ_ne_zero n), Nat.add_sub_cancel]

theorem load_at {β : Type} (m : Machine β) (b : Nat) (A B C : List β)
    (h : m.block b = some (A ++ B ++ C)) :
    load m ⟨b, (A.length : Int)⟩ (B.length : Int) = .ok B := by
  have hle : (A.length : Int) + B.length ≤ (A ++ B ++ C).length := by
    simp only [List.length_append]; push_cast; omega
  simp only [load, h]
  rw [if_pos ⟨by omega, by omega, hle⟩]
  simp [List.append_assoc]

theorem store_at {β : Type} (m : Machine β) (b : Nat) (A B Z : List β)
    (h : m.block b = some (A ++ Z)) (hB : B.length ≤ Z.length) :
    store m ⟨b, (A.length : Int)⟩ B
      = .ok { m with heap := m.heap.set (b - 1) (some (A ++ B ++ Z.drop B.length)) } := by
  have hle : (A.length : Int) + B.length ≤ (A ++ Z).length := by
    simp only [List.length_append]; push_cast; omega
  simp only [store, h]
  rw [if_pos ⟨by omega, hle⟩]
  simp

theorem block_store {β : Type} (m : Machine β) (b : Nat) (buf : List β)
    (h : b ≠ NULL ∧ b - 1 < m.heap.length) :
    Machine.block { m with heap := m.heap.set (b - 1) (some buf) } b = some buf := by
  rw [Machine.block, if_neg h.1]
  exact getD_set_self _ _ _ h.2

/-! ## Lists of equally long elements -/

theorem length_flatten_of {β : Type} (s : List (List β)) (es : Int)
    (h : ∀ x ∈ s, (x.length : Int) = es) : ((s.flatten).length : Int) = s.length * es := by
  induction s with
  | nil => simp
  | cons a t ih =>
    have ha := h a (List.mem_cons_self a t)
    have ht := ih (fun x hx => h x (List.mem_cons_of_mem a hx))
    simp only [List.flatten_cons, List.length_append, List.length_cons]
    push_cast
    rw [ht, ha]; ring

theorem length_flatten_take {β : Type} (s : List (List β)) (es : Int)
    (h : ∀ x ∈ s, (x.length : Int) = es) (i : Nat) (hi : i ≤ s.length) :
    (((s.take i).flatten).length : Int) = i * es := by
  rw [length_flatten_of (s.take i) es (fun x hx => h x (List.mem_of_mem_take hx))]
  simp [List.length_take, Nat.min_eq_left hi]

theorem length_flatten_drop {β : Type} (s : List (List β)) (es : Int)
    (h : ∀ x ∈ s, (x.length : Int) = es) (i : Nat) (hi : i ≤ s.length) :
    (((s.drop i).flatten).length : Int) = (s.length - i) * es := by
  rw [length_flatten_of (s.drop i) es (fun x hx => h x (List.mem_of_mem_drop hx))]
  simp [List.length_drop, Nat.cast_sub hi]

theorem flatten_split {β : Type} (s : List (List β)) (i : Nat) :
    s.flatten = (s.take i).flatten ++ (s.drop i).flatten := by
  rw [← List.flatten_append, List.take_append_drop]

/-! ## Allocation and append -/

/-- A granted `realloc` to a size that is not smaller keeps the bytes of the block. -/
theorem realloc_grows {β : Type} (m : Machine β) (b : Nat) (buf : List β) (size : Int)
    (h : m.block b = some buf) (hsize : (buf.length : Int) ≤ size)
    (hgrant : m.refuse.head? ≠ some true) :
    ∃ m1 b1 ext, realloc m b size = .ok (m1, b1) ∧ b1 ≠ NULL
      ∧ m1.block b1 = some (buf ++ ext)
      ∧ ((buf ++ ext).length : Int) = size ∧ m1.trace = m.trace
      ∧ m1.refuse = m.refuse.tail
      ∧ (m.relocate.head? ≠ some true → b1 = b) := by
  have hb := block_lt h
  have htake : buf.take size.toNat = buf := List.take_of_length_le (by omega)
  have hlen : ((buf ++ List.replicate (size.toNat - buf.length) m.junk).length : Int) = size := by
    simp only [List.length_append, List.length_replicate]; omega
  have hno : ¬ (m.refuse.head? = some true ∨ size < 0) := by
    intro hor
    rcases hor with hor | hor
    · exact hgrant hor
    · omega
  unfold realloc
  rw [if_neg hb.1]
  simp only [h]
  rw [if_neg hno]
  cases hr : m.relocate with
  | nil =>
    simp only [htake]
    refine ⟨_, _, _, rfl, hb.1, ?_, hlen, rfl, rfl, fun _ => rfl⟩
    exact block_store { m with refuse := m.refuse.tail } b _ hb
  | cons c rest =>
    cases c with
    | false =>
      simp only [htake]
      refine ⟨_, _, _, rfl, hb.1, ?_, hlen, rfl, rfl, fun _ => rfl⟩
      exact block_store { m with refuse := m.refuse.tail, relocate := rest } b _ hb
    | true =>
      simp only [htake]
      refine ⟨_, _, _, rfl, Nat.succ_ne_zero _, ?_, hlen, rfl, rfl, fun hne => absurd rfl hne⟩
      rw [block_succ]
      have := getD_append_self (m.heap.set (b - 1) none)
        (some (buf ++ List.replicate (size.toNat - buf.length) m.junk))
      rwa [List.length_set] at this

theorem intResult_ok (x : Int) (h0 : 0 ≤ x) (h1 : x ≤ INT_MAX) : intResult x = .ok x := by
  unfold intResult
  rw [if_pos ⟨by unfold INT_MIN; omega, h1⟩]

theorem intResult_eq_ok {x y : Int} (h : intResult x = .ok y) : y = x ∧ x ≤ INT_MAX := by
  unfold intResult at h
  split at h
  · rename_i hx
    exact ⟨(Except.ok.inj h).symm, hx.2⟩
  · exact Except.noConfusion h

theorem Grants.head {β : Type} {m : Machine β} (h : Grants m) : m.refuse.head? ≠ some true := by
  intro hh
  cases hr : m.refuse with
  | nil => rw [hr] at hh; exact Option.noConfusion hh
  | cons c rest =>
    rw [hr] at hh
    have hc : c = true := Option.some.inj hh
    have := h c (by rw [hr]; exact List.mem_cons_self c rest)
    rw [hc] at this
    exact Bool.noConfusion this

theorem Grants.next {β : Type} {m m1 : Machine β} (h : Grants m)
    (hr : m1.refuse = m.refuse ∨ m1.refuse = m.refuse.tail) : Grants m1 := by
  intro b hb
  rcases hr with hr | hr
  · rw [hr] at hb; exact h b hb
  · rw [hr] at hb; exact h b (List.mem_of_mem_tail hb)

/-- What `VectorNew` has done when it returns. -/
theorem VectorNew_ok {β : Type} {m m1 : Machine β} {elemSize : Int} {freeFn : Option Nat}
    {initialAllocation : Int} {v : vector}
    (h : VectorNew m elemSize freeFn initialAllocation = .ok (m1, v)) :
    0 < elemSize ∧ Holds m1 v [] ∧ m1.trace = m.trace ∧ v.elemSize = elemSize
      ∧ v.freeFn = freeFn
      ∧ v.allocatedSize = (if initialAllocation ≤ 0 then 1 else initialAllocation)
      ∧ v.reallocSize = v.allocatedSize ∧ v.logicalSize = 0
      ∧ m1.refuse = m.refuse.tail ∧ m.refuse.head? ≠ some true
      ∧ elemSize * v.allocatedSize ≤ INT_MAX := by
  have hcap : 0 < (if initialAllocation ≤ 0 then DefaultAllocSize else initialAllocation) := by
    split
    · decide
    · omega
  unfold VectorNew at h
  by_cases hes : elemSize > 0
  · rw [if_neg (not_not.2 hes)] at h
    obtain ⟨size, hsize, h2⟩ := bind_eq_ok h
    obtain ⟨rfl, hfit⟩ := intResult_eq_ok hsize
    have hpos := Int.mul_pos hes hcap
    unfold malloc at h2
    by_cases hno : m.refuse.head? = some true ∨
        elemSize * (if initialAllocation ≤ 0 then DefaultAllocSize else initialAllocation) < 0
    · rw [if_pos hno] at h2
      simp only [ne_eq, not_true_eq_false, not_false_eq_true, if_true] at h2
      exact Except.noConfusion h2
    · rw [if_neg hno] at h2
      simp only [ne_eq, NULL, Nat.succ_ne_zero, not_false_eq_true, not_true_eq_false,
        if_false] at h2
      obtain ⟨rfl, rfl⟩ := Prod.mk.inj (Except.ok.inj h2)
      refine ⟨hes, ⟨hes, hcap, rfl, Int.le_of_lt hcap, ?_, ?_⟩, rfl, rfl, rfl, rfl, rfl, rfl,
        rfl, fun hh => hno (Or.inl hh), hfit⟩
      · intro x hx; cases hx
      · refine ⟨List.replicate (elemSize *
            (if initialAllocation ≤ 0 then DefaultAllocSize else initialAllocation)).toNat m.junk,
          ?_, ?_, by simp⟩
        · rw [block_succ]
          exact getD_append_self m.heap _
        · simp only [List.length_replicate]
          omega
  · rw [if_pos hes] at h
    exact Except.noConfusion h

/-- When the size of the buffer is within `int` and the allocator grants the request,
`VectorNew` returns. -/
theorem VectorNew_returns {β : Type} (m : Machine β) (elemSize : Int) (freeFn : Option Nat)
    (initialAllocation : Int) (hes : 0 < elemSize)
    (hfit : elemSize * (if initialAllocation ≤ 0 then 1 else initialAllocation) ≤ INT_MAX)
    (hgrant : m.refuse.head? ≠ some true) :
    ∃ m1 v, VectorNew m elemSize freeFn initialAllocation = .ok (m1, v) := by
  have hcap : 0 < (if initialAllocation ≤ 0 then DefaultAllocSize else initialAllocation) := by
    split
    · decide
    · omega
  have hpos := Int.mul_pos hes hcap
  have hint := intResult_ok _ (Int.le_of_lt hpos) hfit
  have hno : ¬ (m.refuse.head? = some true ∨
      elemSize * (if initialAllocation ≤ 0 then DefaultAllocSize else initialAllocation) < 0) := by
    intro hor
    rcases hor with hor | hor
    · exact hgrant hor
    · omega
  unfold VectorNew
  rw [if_neg (not_not.2 hes)]
  simp only [bind, Except.bind, hint, malloc]
  rw [if_neg hno]
  simp only [ne_eq, NULL, Nat.succ_ne_zero, not_false_eq_true, not_true_eq_false, if_false]
  exact ⟨_, _, rfl⟩

theorem VectorNew_holds {β : Type} (m : Machine β) (elemSize : Int) (freeFn : Option Nat)
    (initialAllocation : Int) (hes : 0 < elemSize)
    (hfit : elemSize * (if initialAllocation ≤ 0 then 1 else initialAllocation) ≤ INT_MAX)
    (hgrant : m.refuse.head? ≠ some true) :
    ∃ m1 v, VectorNew m elemSize freeFn initialAllocation = .ok (m1, v) ∧ Holds m1 v []
      ∧ m1.trace = m.trace ∧ v.elemSize = elemSize ∧ v.freeFn = freeFn
      ∧ v.allocatedSize = (if initialAllocation ≤ 0 then 1 else initialAllocation)
      ∧ v.reallocSize = v.allocatedSize ∧ m1.refuse = m.refuse.tail := by
  obtain ⟨m1, v, hnew⟩ := VectorNew_returns m elemSize freeFn initialAllocation hes hfit hgrant
  obtain ⟨-, h0, htr, he, hf, ha, hr, -, hre, -, -⟩ := VectorNew_ok hnew
  exact ⟨m1, v, hnew, h0, htr, he, hf, ha, hr, hre⟩

theorem store_ok {β : Type} (m : Machine β) (b : Nat) (off : Int) (A B Z : List β)
    (h : m.block b = some (A ++ Z)) (hoff : off = A.length) (hB : B.length ≤ Z.length) :
    ∃ m1, store m ⟨b, off⟩ B = .ok m1 ∧ m1.block b = some (A ++ B ++ Z.drop B.length)
      ∧ m1.trace = m.trace ∧ m1.relocate = m.relocate ∧ m1.refuse = m.refuse := by
  subst hoff
  rw [store_at m b A B Z h hB]
  exact ⟨_, rfl, block_store m b _ (block_lt h), rfl, rfl, rfl⟩

theorem memmoveFrom_ok {β : Type} (m : Machine β) (b : Nat) (off n : Int) (A x Z : List β)
    (h : m.block b = some (A ++ Z)) (hoff : off = A.length) (hn : n = x.length)
    (hx : x.length ≤ Z.length) :
    ∃ m1, memmoveFrom m ⟨b, off⟩ x n = .ok m1 ∧ m1.block b = some (A ++ x ++ Z.drop x.length)
      ∧ m1.trace = m.trace ∧ m1.relocate = m.relocate ∧ m1.refuse = m.refuse := by
  subst hn
  have htake : x.take (x.length : Int).toNat = x := List.take_of_length_le (by omega)
  unfold memmoveFrom
  rw [if_pos ⟨by omega, le_refl _⟩, htake]
  exact store_ok m b off A x Z h hoff hx

/-- Growing keeps what the container holds and leaves room for one more element. -/
theorem elemAddingRequiered_holds {β : Type} (m : Machine β) (v : vector) (s : List (List β))
    (h : Holds m v s) (hgrow : v.logicalSize = v.allocatedSize → CanGrow m v) :
    ∃ m1 v1, elemAddingRequiered m v = .ok (m1, v1) ∧ Holds m1 v1 s
      ∧ v1.logicalSize < v1.allocatedSize ∧ m1.trace = m.trace
      ∧ v1.logicalSize = v.logicalSize ∧ v1.elemSize = v.elemSize
      ∧ v1.reallocSize = v.reallocSize ∧ v1.freeFn = v.freeFn
      ∧ v1.allocatedSize = (if v.logicalSize = v.allocatedSize
          then v.allocatedSize + v.reallocSize else v.allocatedSize)
      ∧ ((v.logicalSize = v.allocatedSize → m.relocate.head? ≠ some true) → v1.elems = v.elems)
      ∧ (m1.refuse = m.refuse ∨ m1.refuse = m.refuse.tail) := by
  obtain ⟨hes, hr, hlen, hle, helem, buf, hblk, hbuf, t, ht⟩ := h
  by_cases hfull : v.logicalSize = v.allocatedSize
  · obtain ⟨hfit, hgrant⟩ := hgrow hfull
    have hmul : 0 < v.elemSize * v.reallocSize := Int.mul_pos hes hr
    have hsize : (buf.length : Int) ≤ v.elemSize * (v.allocatedSize + v.reallocSize) := by
      rw [Int.mul_add]; omega
    have hcap : v.allocatedSize + v.reallocSize
        ≤ v.elemSize * (v.allocatedSize + v.reallocSize) :=
      le_mul_of_one_le_left (by omega) (by omega)
    have hint1 := intResult_ok (v.allocatedSize + v.reallocSize) (by omega) (by omega)
    have hint2 := intResult_ok (v.elemSize * (v.allocatedSize + v.reallocSize)) (by omega) hfit
    obtain ⟨m1, b1, ext, hre, hb1, hblk1, hlen1, htr, href, hsame⟩ :=
      realloc_grows m v.elems buf _ hblk hsize hgrant
    refine ⟨m1, { v with allocatedSize := v.allocatedSize + v.reallocSize, elems := b1 }, ?_, ?_,
      ?_, htr, rfl, rfl, rfl, rfl, ?_, ?_, Or.inr href⟩
    · unfold elemAddingRequiered
      rw [if_pos hfull]
      simp only [bind, Except.bind, hint1, hint2, hre]
      rw [if_neg (not_not.2 hb1)]
    · refine ⟨hes, hr, hlen, ?_, helem, buf ++ ext, hblk1, hlen1, t ++ ext, ?_⟩
      · show v.logicalSize ≤ v.allocatedSize + v.reallocSize
        omega
      · rw [← List.append_assoc, ht]
    · show v.logicalSize < v.allocatedSize + v.reallocSize
      omega
    · simp only [hfull, if_true]
    · intro hno; exact hsame (hno hfull)
  · refine ⟨m, v, ?_, ⟨hes, hr, hlen, hle, helem, buf, hblk, hbuf, t, ht⟩, ?_, rfl, rfl, rfl, rfl,
      rfl, ?_, fun _ => rfl, Or.inl rfl⟩
    · simp only [elemAddingRequiered, hfull, if_false]
    · omega
    · simp only [hfull, if_false]

/-- Appending to a container that holds `s`, when the growth step (if one is due) goes
through, succeeds and gives a container that holds `s ++ [x]`. -/
theorem VectorAppend_holds {β : Type} (m : Machine β) (v : vector) (s : List (List β))
    (x : List β) (h : Holds m v s) (hx : (x.length : Int) = v.elemSize)
    (hgrow : v.logicalSize = v.allocatedSize → CanGrow m v) :
    ∃ m1 v1, VectorAppend m v x = .ok (m1, v1) ∧ Holds m1 v1 (s ++ [x])
      ∧ m1.trace = m.trace ∧ v1.elemSize = v.elemSize
      ∧ v1.reallocSize = v.reallocSize ∧ v1.freeFn = v.freeFn
      ∧ v1.allocatedSize = (if v.logicalSize = v.allocatedSize
          then v.allocatedSize + v.reallocSize else v.allocatedSize)
      ∧ (m1.refuse = m.refuse ∨ m1.refuse = m.refuse.tail) := by
  obtain ⟨m1, v1, hgrown, h1, hroom, htr, hl, he, hr, hf, ha, -, href⟩ :=
    elemAddingRequiered_holds m v s h hgrow
  obtain ⟨hes, hrs, hlen, hle, helem, buf, hblk, hbuf, t, ht⟩ := h1
  have hflat : ((s.flatten).length : Int) = s.length * v1.elemSize := length_flatten_of s _ helem
  have hx1 : (x.length : Int) = v1.elemSize := by rw [he]; exact hx
  have hxt : x.length ≤ t.length := by
    have h1 : (buf.length : Int) = s.flatten.length + t.length := by
      rw [← ht]; simp
    have h2 : v1.elemSize * v1.allocatedSize
        = v1.elemSize * v1.logicalSize + v1.elemSize * (v1.allocatedSize - v1.logicalSize) := by ring
    have h3 : v1.elemSize ≤ v1.elemSize * (v1.allocatedSize - v1.logicalSize) :=
      le_mul_of_one_le_right (Int.le_of_lt hes) (by omega)
    have h4 : v1.elemSize * v1.logicalSize = s.flatten.length := by
      rw [hflat, hlen]; ring
    omega
  obtain ⟨m2, hst, hblk2, htr2, -, href2⟩ := memmoveFrom_ok m1 v1.elems
    (0 + (v1.logicalSize + 1 - 1) * v1.elemSize) v1.elemSize s.flatten x t (ht ▸ hblk)
    (by rw [hflat, hlen]; ring) hx1.symm hxt
  refine ⟨m2, { v1 with logicalSize := v1.logicalSize + 1 }, ?_, ?_, htr2.trans htr, he, hr, hf,
    ha, by rw [href2]; exact href⟩
  · simp only [VectorAppend, hgrown, bind, Except.bind, VectorNth, Ptr.add]
    rw [if_neg (by omega), if_neg (by omega)]
    simp only [hst]
  · refine ⟨hes, hrs, ?_, ?_, ?_, _, hblk2, ?_, t.drop x.length, ?_⟩
    · show v1.logicalSize + 1 = ((s ++ [x]).length : Int)
      simp [hlen]
    · show v1.logicalSize + 1 ≤ v1.allocatedSize
      omega
    · intro y hy
      rcases List.mem_append.1 hy with hy | hy
      · exact helem y hy
      · rw [List.mem_singleton.1 hy]; exact hx1
    · rw [← hbuf, ← ht]
      simp only [List.length_append, List.length_drop]
      push_cast [Nat.cast_sub hxt]
      omega
    · simp

/-! ## Reading elements -/

theorem flatten_split3 {β : Type} (s : List (List β)) (i : Nat) (hi : i < s.length) :
    s.flatten = (s.take i).flatten ++ s[i] ++ (s.drop (i + 1)).flatten := by
  have e := List.take_append_drop i s
  rw [List.drop_eq_getElem_cons hi] at e
  have e2 := congrArg List.flatten e
  rw [← e2, List.flatten_append, List.flatten_cons, List.append_assoc]

theorem memmove_ok {β : Type} (m : Machine β) (b : Nat) (dst src n : Int) (A B C A1 Z : List β)
    (h : m.block b = some (A ++ B ++ C)) (hsrc : src = A.length) (hn : n = B.length)
    (h1 : A ++ B ++ C = A1 ++ Z) (hdst : dst = A1.length) (hB : B.length ≤ Z.length) :
    ∃ m1, memmove m ⟨b, dst⟩ ⟨b, src⟩ n = .ok m1
      ∧ m1.block b = some (A1 ++ B ++ Z.drop B.length)
      ∧ m1.trace = m.trace ∧ m1.relocate = m.relocate ∧ m1.refuse = m.refuse := by
  subst hsrc hn
  simp only [memmove, load_at m b A B C h, bind, Except.bind]
  exact store_ok m b dst A1 B Z (h1 ▸ h) hdst hB

/-- The parts of the buffer around the slot at index `i`. -/
theorem Holds.split {β : Type} {m : Machine β} {v : vector} {s : List (List β)}
    (h : Holds m v s) (i : Nat) (hi : i < s.length) :
    ∃ t, m.block v.elems
        = some ((s.take i).flatten ++ s[i] ++ ((s.drop (i + 1)).flatten ++ t))
      ∧ (((s.take i).flatten.length : Int) = i * v.elemSize)
      ∧ ((s[i].length : Int) = v.elemSize)
      ∧ (((s.drop (i + 1)).flatten.length : Int) = (s.length - (i + 1)) * v.elemSize)
      ∧ ((t.length : Int) = v.elemSize * (v.allocatedSize - v.logicalSize)) := by
  obtain ⟨hes, hr, hlen, hle, helem, buf, hblk, hbuf, t, ht⟩ := h
  have h3 := flatten_split3 s i hi
  have ha := length_flatten_take s _ helem i (Nat.le_of_lt hi)
  have hc := length_flatten_drop s _ helem (i + 1) hi
  have hb := helem s[i] (List.getElem_mem hi)
  refine ⟨t, ?_, ha, hb, by rw [hc]; push_cast; ring, ?_⟩
  · rw [hblk, ← ht, h3]; simp [List.append_assoc]
  · have hf := length_flatten_of s _ helem
    have : (buf.length : Int) = s.flatten.length + t.length := by rw [← ht]; simp
    rw [hbuf, hf, ← hlen] at this
    have e : v.elemSize * (v.allocatedSize - v.logicalSize)
        = v.elemSize * v.allocatedSize - v.logicalSize * v.elemSize := by ring
    omega

/-- A container that holds `s` reports its length and gives back its elements. -/
theorem Holds.elemAt_eq {β : Type} {m : Machine β} {v : vector} {s : List (List β)}
    (h : Holds m v s) (i : Nat) (hi : i < s.length) : elemAt m v i = .ok s[i] := by
  obtain ⟨t, hblk, ha, hb, -, -⟩ := h.split i hi
  have hl := h.length_eq
  simp only [elemAt, VectorNth, Ptr.add, bind, Except.bind]
  rw [if_neg (by omega), if_neg (by omega)]
  have e : (0 : Int) + (i : Int) * v.elemSize = ((s.take i).flatten.length : Int) := by
    rw [ha]; ring
  rw [e, ← hb]
  exact load_at m v.elems _ _ _ hblk

/-- The capacity `c * max 1 ⌈n / c⌉` has room for `n` elements. -/
theorem appendCapacity_room (c n : Int) (hc : 0 < c) : n ≤ max 1 ((n + c - 1) / c) * c := by
  have h := Int.lt_ediv_add_one_mul_self (n + c - 1) hc
  have e : ((n + c - 1) / c + 1) * c = (n + c - 1) / c * c + c := by ring
  have hle : (n + c - 1) / c * c ≤ max 1 ((n + c - 1) / c) * c :=
    mul_le_mul_of_nonneg_right (le_max_right _ _) (Int.le_of_lt hc)
  omega

/-- Appending the elements of `xs` to a container whose capacity is `k` growth
increments, when the allocator refuses nothing and the buffer of the `K` increments that
hold all the elements is within `int`: every append returns, the container holds the
elements in order, and its capacity is the least number of increments that holds them. -/
theorem appendAll_run {β : Type} (xs : List (List β)) (m : Machine β) (v : vector)
    (s : List (List β)) (h : Holds m v s) (hxs : ∀ x ∈ xs, (x.length : Int) = v.elemSize)
    (hgrants : Grants m) (k K : Int) (hk : 1 ≤ k) (ha : v.allocatedSize = k * v.reallocSize)
    (hlow : k = 1 ∨ (k - 1) * v.reallocSize < s.length) (hK : k ≤ K)
    (hroom : ((s ++ xs).length : Int) ≤ K * v.reallocSize)
    (hfit : v.elemSize * (K * v.reallocSize) ≤ INT_MAX) :
    ∃ m1 v1 k1, appendAll m v xs = .ok (m1, v1) ∧ Holds m1 v1 (s ++ xs)
      ∧ m1.trace = m.trace ∧ v1.elemSize = v.elemSize
      ∧ v1.reallocSize = v.reallocSize ∧ 1 ≤ k1 ∧ v1.allocatedSize = k1 * v.reallocSize
      ∧ (k1 = 1 ∨ (k1 - 1) * v.reallocSize < (s ++ xs).length) := by
  induction xs generalizing m v s k with
  | nil => exact ⟨m, v, k, rfl, by simpa using h, rfl, rfl, rfl, hk, ha, by simpa using hlow⟩
  | cons x xs ih =>
    have hl := h.length_eq
    have hrpos := h.reallocSize_pos
    have hes := h.elemSize_pos
    have hlen1 : ((s ++ [x]).length : Int) = s.length + 1 := by simp
    have hlen2 : ((s ++ x :: xs).length : Int) = s.length + 1 + xs.length := by
      simp only [List.length_append, List.length_cons]; push_cast; ring
    have hgrow : v.logicalSize = v.allocatedSize → CanGrow m v := by
      intro hfull
      refine ⟨?_, hgrants.head⟩
      have hlt : k * v.reallocSize < K * v.reallocSize := by omega
      have hkK : k < K := lt_of_mul_lt_mul_right hlt (Int.le_of_lt hrpos)
      have h1 : (k + 1) * v.reallocSize ≤ K * v.reallocSize :=
        mul_le_mul_of_nonneg_right (by omega) (Int.le_of_lt hrpos)
      have h2 : v.elemSize * ((k + 1) * v.reallocSize) ≤ v.elemSize * (K * v.reallocSize) :=
        mul_le_mul_of_nonneg_left h1 (Int.le_of_lt hes)
      have e : v.allocatedSize + v.reallocSize = (k + 1) * v.reallocSize := by rw [ha]; ring
      rw [e]
      omega
    obtain ⟨m1, v1, happ, h1, htr, he, hr, -, hcap, href⟩ :=
      VectorAppend_holds m v s x h (hxs x (List.mem_cons_self x xs)) hgrow
    have hstep : ∃ k1 : Int, 1 ≤ k1 ∧ k1 ≤ K ∧ v1.allocatedSize = k1 * v1.reallocSize
        ∧ (k1 = 1 ∨ (k1 - 1) * v1.reallocSize < (s ++ [x]).length) := by
      rw [hr, hlen1]
      by_cases hfull : v.logicalSize = v.allocatedSize
      · rw [if_pos hfull] at hcap
        have hlt : k * v.reallocSize < K * v.reallocSize := by omega
        have hkK : k < K := lt_of_mul_lt_mul_right hlt (Int.le_of_lt hrpos)
        refine ⟨k + 1, by omega, by omega, by rw [hcap, ha]; ring, Or.inr ?_⟩
        have e : (k + 1 - 1) * v.reallocSize = k * v.reallocSize := by ring
        omega
      · rw [if_neg hfull] at hcap
        refine ⟨k, hk, hK, by rw [hcap, ha], ?_⟩
        rcases hlow with h1 | h1
        · exact Or.inl h1
        · exact Or.inr (by omega)
    obtain ⟨k1, hk1, hk1K, ha1, hlow1⟩ := hstep
    obtain ⟨m2, v2, k2, hall, h2, htr2, he2, hr2, hk2, ha2, hlow2⟩ := ih m1 v1 (s ++ [x]) h1
      (fun y hy => by rw [he]; exact hxs y (List.mem_cons_of_mem x hy)) (hgrants.next href)
      k1 hk1 ha1 hlow1 hk1K (by rw [hr]; simpa using hroom) (by rw [he, hr]; exact hfit)
    refine ⟨m2, v2, k2, ?_, by simpa using h2, htr2.trans htr, he2.trans he, hr2.trans hr, hk2,
      by rw [ha2, hr], by simpa [hr] using hlow2⟩
    simp only [appendAll, happ, bind, Except.bind]
    exact hall

/-- `VectorNew` and the appends of `xs` after it all return, and the container then
holds `xs`, when the allocator refuses no request and the buffer of the capacity that the
appends reach is within the range of `int`. -/
theorem VectorNew_appendAll_returns {β : Type} (m : Machine β) (elemSize : Int)
    (freeFn : Option Nat) (initialAllocation : Int) (xs : List (List β)) (hes : 0 < elemSize)
    (hxs : ∀ x ∈ xs, (x.length : Int) = elemSize) (hgrants : Grants m)
    (hfit : elemSize
      * appendCapacity (if initialAllocation ≤ 0 then 1 else initialAllocation) xs.length
        ≤ INT_MAX) :
    ∃ m1 v, (do
        let (m0, v0) ← VectorNew m elemSize freeFn initialAllocation
        appendAll m0 v0 xs) = .ok (m1, v)
      ∧ Holds m1 v xs := by
  have hc : 0 < (if initialAllocation ≤ 0 then 1 else initialAllocation) := by
    split <;> omega
  have hK1 : 1 ≤ max 1 ((xs.length + (if initialAllocation ≤ 0 then 1 else initialAllocation) - 1)
      / (if initialAllocation ≤ 0 then 1 else initialAllocation)) := le_max_left _ _
  have hfit0 : elemSize * (if initialAllocation ≤ 0 then 1 else initialAllocation) ≤ INT_MAX := by
    have h1 : (if initialAllocation ≤ 0 then 1 else initialAllocation)
        ≤ appendCapacity (if initialAllocation ≤ 0 then 1 else initialAllocation) xs.length :=
      le_mul_of_one_le_right (Int.le_of_lt hc) hK1
    have h2 := mul_le_mul_of_nonneg_left h1 (Int.le_of_lt hes)
    omega
  obtain ⟨m0, v0, hnew, h0, -, he, -, ha, hr, href⟩ :=
    VectorNew_holds m elemSize freeFn initialAllocation hes hfit0 hgrants.head
  have hrc : v0.reallocSize = (if initialAllocation ≤ 0 then 1 else initialAllocation) := by
    rw [hr, ha]
  obtain ⟨m1, v1, -, hall, h1, -⟩ := appendAll_run xs m0 v0 [] h0 (by rw [he]; exact hxs)
    (hgrants.next (Or.inr href)) 1 _ (le_refl _) (by rw [hr]; ring) (Or.inl rfl) hK1
    (by rw [hrc, List.nil_append]; exact appendCapacity_room _ _ hc)
    (by rw [he, hrc, mul_comm (max _ _)]; exact hfit)
  rw [List.nil_append] at h1
  refine ⟨m1, v1, ?_, h1⟩
  simp only [hnew, bind, Except.bind]
  exact hall

/-- C1, counterexample: with element size 4 and capacity hint 1, when the allocator
refuses the growth that the second append asks for, the appends of two elements end in
the failed assertion on the result of `realloc` instead of giving a container of length
2; and with element size 65536 and hint 32768 the size of the buffer, 2^31, is outside
the range of `int`, and `VectorNew` followed by no append gives no container. -/
theorem append_sequence_stops :
    (do
        let (m0, v0) ← VectorNew (refusingMachine [false, true]) 4 none 1
        appendAll m0 v0 [[1, 0, 0, 0], [2, 0, 0, 0]]) = .error .assertion
      ∧ ¬ ∃ m1 v, (do
        let (m0, v0) ← VectorNew (emptyMachine []) 65536 none 32768
        appendAll m0 v0 []) = .ok (m1, v) := by
  refine ⟨by decide, fun ⟨m1, v, h⟩ => ?_⟩
  have e : (do
      let (m0, v0) ← VectorNew (emptyMachine []) 65536 none 32768
      appendAll m0 v0 []) = .error .undefined := by decide
  rw [e] at h
  exact Except.noConfusion h

/-- C1: for every element size > 0, every capacity hint and every sequence `xs` of
elements of that size, when the allocator refuses no request and the buffer of the
capacity that the appends reach, `c * max 1 ⌈n / c⌉` slots for the normalized hint `c`
and `n` elements, is within the range of `int`, `VectorNew` followed by `VectorAppend`
on the elements of `xs` in order succeeds, and afterwards `VectorLength` is the length
of `xs` and the slot at every index `i` below it holds `xs[i]`. -/
theorem append_sequence {β : Type} (m : Machine β) (elemSize : Int) (freeFn : Option Nat)
    (initialAllocation : Int) (xs : List (List β)) (hes : 0 < elemSize)
    (hxs : ∀ x ∈ xs, (x.length : Int) = elemSize) (hgrants : Grants m)
    (hfit : elemSize
      * appendCapacity (if initialAllocation ≤ 0 then 1 else initialAllocation) xs.length
        ≤ INT_MAX) :
    ∃ m1 v, (do
        let (m0, v0) ← VectorNew m elemSize freeFn initialAllocation
        appendAll m0 v0 xs) = .ok (m1, v)
      ∧ VectorLength v = xs.length
      ∧ ∀ (i : Nat) (hi : i < xs.length), elemAt m1 v i = .ok (xs.get ⟨i, hi⟩) := by
  obtain ⟨m1, v1, hrun, h1⟩ :=
    VectorNew_appendAll_returns m elemSize freeFn initialAllocation xs hes hxs hgrants hfit
  exact ⟨m1, v1, hrun, h1.length_eq, fun i hi => h1.elemAt_eq i hi⟩

theorem append_sequence_witness :
    ∃ m1 v, (do
        let (m0, v0) ← VectorNew (emptyMachine [true, false]) 2 (some 7) (-3)
        appendAll m0 v0 [[1, 2], [3, 4], [5, 6]]) = .ok (m1, v)
      ∧ VectorLength v = ([[1, 2], [3, 4], [5, 6]] : List (List Nat)).length
      ∧ ∀ (i : Nat) (hi : i < ([[1, 2], [3, 4], [5, 6]] : List (List Nat)).length),
          elemAt m1 v i = .ok (([[1, 2], [3, 4], [5, 6]] : List (List Nat)).get ⟨i, hi⟩) :=
  append_sequence (emptyMachine [true, false]) 2 (some 7) (-3) [[1, 2], [3, 4], [5, 6]]
    (by decide) (by decide) (by decide) (by decide)

/-! ## Replace and delete -/

theorem length_store {β : Type} (A B Z : List β) (hB : B.length ≤ Z.length) :
    (A ++ B ++ Z.drop B.length).length = (A ++ Z).length := by
  simp only [List.length_append, List.length_drop]; omega

theorem freeVecElement_ok {β : Type} {m : Machine β} {v : vector} {s : List (List β)}
    (h : Holds m v s) (i : Nat) (hi : i < s.length) (off : Int) (hoff : off = i * v.elemSize) :
    freeVecElement m v ⟨v.elems, off⟩
      = .ok { m with trace := m.trace ++ destructorCalls v s[i] } := by
  obtain ⟨t, hblk, ha, hb, -, -⟩ := h.split i hi
  unfold freeVecElement destructorCalls
  cases hf : v.freeFn with
  | none => simp
  | some fn =>
    have e : off = ((s.take i).flatten.length : Int) := by rw [ha, hoff]
    simp only [bind, Except.bind]
    rw [e, ← hb, load_at m v.elems _ _ _ hblk]

/-- Replacing the element at index `i` of a container that holds `s`. -/
theorem VectorReplace_holds {β : Type} (m : Machine β) (v : vector) (s : List (List β))
    (x : List β) (i : Nat) (h : Holds m v s) (hx : (x.length : Int) = v.elemSize)
    (hi : i < s.length) :
    ∃ m1, VectorReplace m v x i = .ok (m1, v) ∧ Holds m1 v (s.set i x)
      ∧ m1.trace = m.trace ++ destructorCalls v s[i] := by
  obtain ⟨t, hblk, ha, hb, hc, ht⟩ := h.split i hi
  have hl := h.length_eq
  have hxl : x.length = s[i].length := by omega
  have hfree := freeVecElement_ok h i hi (0 + i * v.elemSize) (by ring)
  obtain ⟨m2, hst, hblk2, htr2, -⟩ := memmoveFrom_ok
    { m with trace := m.trace ++ destructorCalls v s[i] } v.elems (0 + i * v.elemSize)
    v.elemSize (s.take i).flatten x (s[i] ++ ((s.drop (i + 1)).flatten ++ t))
    (by rw [← List.append_assoc]; exact hblk) (by rw [ha]; ring) hx.symm
    (by rw [List.length_append]; omega)
  refine ⟨m2, ?_, ?_, htr2⟩
  · simp only [VectorReplace, VectorNth, Ptr.add, bind, Except.bind]
    rw [if_neg (by omega), if_neg (by omega)]
    simp only [hfree, hst]
  · have hdrop : (s[i] ++ ((s.drop (i + 1)).flatten ++ t)).drop x.length
        = (s.drop (i + 1)).flatten ++ t := List.drop_left' hxl.symm
    rw [hdrop] at hblk2
    obtain ⟨hes, hr, hlen, hle, helem, buf, hblk0, hbuf, -⟩ := h
    refine ⟨hes, hr, by rw [List.length_set]; exact hlen, hle, ?_, _, hblk2, ?_,
      t, ?_⟩
    · intro y hy
      rcases List.mem_or_eq_of_mem_set hy with hy | hy
      · exact helem y hy
      · rw [hy]; exact hx
    · rw [← hbuf]
      rw [hblk0] at hblk
      rw [Option.some.inj hblk]
      simp only [List.length_append]; omega
    · rw [List.set_eq_take_append_cons_drop, if_pos hi]
      simp [List.flatten_append, List.append_assoc]

/-- Deleting the element at index `i` of a container that holds `s`. -/
theorem VectorDelete_holds {β : Type} (m : Machine β) (v : vector) (s : List (List β))
    (i : Nat) (h : Holds m v s) (hi : i < s.length) :
    ∃ m1 v1, VectorDelete m v i = .ok (m1, v1) ∧ Holds m1 v1 (s.take i ++ s.drop (i + 1))
      ∧ m1.trace = m.trace ++ destructorCalls v s[i]
      ∧ v1 = { v with logicalSize := v.logicalSize - 1 } := by
  obtain ⟨t, hblk, ha, hb, hc, ht⟩ := h.split i hi
  have hl := h.length_eq
  have hfree := freeVecElement_ok h i hi (0 + i * v.elemSize) (by ring)
  obtain ⟨m2, hmv, hblk2, htr2, -⟩ := memmove_ok
    { m with trace := m.trace ++ destructorCalls v s[i] } v.elems (0 + i * v.elemSize)
    (0 + i * v.elemSize + v.elemSize) (v.elemSize * (v.logicalSize - 1 - i))
    ((s.take i).flatten ++ s[i]) (s.drop (i + 1)).flatten t
    (s.take i).flatten (s[i] ++ ((s.drop (i + 1)).flatten ++ t))
    (by rw [List.append_assoc]; exact hblk)
    (by rw [List.length_append]; push_cast; rw [ha, hb]; ring)
    (by rw [hc, hl]; ring)
    (by simp only [List.append_assoc])
    (by rw [ha]; ring)
    (by simp only [List.length_append]; omega)
  refine ⟨m2, { v with logicalSize := v.logicalSize - 1 }, ?_, ?_, htr2, rfl⟩
  · simp only [VectorDelete, VectorNth, Ptr.add, bind, Except.bind]
    rw [if_neg (by omega), if_neg (by omega)]
    simp only [hfree, hmv]
  · obtain ⟨hes, hr, hlen, hle, helem, buf, hblk0, hbuf, -⟩ := h
    refine ⟨hes, hr, ?_, ?_, ?_, _, hblk2, ?_,
      List.drop (s.drop (i + 1)).flatten.length (s[i] ++ ((s.drop (i + 1)).flatten ++ t)), ?_⟩
    · show v.logicalSize - 1 = ((s.take i ++ s.drop (i + 1)).length : Int)
      simp only [List.length_append, List.length_take, List.length_drop]
      omega
    · show v.logicalSize - 1 ≤ v.allocatedSize
      omega
    · intro y hy
      rcases List.mem_append.1 hy with hy | hy
      · exact helem y (List.mem_of_mem_take hy)
      · exact helem y (List.mem_of_mem_drop hy)
    · rw [length_store _ _ _ (by simp only [List.length_append]; omega), ← hbuf]
      rw [hblk0] at hblk
      rw [Option.some.inj hblk]
      simp only [List.length_append]; omega
    · rw [List.flatten_append]

/-! ## Insert -/

/-- Inserting at index `i` below the length works as long as the buffer stays where it
is: the container is not full, or the growth step goes through and the allocator extends
the block in place. -/
theorem VectorInsert_holds {β : Type} (m : Machine β) (v : vector) (s : List (List β))
    (x : List β) (i : Nat) (h : Holds m v s) (hx : (x.length : Int) = v.elemSize)
    (hi : i < s.length) (hgrow : v.logicalSize = v.allocatedSize → CanGrow m v)
    (hstay : v.logicalSize = v.allocatedSize → m.relocate.head? ≠ some true) :
    ∃ m1 v1, VectorInsert m v x i = .ok (m1, v1) ∧ Holds m1 v1 (s.take i ++ [x] ++ s.drop i)
      ∧ m1.trace = m.trace
      ∧ v1.allocatedSize = (if v.logicalSize = v.allocatedSize
          then v.allocatedSize + v.reallocSize else v.allocatedSize) := by
  have hl := h.length_eq
  obtain ⟨m1, v1, hgrown, h1, hroom, htr, hl1, he, hr, hf, ha, hsame, -⟩ :=
    elemAddingRequiered_holds m v s h hgrow
  have hel := hsame hstay
  obtain ⟨t, hblk, hP, hX, hR, ht⟩ := h1.split i hi
  have hes := h1.elemSize_pos
  have htlen : (s[i].length : Int) ≤ t.length := by
    rw [ht, hX]
    exact le_mul_of_one_le_right (Int.le_of_lt hes) (by omega)
  rw [hel] at hblk
  -- shifting the tail by one slot
  obtain ⟨m2, hmv, hblk2, htr2, -⟩ := memmove_ok m1 v.elems
    (0 + i * v.elemSize + v1.elemSize) (0 + i * v.elemSize)
    (v1.elemSize * (v1.logicalSize - i))
    (s.take i).flatten (s[i] ++ (s.drop (i + 1)).flatten) t
    ((s.take i).flatten ++ s[i]) ((s.drop (i + 1)).flatten ++ t)
    (by rw [hblk]; simp only [List.append_assoc])
    (by rw [hP, he]; ring)
    (by rw [List.length_append]; push_cast; rw [hX, hR, hl1, hl]; ring)
    (by simp only [List.append_assoc])
    (by rw [List.length_append]; push_cast; rw [hP, hX, he]; ring)
    (by simp only [List.length_append]; omega)
  -- copying the new element
  have hxl : x.length = s[i].length := by omega
  obtain ⟨m3, hst, hblk3, htr3, -⟩ := memmoveFrom_ok m2 v.elems (0 + i * v.elemSize)
    v1.elemSize (s.take i).flatten x
    (s[i] ++ ((s[i] ++ (s.drop (i + 1)).flatten)
      ++ List.drop (s[i] ++ (s.drop (i + 1)).flatten).length ((s.drop (i + 1)).flatten ++ t)))
    (by rw [hblk2]; simp only [List.append_assoc])
    (by rw [hP, he]; ring) (by rw [he]; exact hx.symm)
    (by rw [List.length_append]; omega)
  rw [List.drop_left' hxl.symm] at hblk3
  refine ⟨m3, { v1 with logicalSize := v1.logicalSize + 1 }, ?_, ?_,
    htr3.trans (htr2.trans htr), ha⟩
  · have hne : ¬ ((i : Int) = v.logicalSize) := by omega
    simp only [VectorInsert, hne, if_false, VectorNth, Ptr.add, bind, Except.bind]
    rw [if_neg (by omega), if_neg (by omega)]
    simp only [hgrown, hmv, hst]
  · obtain ⟨-, hrs, hlen, hle, helem, buf, hblk0, hbuf, -⟩ := h1
    refine ⟨hes, hrs, ?_, ?_, ?_, _, hel ▸ hblk3, ?_,
      List.drop (s[i] ++ (s.drop (i + 1)).flatten).length ((s.drop (i + 1)).flatten ++ t), ?_⟩
    · show v1.logicalSize + 1 = ((s.take i ++ [x] ++ s.drop i).length : Int)
      simp only [List.length_append, List.length_take, List.length_drop, List.length_singleton]
      omega
    · show v1.logicalSize + 1 ≤ v1.allocatedSize
      omega
    · intro y hy
      rcases List.mem_append.1 hy with hy | hy
      · rcases List.mem_append.1 hy with hy | hy
        · exact helem y (List.mem_of_mem_take hy)
        · rw [List.mem_singleton.1 hy, he]; exact hx
      · exact helem y (List.mem_of_mem_drop hy)
    · show ((_ : List β).length : Int) = v1.elemSize * v1.allocatedSize
      rw [← hbuf]
      rw [hel, hblk] at hblk0
      rw [← Option.some.inj hblk0]
      simp only [List.length_append, List.length_drop]
      push_cast
      omega
    · rw [List.drop_eq_getElem_cons hi]
      simp only [List.flatten_append, List.flatten_cons, List.flatten_nil, List.append_nil,
        List.append_assoc]

/-! ## The slot address taken before growth -/

theorem getD_set_none_append {γ : Type} (l : List (Option γ)) (b : Nat) (y : Option γ)
    (hb : b < l.length) : (l.set b none ++ [y]).getD b none = none := by
  rw [List.getD_eq_getElem?_getD, List.getElem?_append_left (by rw [List.length_set]; exact hb),
    List.getElem?_set]
  simp [hb]

/-- When a full buffer is moved by the growth step, the old block is released. -/
theorem elemAddingRequiered_moved {β : Type} (m : Machine β) (v : vector) (s : List (List β))
    (h : Holds m v s) (hfull : v.logicalSize = v.allocatedSize) (hgrow : CanGrow m v)
    (hmove : m.relocate.head? = some true) :
    ∃ m1 v1, elemAddingRequiered m v = .ok (m1, v1) ∧ m1.block v.elems = none := by
  obtain ⟨hes, hrs, hlen, hle, -, buf, hblk, -, -⟩ := h
  obtain ⟨hfit, hgrant⟩ := hgrow
  have hb := block_lt hblk
  have hcap : v.allocatedSize + v.reallocSize
      ≤ v.elemSize * (v.allocatedSize + v.reallocSize) :=
    le_mul_of_one_le_left (by omega) (by omega)
  have hint1 := intResult_ok (v.allocatedSize + v.reallocSize) (by omega) (by omega)
  have hint2 := intResult_ok (v.elemSize * (v.allocatedSize + v.reallocSize)) (by omega) hfit
  have hno : ¬ (m.refuse.head? = some true
      ∨ v.elemSize * (v.allocatedSize + v.reallocSize) < 0) := by
    intro hor
    rcases hor with hor | hor
    · exact hgrant hor
    · omega
  cases hr : m.relocate with
  | nil => rw [hr] at hmove; exact absurd hmove (by simp)
  | cons c rest =>
    rw [hr] at hmove
    have hc : c = true := by simpa using hmove
    subst hc
    unfold elemAddingRequiered
    rw [if_pos hfull]
    simp only [bind, Except.bind, hint1, hint2, realloc]
    rw [if_neg hb.1]
    simp only [hblk]
    rw [if_neg hno]
    simp only [hr]
    rw [if_neg (not_not.2 (show m.heap.length + 1 ≠ NULL from Nat.succ_ne_zero _))]
    refine ⟨_, _, rfl, ?_⟩
    rw [Machine.block, if_neg hb.1]
    exact getD_set_none_append m.heap (v.elems - 1) _ hb.2

/-- C8: on a full container, for an index below the length, when the growth step goes
through (its sizes are within `int` and the allocator grants the request) and the
allocator moves the buffer, `VectorInsert` does not produce the container with `x`
inserted: its shift reads through the slot address taken before the growth, which points
into the released block, and the call ends in an undefined access. -/
theorem VectorInsert_stale_slot {β : Type} (m : Machine β) (v : vector) (s : List (List β))
    (x : List β) (i : Nat) (h : Holds m v s) (hfull : v.logicalSize = v.allocatedSize)
    (hi : i < s.length) (hgrow : CanGrow m v) (hmove : m.relocate.head? = some true) :
    VectorInsert m v x i = .error .undefined := by
  have hl := h.length_eq
  obtain ⟨m1, v1, hgrown, hnone⟩ := elemAddingRequiered_moved m v s h hfull hgrow hmove
  have hne : ¬ ((i : Int) = v.logicalSize) := by omega
  simp only [VectorInsert, hne, if_false, VectorNth, Ptr.add, bind, Except.bind]
  rw [if_neg (by omega), if_neg (by omega)]
  simp only [hgrown, memmove, load, hnone, bind, Except.bind]

theorem fullVector_holds : Holds fullMachine fullVector [[1, 0, 0, 0], [2, 0, 0, 0]] :=
  ⟨by decide, by decide, by decide, by decide, by decide, ⟨_, rfl, by decide, by decide⟩⟩

theorem VectorInsert_stale_slot_witness :
    VectorInsert fullMachine fullVector [99, 0, 0, 0] ((1 : Nat) : Int) = .error .undefined :=
  VectorInsert_stale_slot fullMachine fullVector [[1, 0, 0, 0], [2, 0, 0, 0]] [99, 0, 0, 0] 1
    fullVector_holds (by decide) (by decide) (by decide) (by decide)

/-- C2: a container built by `VectorNew` with capacity 2 and two appends is full; when the
allocator moves the buffer at the growth step, `VectorInsert` at position 0 ends in an
undefined access instead of leaving the container holding `[99, 1, 2]`. -/
theorem VectorInsert_front_of_full :
    (do
      let (m0, v0) ← VectorNew (emptyMachine [true]) 4 none 2
      let (m1, v1) ← VectorAppend m0 v0 [1, 0, 0, 0]
      let (m2, v2) ← VectorAppend m1 v1 [2, 0, 0, 0]
      VectorInsert m2 v2 [99, 0, 0, 0] 0) = .error .undefined := by
  decide

/-- C6: on a full container holding `[10, 20, 30]`, when the allocator moves the buffer
at the growth step, `VectorInsert` at position 1 followed by `VectorDelete` at position 1
ends in an undefined access instead of leaving the container holding `[10, 20, 30]`. -/
theorem insert_delete_round_trip_of_full :
    Holds roundTripMachine roundTripVector [[10], [20], [30]]
      ∧ (do
          let (m1, v1) ← VectorInsert roundTripMachine roundTripVector [40] 1
          VectorDelete m1 v1 1) = .error .undefined :=
  ⟨⟨by decide, by decide, by decide, by decide, by decide, ⟨_, rfl, by decide, by decide⟩⟩,
    by decide⟩

/-! ## Delete, replace, append -/

/-- C3: on a container that holds `s`, `VectorDelete` at an index `i` below the length
succeeds, leaves the container holding `s` without its element at index `i` (earlier
elements stay, later ones move down by one), with `VectorLength` one less, and the only
callback invocation is the destructor (if set), once, on the original `s[i]`. -/
theorem VectorDelete_removes_one {β : Type} (m : Machine β) (v : vector) (s : List (List β))
    (i : Nat) (h : Holds m v s) (hi : i < s.length) :
    ∃ m1 v1, VectorDelete m v i = .ok (m1, v1) ∧ Holds m1 v1 (s.eraseIdx i)
      ∧ VectorLength v1 = VectorLength v - 1
      ∧ (∀ (j : Nat) (hj : j < i), elemAt m1 v1 j = .ok (s.get ⟨j, Nat.lt_trans hj hi⟩))
      ∧ (∀ (j : Nat) (hj : j < s.length), i < j → elemAt m1 v1 ((j - 1 : Nat) : Int)
          = .ok (s.get ⟨j, hj⟩))
      ∧ m1.trace = m.trace ++ destructorCalls v (s.get ⟨i, hi⟩) := by
  obtain ⟨m1, v1, hdel, h1, htr, hv⟩ := VectorDelete_holds m v s i h hi
  rw [← List.eraseIdx_eq_take_drop_succ] at h1
  refine ⟨m1, v1, hdel, h1, by rw [hv]; rfl, ?_, ?_, htr⟩
  · intro j hj
    have hlt : j < (s.eraseIdx i).length := by rw [List.length_eraseIdx, if_pos hi]; omega
    rw [h1.elemAt_eq j hlt]
    simp [List.getElem_eraseIdx, hj]
  · intro j hj hij
    have hlt : j - 1 < (s.eraseIdx i).length := by rw [List.length_eraseIdx, if_pos hi]; omega
    rw [h1.elemAt_eq (j - 1) hlt]
    have e : j - 1 + 1 = j := by omega
    simp [List.getElem_eraseIdx, show ¬ (j - 1 < i) by omega, e]

theorem VectorDelete_removes_one_witness :
    ∃ m1 v1, VectorDelete roundTripMachine roundTripVector ((1 : Nat) : Int) = .ok (m1, v1)
      ∧ Holds m1 v1 [[10], [30]] ∧ m1.trace = [Call.free 7 [20]] := by
  obtain ⟨m1, v1, hdel, h1, -, -, -, htr⟩ :=
    VectorDelete_removes_one roundTripMachine roundTripVector [[10], [20], [30]] 1
      ⟨by decide, by decide, by decide, by decide, by decide, ⟨_, rfl, by decide, by decide⟩⟩
      (by decide)
  exact ⟨m1, v1, hdel, h1, htr⟩

/-- C4: on a container that holds `s`, `VectorReplace` with `x` at an index `i` below the
length succeeds, leaves the `vector` struct as it was (so the length, the capacity and
the buffer address are unchanged), leaves the container holding `s` with `x` at index
`i` and every other element unchanged, and the only callback invocation is the
destructor (if set), once, on the old `s[i]`. -/
theorem VectorReplace_changes_one {β : Type} (m : Machine β) (v : vector) (s : List (List β))
    (x : List β) (i : Nat) (h : Holds m v s) (hx : (x.length : Int) = v.elemSize)
    (hi : i < s.length) :
    ∃ m1, VectorReplace m v x i = .ok (m1, v) ∧ Holds m1 v (s.set i x)
      ∧ elemAt m1 v i = .ok x
      ∧ (∀ (j : Nat) (hj : j < s.length), j ≠ i → elemAt m1 v j = .ok (s.get ⟨j, hj⟩))
      ∧ m1.trace = m.trace ++ destructorCalls v (s.get ⟨i, hi⟩) := by
  obtain ⟨m1, hrep, h1, htr⟩ := VectorReplace_holds m v s x i h hx hi
  refine ⟨m1, hrep, h1, ?_, ?_, htr⟩
  · rw [h1.elemAt_eq i (by rw [List.length_set]; exact hi)]
    simp
  · intro j hj hne
    rw [h1.elemAt_eq j (by rw [List.length_set]; exact hj)]
    simp [List.getElem_set, Ne.symm hne]

theorem VectorReplace_changes_one_witness :
    ∃ m1, VectorReplace roundTripMachine roundTripVector [40] ((2 : Nat) : Int)
        = .ok (m1, roundTripVector)
      ∧ Holds m1 roundTripVector [[10], [20], [40]] ∧ m1.trace = [Call.free 7 [30]] := by
  obtain ⟨m1, hrep, h1, -, -, htr⟩ :=
    VectorReplace_changes_one roundTripMachine roundTripVector [[10], [20], [30]] [40] 2
      ⟨by decide, by decide, by decide, by decide, by decide, ⟨_, rfl, by decide, by decide⟩⟩
      (by decide) (by decide)
  exact ⟨m1, hrep, h1, htr⟩

/-- C5: `VectorInsert` of `x` at position `VectorLength` is `VectorAppend` of `x`: the
two calls have the same result, whatever it is; and on a container that holds `s`, when
the growth step (if one is due) goes through, both succeed with the same machine and the
same `vector` struct (same elements, sizes and trace of destructor calls), which holds
`s ++ [x]`. -/
theorem VectorInsert_at_length_eq_append {β : Type} (m : Machine β) (v : vector)
    (s : List (List β)) (x : List β) (h : Holds m v s) (hx : (x.length : Int) = v.elemSize) :
    VectorInsert m v x (VectorLength v) = VectorAppend m v x
      ∧ ((v.logicalSize = v.allocatedSize → CanGrow m v) →
          ∃ m1 v1, VectorInsert m v x (VectorLength v) = .ok (m1, v1)
            ∧ VectorAppend m v x = .ok (m1, v1)
            ∧ Holds m1 v1 (s ++ [x]) ∧ m1.trace = m.trace) := by
  have heq : VectorInsert m v x (VectorLength v) = VectorAppend m v x := by
    simp only [VectorInsert, VectorLength, if_true]
  refine ⟨heq, fun hgrow => ?_⟩
  obtain ⟨m1, v1, happ, h1, htr, -⟩ := VectorAppend_holds m v s x h hx hgrow
  exact ⟨m1, v1, heq.trans happ, happ, h1, htr⟩

theorem VectorInsert_at_length_eq_append_witness :
    VectorInsert fullMachine fullVector [3, 0, 0, 0] (VectorLength fullVector)
        = VectorAppend fullMachine fullVector [3, 0, 0, 0]
      ∧ ∃ m1 v1, VectorInsert fullMachine fullVector [3, 0, 0, 0] (VectorLength fullVector)
          = .ok (m1, v1)
        ∧ VectorAppend fullMachine fullVector [3, 0, 0, 0] = .ok (m1, v1)
        ∧ Holds m1 v1 ([[1, 0, 0, 0], [2, 0, 0, 0]] ++ [[3, 0, 0, 0]])
        ∧ m1.trace = fullMachine.trace :=
  ⟨(VectorInsert_at_length_eq_append fullMachine fullVector [[1, 0, 0, 0], [2, 0, 0, 0]]
      [3, 0, 0, 0] fullVector_holds (by decide)).1,
    (VectorInsert_at_length_eq_append fullMachine fullVector [[1, 0, 0, 0], [2, 0, 0, 0]]
      [3, 0, 0, 0] fullVector_holds (by decide)).2 (fun _ => by decide)⟩

theorem wideVector_holds : Holds wideMachine wideVector [List.replicate 1073741824 0] := by
  refine ⟨by decide, by decide, by decide, by decide, ?_, List.replicate 1073741824 0, rfl, ?_, ?_⟩
  · intro x hx
    rw [List.mem_singleton.1 hx, List.length_replicate]
    rfl
  · rw [List.length_replicate]
    rfl
  · rw [List.flatten_cons, List.flatten_nil, List.append_nil]

/-- C7, counterexample: on a full container of two 4-byte elements, when the allocator
refuses the growth, `VectorAppend` ends in the failed assertion on the result of
`realloc` instead of increasing `allocatedSize` by `reallocSize`; and on a full container
of one element of 2^30 bytes the size of the grown buffer, 2^31, is outside the range of
`int`, and `VectorAppend` does not return either. -/
theorem VectorAppend_full_stops :
    (Holds fullRefusedMachine fullVector [[1, 0, 0, 0], [2, 0, 0, 0]]
        ∧ fullVector.logicalSize = fullVector.allocatedSize
        ∧ VectorAppend fullRefusedMachine fullVector [3, 0, 0, 0] = .error .assertion)
      ∧ (Holds wideMachine wideVector [List.replicate 1073741824 0]
        ∧ wideVector.logicalSize = wideVector.allocatedSize
        ∧ ¬ ∃ m1 v1, VectorAppend wideMachine wideVector (List.replicate 1073741824 1)
            = .ok (m1, v1)) := by
  refine ⟨⟨⟨by decide, by decide, by decide, by decide, by decide,
      ⟨_, rfl, by decide, by decide⟩⟩, by decide, by decide⟩,
    ⟨wideVector_holds, by decide, fun ⟨m1, v1, h⟩ => ?_⟩⟩
  have e : VectorAppend wideMachine wideVector (List.replicate 1073741824 1)
      = .error .undefined := by decide
  rw [e] at h
  exact Except.noConfusion h

/-- C7: `VectorAppend` on a container that holds `s`, when the growth step (if one is
due) goes through, that is, its sizes are within `int` and the allocator grants the
request, succeeds; `allocatedSize` grows by exactly `reallocSize` when the container was
full and is unchanged otherwise; in both cases every element of `s` is still at its index
afterwards.  And from any machine whose allocator refuses nothing, a container made with
capacity 2, for elements of any size whose four slots are within `int` (4-byte elements
`1, 2, 3` in particular), has `allocatedSize` 2, 2 and 4 after the first, second and
third append, and then holds the three elements. -/
theorem VectorAppend_growth {β : Type} :
    (∀ (m : Machine β) (v : vector) (s : List (List β)) (x : List β),
      Holds m v s → (x.length : Int) = v.elemSize →
      (v.logicalSize = v.allocatedSize → CanGrow m v) →
      ∃ m1 v1, VectorAppend m v x = .ok (m1, v1)
        ∧ (v.logicalSize = v.allocatedSize → v1.allocatedSize = v.allocatedSize + v.reallocSize)
        ∧ (v.logicalSize ≠ v.allocatedSize → v1.allocatedSize = v.allocatedSize)
        ∧ ∀ (j : Nat) (hj : j < s.length), elemAt m1 v1 j = .ok (s.get ⟨j, hj⟩))
    ∧ (∀ (m : Machine β) (elemSize : Int) (freeFn : Option Nat) (x1 x2 x3 : List β),
        0 < elemSize → elemSize * 4 ≤ INT_MAX → Grants m →
        (x1.length : Int) = elemSize → (x2.length : Int) = elemSize →
        (x3.length : Int) = elemSize →
        ∃ m0 v0 m1 v1 m2 v2 m3 v3,
        VectorNew m elemSize freeFn 2 = .ok (m0, v0)
        ∧ VectorAppend m0 v0 x1 = .ok (m1, v1)
        ∧ VectorAppend m1 v1 x2 = .ok (m2, v2)
        ∧ VectorAppend m2 v2 x3 = .ok (m3, v3)
        ∧ v0.allocatedSize = 2 ∧ v1.allocatedSize = 2 ∧ v2.allocatedSize = 2
        ∧ v3.allocatedSize = 4
        ∧ Holds m3 v3 [x1, x2, x3]) := by
  constructor
  · intro m v s x h hx hgrow
    obtain ⟨m1, v1, happ, h1, -, -, -, -, ha, -⟩ := VectorAppend_holds m v s x h hx hgrow
    refine ⟨m1, v1, happ, fun hf => by rw [ha, if_pos hf], fun hf => by rw [ha, if_neg hf], ?_⟩
    intro j hj
    rw [h1.elemAt_eq j (by rw [List.length_append]; omega)]
    simp [List.getElem_append_left, hj]
  · intro m elemSize freeFn x1 x2 x3 hes hfit hgrants hx1 hx2 hx3
    obtain ⟨m0, v0, hnew, h0, -, he0, -, ha0, hr0, href0⟩ :=
      VectorNew_holds m elemSize freeFn 2 hes
        (by rw [if_neg (by decide)]; omega) hgrants.head
    have hg0 := hgrants.next (Or.inr href0)
    have hl0 := h0.length_eq
    have a0 : v0.allocatedSize = 2 := by rw [ha0]; rfl
    obtain ⟨m1, v1, happ1, h1, -, he1, hr1, -, ha1, href1⟩ :=
      VectorAppend_holds m0 v0 [] x1 h0 (by rw [he0]; exact hx1)
        (fun hfull => absurd hfull (by rw [hl0, a0]; simp))
    have hg1 := hg0.next href1
    have hl1 := h1.length_eq
    have a1 : v1.allocatedSize = 2 := by
      rw [ha1, if_neg (by rw [hl0, a0]; simp), a0]
    obtain ⟨m2, v2, happ2, h2, -, he2, hr2, -, ha2, href2⟩ :=
      VectorAppend_holds m1 v1 _ x2 h1 (by rw [he1, he0]; exact hx2)
        (fun hfull => absurd hfull (by rw [hl1, a1]; simp))
    have hg2 := hg1.next href2
    have hl2 := h2.length_eq
    have a2 : v2.allocatedSize = 2 := by
      rw [ha2, if_neg (by rw [hl1, a1]; simp), a1]
    obtain ⟨m3, v3, happ3, h3, -, he3, hr3, -, ha3, -⟩ :=
      VectorAppend_holds m2 v2 _ x3 h2 (by rw [he2, he1, he0]; exact hx3)
        (fun _ => ⟨by rw [he2, he1, he0, a2, hr2, hr1, hr0, a0]; omega, hg2.head⟩)
    have a3 : v3.allocatedSize = 4 := by
      rw [ha3, if_pos (by rw [hl2, a2]; rfl), a2, hr2, hr1, hr0, a0]; rfl
    exact ⟨m0, v0, m1, v1, m2, v2, m3, v3, hnew, happ1, happ2, happ3, a0, a1, a2, a3, h3⟩

theorem VectorAppend_growth_witness :
    (∃ m1 v1, VectorAppend fullMachine fullVector [3, 0, 0, 0] = .ok (m1, v1)
        ∧ v1.allocatedSize = 4
        ∧ elemAt m1 v1 ((1 : Nat) : Int) = .ok [2, 0, 0, 0])
      ∧ ∃ m0 v0 m1 v1 m2 v2 m3 v3,
        VectorNew (emptyMachine [true]) 4 none 2 = .ok (m0, v0)
        ∧ VectorAppend m0 v0 [1, 0, 0, 0] = .ok (m1, v1)
        ∧ VectorAppend m1 v1 [2, 0, 0, 0] = .ok (m2, v2)
        ∧ VectorAppend m2 v2 [3, 0, 0, 0] = .ok (m3, v3)
        ∧ v0.allocatedSize = 2 ∧ v1.allocatedSize = 2 ∧ v2.allocatedSize = 2
        ∧ v3.allocatedSize = 4
        ∧ Holds m3 v3 [[1, 0, 0, 0], [2, 0, 0, 0], [3, 0, 0, 0]] := by
  obtain ⟨m1, v1, happ, hfull, -, hkeep⟩ :=
    (VectorAppend_growth (β := Nat)).1 fullMachine fullVector [[1, 0, 0, 0], [2, 0, 0, 0]] [3, 0, 0, 0]
      fullVector_holds (by decide) (fun _ => by decide)
  exact ⟨⟨m1, v1, happ, hfull (by decide), hkeep 1 (by decide)⟩,
    (VectorAppend_growth (β := Nat)).2 (emptyMachine [true]) 4 none [1, 0, 0, 0] [2, 0, 0, 0]
      [3, 0, 0, 0] (by decide) (by decide) (by decide) (by decide) (by decide) (by decide)⟩

/-! ## Linear search -/

theorem Holds.congr_heap {β : Type} {m m1 : Machine β} {v : vector} {s : List (List β)}
    (h : Holds m v s) (hh : m1.heap = m.heap) : Holds m1 v s := by
  obtain ⟨hes, hr, hlen, hle, helem, buf, hblk, hbuf, hpre⟩ := h
  exact ⟨hes, hr, hlen, hle, helem, buf, by rw [Machine.block, hh]; exact hblk, hbuf, hpre⟩

theorem Holds.load_slot {β : Type} {m : Machine β} {v : vector} {s : List (List β)}
    (h : Holds m v s) (j : Nat) (hj : j < s.length) (off : Int) (hoff : off = j * v.elemSize) :
    load m ⟨v.elems, off⟩ v.elemSize = .ok s[j] := by
  obtain ⟨t, hblk, ha, hb, -, -⟩ := h.split j hj
  have e : off = ((s.take j).flatten.length : Int) := by rw [ha, hoff]
  rw [e, ← hb]
  exact load_at m v.elems _ _ _ hblk

/-- The linear scan finds the first match at or after `start`. -/
theorem lfind_spec {β : Type} {m : Machine β} {v : vector} {s : List (List β)}
    (h : Holds m v s) (key : List β) (compar : List β → List β → Int) :
    ∀ (k start : Nat) (m1 : Machine β) (off : Int), m1.heap = m.heap → start + k = s.length →
      off = start * v.elemSize →
      ∃ m2 found, lfind m1 key ⟨v.elems, off⟩ k v.elemSize compar = .ok (m2, found)
        ∧ m2.heap = m.heap
        ∧ ((found = none ∧ ∀ (j : Nat) (hj : j < s.length), start ≤ j → compar key s[j] ≠ 0)
          ∨ (∃ (j : Nat) (hj : j < s.length), found = some ⟨v.elems, j * v.elemSize⟩
              ∧ start ≤ j ∧ compar key s[j] = 0
              ∧ ∀ (i : Nat) (hi : i < s.length), start ≤ i → i < j → compar key s[i] ≠ 0)) := by
  intro k
  induction k with
  | zero =>
    intro start m1 off hh hk _
    exact ⟨m1, none, rfl, hh, Or.inl ⟨rfl, fun j hj hsj => absurd hj (by omega)⟩⟩
  | succ k ih =>
    intro start m1 off hh hk hoff
    have hs : start < s.length := by omega
    have hload := (h.congr_heap hh).load_slot start hs off hoff
    by_cases hc : compar key s[start] = 0
    · refine ⟨{ m1 with trace := m1.trace ++ [Call.compare key s[start]] },
        some ⟨v.elems, off⟩, ?_, hh, Or.inr ⟨start, hs, by rw [hoff], le_refl _, hc, ?_⟩⟩
      · simp only [lfind, hload, bind, Except.bind, hc, if_true]
      · intro i _ h1 h2; omega
    · obtain ⟨m2, found, hrec, hh2, hres⟩ := ih (start + 1)
        { m1 with trace := m1.trace ++ [Call.compare key s[start]] } (off + v.elemSize) hh
        (by omega) (by rw [hoff]; push_cast; ring)
      refine ⟨m2, found, ?_, hh2, ?_⟩
      · simp only [lfind, hload, bind, Except.bind, hc, if_false, Ptr.add]
        exact hrec
      · rcases hres with ⟨hnone, hall⟩ | ⟨j, hj, hfound, hsj, hcj, hmin⟩
        · refine Or.inl ⟨hnone, fun j hj hsj => ?_⟩
          by_cases e : j = start
          · subst e; exact hc
          · exact hall j hj (by omega)
        · refine Or.inr ⟨j, hj, hfound, by omega, hcj, fun i hi h1 h2 => ?_⟩
          by_cases e : i = start
          · subst e; exact hc
          · exact hmin i hi (by omega) h2

/-- C9: on a non-empty container that holds `s`, for a start index below the length,
`VectorSearch` with `isSorted = false` succeeds for every key and comparator and returns
either the smallest index at or after the start index whose element the comparator
reports equal to the key (an index counted from the start of the container), or -1 when
there is no such element.  No order of the elements is assumed. -/
theorem VectorSearch_linear {β : Type} (m : Machine β) (v : vector) (s : List (List β))
    (key : List β) (compar : List β → List β → Int) (start : Nat) (h : Holds m v s)
    (hstart : start < s.length) :
    ∃ m1 r, VectorSearch m v key compar start false = .ok (m1, r)
      ∧ ((r = -1 ∧ ∀ (j : Nat) (hj : j < s.length), start ≤ j → compar key s[j] ≠ 0)
        ∨ (∃ (j : Nat) (hj : j < s.length), r = j ∧ start ≤ j ∧ compar key s[j] = 0
            ∧ ∀ (i : Nat) (hi : i < s.length), start ≤ i → i < j → compar key s[i] ≠ 0)) := by
  have hl := h.length_eq
  have hes := h.elemSize_pos
  obtain ⟨m2, found, hfind, -, hres⟩ := lfind_spec h key compar (s.length - start) start m
    (0 + start * v.elemSize) rfl (by omega) (by ring)
  have hn : (v.logicalSize - (start : Int)).toNat = s.length - start := by omega
  have hne : ¬ (v.logicalSize = 0) := by omega
  simp only [VectorSearch, hne, if_false, VectorNth, Ptr.add, bind, Except.bind]
  rw [if_neg (by omega), if_neg (by omega)]
  simp only [hn, hfind, Bool.false_eq_true, if_false]
  rcases hres with ⟨hnone, hall⟩ | ⟨j, hj, hfound, hsj, hcj, hmin⟩
  · subst hnone
    exact ⟨m2, _, rfl, Or.inl ⟨rfl, hall⟩⟩
  · subst hfound
    refine ⟨m2, _, rfl, Or.inr ⟨j, hj, ?_, hsj, hcj, hmin⟩⟩
    show ((j : Int) * v.elemSize - 0).tdiv v.elemSize = j
    rw [Int.sub_zero, Int.mul_tdiv_cancel _ (by omega)]

theorem searchVector_holds : Holds searchMachine searchVector [[5], [7], [7], [9], [11]] :=
  ⟨by decide, by decide, by decide, by decide, by decide, ⟨_, rfl, by decide, by decide⟩⟩

theorem VectorSearch_linear_witness :
    ∃ m1 r, VectorSearch searchMachine searchVector [7] byteCompare ((2 : Nat) : Int) false
        = .ok (m1, r)
      ∧ ((r = -1 ∧ ∀ (j : Nat) (hj : j < ([[5], [7], [7], [9], [11]] : List (List Nat)).length),
            2 ≤ j → byteCompare [7] ([[5], [7], [7], [9], [11]] : List (List Nat))[j] ≠ 0)
        ∨ (∃ (j : Nat) (hj : j < ([[5], [7], [7], [9], [11]] : List (List Nat)).length),
            r = j ∧ 2 ≤ j ∧ byteCompare [7] ([[5], [7], [7], [9], [11]] : List (List Nat))[j] = 0
            ∧ ∀ (i : Nat) (hi : i < ([[5], [7], [7], [9], [11]] : List (List Nat)).length),
                2 ≤ i → i < j → byteCompare [7] ([[5], [7], [7], [9], [11]] : List (List Nat))[i] ≠ 0)) :=
  VectorSearch_linear searchMachine searchVector [[5], [7], [7], [9], [11]] [7] byteCompare 2
    searchVector_holds (by decide)

/-! ## Binary search -/

theorem ConsistentComparator.refl {β : Type} {compar : List β → List β → Int}
    (hc : ConsistentComparator compar) (a : List β) : compar a a ≤ 0 := by
  have := hc.swap a a
  omega

theorem SortedFrom.pairwise {β : Type} {compar : List β → List β → Int} {s : List (List β)}
    {start : Nat} (hc : ConsistentComparator compar) (hs : SortedFrom compar s start)
    (i : Nat) (hsi : start ≤ i) :
    ∀ (d : Nat) (hi : i < s.length) (hj : i + d < s.length), compar s[i] s[i + d] ≤ 0 := by
  intro d
  induction d with
  | zero => intro hi hj; exact hc.refl _
  | succ d ih =>
    intro hi hj
    exact hc.trans _ _ _ (ih hi (by omega)) (hs (i + d) hj (by omega))

/-- The binary search loop keeps every match inside its index range and ends on a match
when there is one. -/
theorem bsearchLoop_spec {β : Type} {m : Machine β} {v : vector} {s : List (List β)}
    (h : Holds m v s) (key : List β) (compar : List β → List β → Int) (start : Nat)
    (off : Int) (hoff : off = start * v.elemSize)
    (hlt : ∀ (i j : Nat) (_ : i < s.length) (hj : j < s.length), start ≤ i → i ≤ j →
      compar key s[i] < 0 → compar key s[j] < 0)
    (hgt : ∀ (i j : Nat) (_ : i < s.length) (hj : j < s.length), start ≤ i → i ≤ j →
      0 < compar key s[j] → 0 < compar key s[i]) :
    ∀ (fuel l u : Nat) (m1 : Machine β), m1.heap = m.heap → l ≤ u → start + u ≤ s.length →
      u - l ≤ fuel →
      (∀ (j : Nat) (hj : j < s.length), start ≤ j → compar key s[j] = 0 →
        start + l ≤ j ∧ j < start + u) →
      ∃ m2 found, bsearchLoop key ⟨v.elems, off⟩ v.elemSize compar fuel m1 l u = .ok (m2, found)
        ∧ m2.heap = m.heap
        ∧ ((found = none ∧ ∀ (j : Nat) (hj : j < s.length), start ≤ j → compar key s[j] ≠ 0)
          ∨ (∃ (j : Nat) (hj : j < s.length), found = some ⟨v.elems, j * v.elemSize⟩
              ∧ start ≤ j ∧ compar key s[j] = 0)) := by
  intro fuel
  induction fuel with
  | zero =>
    intro l u m1 hh hlu _ hfuel hin
    refine ⟨m1, none, rfl, hh, Or.inl ⟨rfl, fun j hj hsj hcj => ?_⟩⟩
    have := hin j hj hsj hcj
    omega
  | succ fuel ih =>
    intro l u m1 hh hlu hu hfuel hin
    by_cases hl : l < u
    · have hidx : l ≤ (l + u) / 2 ∧ (l + u) / 2 < u := by omega
      have hs : start + (l + u) / 2 < s.length := by omega
      have hload := (h.congr_heap hh).load_slot (start + (l + u) / 2) hs
        (off + ((l + u) / 2 : Nat) * v.elemSize) (by rw [hoff]; push_cast; ring)
      by_cases hneg : compar key s[start + (l + u) / 2] < 0
      · obtain ⟨m2, found, hrec, hh2, hres⟩ := ih l ((l + u) / 2)
          { m1 with trace := m1.trace ++ [Call.compare key s[start + (l + u) / 2]] } hh
          hidx.1 (by omega) (by omega) (fun j hj hsj hcj => by
            have := hin j hj hsj hcj
            refine ⟨this.1, ?_⟩
            by_contra hge
            have := hlt (start + (l + u) / 2) j hs hj (by omega) (by omega) hneg
            omega)
        refine ⟨m2, found, ?_, hh2, hres⟩
        simp only [bsearchLoop, hl, if_true, Ptr.add, hload, bind, Except.bind, hneg]
        exact hrec
      · by_cases hpos : 0 < compar key s[start + (l + u) / 2]
        · obtain ⟨m2, found, hrec, hh2, hres⟩ := ih ((l + u) / 2 + 1) u
            { m1 with trace := m1.trace ++ [Call.compare key s[start + (l + u) / 2]] } hh
            (by omega) hu (by omega) (fun j hj hsj hcj => by
              have := hin j hj hsj hcj
              refine ⟨?_, this.2⟩
              by_contra hge
              have := hgt j (start + (l + u) / 2) hj hs hsj (by omega) hpos
              omega)
          refine ⟨m2, found, ?_, hh2, hres⟩
          simp only [bsearchLoop, hl, if_true, Ptr.add, hload, bind, Except.bind, hneg,
            if_false, gt_iff_lt, hpos]
          exact hrec
        · refine ⟨{ m1 with trace := m1.trace ++ [Call.compare key s[start + (l + u) / 2]] },
            some ⟨v.elems, off + ((l + u) / 2 : Nat) * v.elemSize⟩, ?_, hh,
            Or.inr ⟨start + (l + u) / 2, hs, ?_, by omega, by omega⟩⟩
          · simp only [bsearchLoop, hl, if_true, Ptr.add, hload, bind, Except.bind, hneg,
              if_false, gt_iff_lt, hpos]
          · rw [hoff]; push_cast; ring_nf
    · refine ⟨m1, none, ?_, hh, Or.inl ⟨rfl, fun j hj hsj hcj => ?_⟩⟩
      · simp only [bsearchLoop, hl, if_false]
      · have := hin j hj hsj hcj
        omega

/-- C10, counterexample: the elements `1, 2, 3` are sorted ascending under the comparator
`matchOnly` (no element is above its successor), and the element at index 2 compares
equal to the key `3`, yet `VectorSearch` with `isSorted = true` returns -1, after
comparing the key with the elements at index 1 and index 0. -/
theorem VectorSearch_sorted_misses :
    Holds orderedMachine orderedVector [[1], [2], [3]]
      ∧ SortedFrom matchOnly [[1], [2], [3]] 0
      ∧ matchOnly [3] [3] = 0
      ∧ VectorSearch orderedMachine orderedVector [3] matchOnly 0 true
          = .ok ({ orderedMachine with
              trace := [Call.compare [3] [2], Call.compare [3] [1]] }, -1) := by
  refine ⟨⟨by decide, by decide, by decide, by decide, by decide, ⟨_, rfl, by decide, by decide⟩⟩,
    ?_, by decide, by decide⟩
  intro i hi _
  have hi2 : i < 2 := Nat.lt_of_succ_lt_succ hi
  interval_cases i <;> simp [matchOnly]

/-- C10: on a non-empty container that holds `s`, for a start index below the length,
a comparator consistent with a total order and elements sorted ascending under it from
the start index on, `VectorSearch` with `isSorted = true` succeeds and returns either an
index at or after the start index whose element the comparator reports equal to the key,
or -1, and -1 only when no element from the start index on is reported equal. -/
theorem VectorSearch_sorted {β : Type} (m : Machine β) (v : vector) (s : List (List β))
    (key : List β) (compar : List β → List β → Int) (start : Nat) (h : Holds m v s)
    (hstart : start < s.length) (hc : ConsistentComparator compar)
    (hs : SortedFrom compar s start) :
    ∃ m1 r, VectorSearch m v key compar start true = .ok (m1, r)
      ∧ ((r = -1 ∧ ∀ (j : Nat) (hj : j < s.length), start ≤ j → compar key s[j] ≠ 0)
        ∨ (∃ (j : Nat) (hj : j < s.length), r = j ∧ start ≤ j ∧ compar key s[j] = 0)) := by
  have hl := h.length_eq
  have hes := h.elemSize_pos
  have hlt : ∀ (i j : Nat) (_ : i < s.length) (hj : j < s.length), start ≤ i → i ≤ j →
      compar key s[i] < 0 → compar key s[j] < 0 := by
    intro i j hi hj hsi hij hneg
    obtain ⟨d, rfl⟩ := Nat.exists_eq_add_of_le hij
    have hle := hs.pairwise hc i hsi d hi hj
    by_contra hnot
    have h1 : compar s[i + d] key ≤ 0 := by
      have := hc.swap key s[i + d]
      omega
    have h2 := hc.trans _ _ _ hle h1
    have h3 := hc.swap key s[i]
    omega
  have hgt : ∀ (i j : Nat) (_ : i < s.length) (hj : j < s.length), start ≤ i → i ≤ j →
      0 < compar key s[j] → 0 < compar key s[i] := by
    intro i j hi hj hsi hij hpos
    obtain ⟨d, rfl⟩ := Nat.exists_eq_add_of_le hij
    have hle := hs.pairwise hc i hsi d hi hj
    by_contra hnot
    have h2 := hc.trans _ _ _ (Int.not_lt.1 hnot) hle
    omega
  obtain ⟨m2, found, hfind, -, hres⟩ := bsearchLoop_spec h key compar start
    (0 + start * v.elemSize) (by ring) hlt hgt (s.length - start) 0 (s.length - start) m rfl
    (Nat.zero_le _) (by omega) (by omega) (fun j hj hsj _ => by omega)
  have hn : (v.logicalSize - (start : Int)).toNat = s.length - start := by omega
  have hne : ¬ (v.logicalSize = 0) := by omega
  simp only [VectorSearch, hne, if_false, VectorNth, Ptr.add, bind, Except.bind]
  rw [if_neg (by omega), if_neg (by omega)]
  simp only [hn, bsearch, hfind, if_true]
  rcases hres with ⟨hnone, hall⟩ | ⟨j, hj, hfound, hsj, hcj⟩
  · subst hnone
    exact ⟨m2, _, rfl, Or.inl ⟨rfl, hall⟩⟩
  · subst hfound
    refine ⟨m2, _, rfl, Or.inr ⟨j, hj, ?_, hsj, hcj⟩⟩
    show ((j : Int) * v.elemSize - 0).tdiv v.elemSize = j
    rw [Int.sub_zero, Int.mul_tdiv_cancel _ (by omega)]

theorem byteCompare_consistent : ConsistentComparator byteCompare :=
  ⟨fun a b => by unfold byteCompare; omega, fun a b c => by unfold byteCompare; omega⟩

theorem VectorSearch_sorted_witness :
    ∃ m1 r, VectorSearch searchMachine searchVector [9] byteCompare ((1 : Nat) : Int) true
        = .ok (m1, r)
      ∧ ((r = -1 ∧ ∀ (j : Nat) (hj : j < ([[5], [7], [7], [9], [11]] : List (List Nat)).length),
            1 ≤ j → byteCompare [9] ([[5], [7], [7], [9], [11]] : List (List Nat))[j] ≠ 0)
        ∨ (∃ (j : Nat) (hj : j < ([[5], [7], [7], [9], [11]] : List (List Nat)).length),
            r = j ∧ 1 ≤ j
              ∧ byteCompare [9] ([[5], [7], [7], [9], [11]] : List (List Nat))[j] = 0)) :=
  VectorSearch_sorted searchMachine searchVector [[5], [7], [7], [9], [11]] [9] byteCompare 1
    searchVector_holds (by decide) byteCompare_consistent
    (by
      intro i hi _
      have hi4 : i < 4 := Nat.lt_of_succ_lt_succ hi
      interval_cases i <;> simp [byteCompare])

/-! ## Search: empty container and start index -/

/-- C11: on an empty container (`logicalSize = 0`), for every key, comparator, start
index (in range or not, negative or not) and `isSorted` flag, `VectorSearch` succeeds
with -1 and leaves the machine as it was: the trace gains no comparator call. -/
theorem VectorSearch_empty {β : Type} (m : Machine β) (v : vector) (key : List β)
    (compar : List β → List β → Int) (startIndex : Int) (isSorted : Bool)
    (hempty : v.logicalSize = 0) :
    VectorSearch m v key compar startIndex isSorted = .ok (m, -1) := by
  simp only [VectorSearch, hempty, if_true, kNotFound]

theorem VectorSearch_empty_witness :
    VectorSearch (emptyMachine []) emptyVector [7] byteCompare (-3) true
      = .ok (emptyMachine [], -1) :=
  VectorSearch_empty (emptyMachine []) emptyVector [7] byteCompare (-3) true (by decide)

/-- The binary search loop returns for every comparator. -/
theorem bsearchLoop_ok {β : Type} {m : Machine β} {v : vector} {s : List (List β)}
    (h : Holds m v s) (key : List β) (compar : List β → List β → Int) (start : Nat)
    (off : Int) (hoff : off = start * v.elemSize) :
    ∀ (fuel l u : Nat) (m1 : Machine β), m1.heap = m.heap → start + u ≤ s.length →
      ∃ m2 found, bsearchLoop key ⟨v.elems, off⟩ v.elemSize compar fuel m1 l u
        = .ok (m2, found) := by
  intro fuel
  induction fuel with
  | zero => intro l u m1 _ _; exact ⟨m1, none, rfl⟩
  | succ fuel ih =>
    intro l u m1 hh hu
    by_cases hl : l < u
    · have hs : start + (l + u) / 2 < s.length := by omega
      have hload := (h.congr_heap hh).load_slot (start + (l + u) / 2) hs
        (off + ((l + u) / 2 : Nat) * v.elemSize) (by rw [hoff]; push_cast; ring)
      by_cases hneg : compar key s[start + (l + u) / 2] < 0
      · obtain ⟨m2, found, hrec⟩ := ih l ((l + u) / 2)
          { m1 with trace := m1.trace ++ [Call.compare key s[start + (l + u) / 2]] } hh
          (by omega)
        refine ⟨m2, found, ?_⟩
        simp only [bsearchLoop, hl, if_true, Ptr.add, hload, bind, Except.bind, hneg]
        exact hrec
      · by_cases hpos : 0 < compar key s[start + (l + u) / 2]
        · obtain ⟨m2, found, hrec⟩ := ih ((l + u) / 2 + 1) u
            { m1 with trace := m1.trace ++ [Call.compare key s[start + (l + u) / 2]] } hh hu
          refine ⟨m2, found, ?_⟩
          simp only [bsearchLoop, hl, if_true, Ptr.add, hload, bind, Except.bind, hneg,
            if_false, gt_iff_lt, hpos]
          exact hrec
        · refine ⟨{ m1 with trace := m1.trace ++ [Call.compare key s[start + (l + u) / 2]] },
            some ⟨v.elems, off + ((l + u) / 2 : Nat) * v.elemSize⟩, ?_⟩
          simp only [bsearchLoop, hl, if_true, Ptr.add, hload, bind, Except.bind, hneg,
            if_false, gt_iff_lt, hpos]
    · exact ⟨m1, none, by simp only [bsearchLoop, hl, if_false]⟩

/-- On a non-empty container, `VectorSearch` from a start index below the length returns,
whatever the comparator and the flag. -/
theorem VectorSearch_returns {β : Type} (m : Machine β) (v : vector) (s : List (List β))
    (key : List β) (compar : List β → List β → Int) (start : Nat) (isSorted : Bool)
    (h : Holds m v s) (hstart : start < s.length) :
    ∃ m1 r, VectorSearch m v key compar start isSorted = .ok (m1, r) := by
  have hl := h.length_eq
  have hn : (v.logicalSize - (start : Int)).toNat = s.length - start := by omega
  have hne : ¬ (v.logicalSize = 0) := by omega
  cases isSorted with
  | false =>
    obtain ⟨m2, found, hfind, -, -⟩ := lfind_spec h key compar (s.length - start) start m
      (0 + start * v.elemSize) rfl (by omega) (by ring)
    simp only [VectorSearch, hne, if_false, VectorNth, Ptr.add, bind, Except.bind]
    rw [if_neg (by omega), if_neg (by omega)]
    simp only [hn, hfind, Bool.false_eq_true, if_false]
    cases found with
    | none => exact ⟨m2, _, rfl⟩
    | some p => exact ⟨m2, _, rfl⟩
  | true =>
    obtain ⟨m2, found, hfind⟩ := bsearchLoop_ok h key compar start
      (0 + start * v.elemSize) (by ring) (s.length - start) 0 (s.length - start) m rfl
      (by omega)
    simp only [VectorSearch, hne, if_false, VectorNth, Ptr.add, bind, Except.bind]
    rw [if_neg (by omega), if_neg (by omega)]
    simp only [hn, bsearch, hfind, if_true]
    cases found with
    | none => exact ⟨m2, _, rfl⟩
    | some p => exact ⟨m2, _, rfl⟩


/-- C12: on a non-empty container that holds `s`, `VectorSearch` ends in a failed
assertion exactly when the start index is negative or at least the length, and returns
for every start index in between; a start index equal to the length is therefore
rejected when the container is not empty, and is accepted on an empty container. -/
theorem VectorSearch_start_index {β : Type} (m : Machine β) (v : vector) (s : List (List β))
    (key : List β) (compar : List β → List β → Int) (startIndex : Int) (isSorted : Bool)
    (h : Holds m v s) (hne : 0 < s.length) :
    (VectorSearch m v key compar startIndex isSorted = .error .assertion
        ↔ startIndex < 0 ∨ (s.length : Int) ≤ startIndex)
      ∧ (0 ≤ startIndex → startIndex < s.length →
          ∃ m1 r, VectorSearch m v key compar startIndex isSorted = .ok (m1, r))
      ∧ VectorSearch m v key compar (VectorLength v) isSorted = .error .assertion
      ∧ (∀ (m0 : Machine β) (v0 : vector), VectorLength v0 = 0 →
          VectorSearch m0 v0 key compar (VectorLength v0) isSorted = .ok (m0, kNotFound)) := by
  have hl := h.length_eq
  have hne0 : ¬ (v.logicalSize = 0) := by omega
  have hin : 0 ≤ startIndex → startIndex < s.length →
      ∃ m1 r, VectorSearch m v key compar startIndex isSorted = .ok (m1, r) := by
    intro h0 h1
    have e : startIndex = (startIndex.toNat : Int) := by omega
    rw [e]
    exact VectorSearch_returns m v s key compar startIndex.toNat isSorted h (by omega)
  have hout : ∀ p : Int, p < 0 ∨ (s.length : Int) ≤ p →
      VectorSearch m v key compar p isSorted = .error .assertion := by
    intro p hp
    simp only [VectorSearch, hne0, if_false, VectorNth, bind, Except.bind]
    by_cases h0 : p ≥ 0
    · rw [if_neg (not_not.2 h0), if_pos (by omega)]
    · rw [if_pos h0]
  refine ⟨⟨fun herr => ?_, hout startIndex⟩, hin, hout _ (Or.inr (by rw [VectorLength, hl])), ?_⟩
  · by_contra hnot
    obtain ⟨m1, r, hok⟩ := hin (by omega) (by omega)
    rw [hok] at herr
    exact Except.noConfusion herr
  · intro m0 v0 h0
    simp only [VectorLength] at h0
    simp only [VectorSearch, h0, if_true]

theorem VectorSearch_start_index_witness :
    VectorSearch searchMachine searchVector [7] byteCompare 5 false = .error .assertion
      ∧ ∃ m1 r, VectorSearch searchMachine searchVector [7] byteCompare 4 false = .ok (m1, r) :=
  ⟨(VectorSearch_start_index searchMachine searchVector [[5], [7], [7], [9], [11]] [7]
      byteCompare 5 false searchVector_holds (by decide)).1.2 (Or.inr (by decide)),
    (VectorSearch_start_index searchMachine searchVector [[5], [7], [7], [9], [11]] [7]
      byteCompare 4 false searchVector_holds (by decide)).2.1 (by decide) (by decide)⟩

/-! ## Runs and the state they stop in -/

theorem mapError_inState_bind {β α γ : Type} (m : Machine β) (v : vector) (r : Except Fault α)
    (f : α → Except (Fault × Machine β × vector) γ) :
    (inState m v r >>= f).mapError Prod.fst = r >>= fun a => (f a).mapError Prod.fst := by
  cases r <;> rfl

theorem mapError_bind {ε ε1 α γ : Type} (g : ε → ε1) (x : Except ε α) (f : α → Except ε γ) :
    (x >>= f).mapError g = x.mapError g >>= fun a => (f a).mapError g := by
  cases x <;> rfl

theorem mapError_inState {β α : Type} (m : Machine β) (v : vector) (r : Except Fault α) :
    (inState m v r).mapError Prod.fst = r := by
  cases r <;> rfl

theorem load_ne_assertion {β : Type} (m : Machine β) (p : Ptr) (n : Int) :
    load m p n ≠ .error .assertion := by
  intro h
  unfold load at h
  split at h
  · split at h <;> cases h
  · cases h

theorem store_ne_assertion {β : Type} (m : Machine β) (p : Ptr) (bytes : List β) :
    store m p bytes ≠ .error .assertion := by
  intro h
  unfold store at h
  split at h
  · split at h <;> cases h
  · cases h

theorem memmove_ne_assertion {β : Type} (m : Machine β) (dst src : Ptr) (n : Int) :
    memmove m dst src n ≠ .error .assertion := by
  intro h
  unfold memmove at h
  cases hl : load m src n with
  | error e =>
    rw [hl] at h
    have : e = .assertion := Except.error.inj h
    exact load_ne_assertion m src n (this ▸ hl)
  | ok bytes =>
    rw [hl] at h
    exact store_ne_assertion m dst bytes h

theorem memmoveFrom_ne_assertion {β : Type} (m : Machine β) (dst : Ptr) (x : List β) (n : Int) :
    memmoveFrom m dst x n ≠ .error .assertion := by
  intro h
  unfold memmoveFrom at h
  split at h
  · exact store_ne_assertion m dst _ h
  · cases h

theorem freeVecElement_ne_assertion {β : Type} (m : Machine β) (v : vector) (elem : Ptr) :
    freeVecElement m v elem ≠ .error .assertion := by
  intro h
  unfold freeVecElement at h
  split at h
  · cases hl : load m elem v.elemSize with
    | error e =>
      rw [hl] at h
      have : e = .assertion := Except.error.inj h
      exact load_ne_assertion m elem v.elemSize (this ▸ hl)
    | ok bytes => rw [hl] at h; cases h
  · cases h

theorem realloc_error {β : Type} {m : Machine β} {b : Nat} {size : Int} {e : Fault}
    (h : realloc m b size = .error e) : e = .undefined := by
  unfold realloc at h
  split at h
  · exact Except.noConfusion h
  · split at h
    · split at h
      · exact Except.noConfusion h
      · split at h <;> exact Except.noConfusion h
    · exact (Except.error.inj h).symm

/-- A `realloc` that returns `NULL` was refused, or asked for a negative size, and has
left the heap as it was. -/
theorem realloc_null {β : Type} {m m1 : Machine β} {b : Nat} {size : Int}
    (h : realloc m b size = .ok (m1, NULL)) :
    m1 = { m with refuse := m.refuse.tail } ∧ (m.refuse.head? = some true ∨ size < 0) := by
  unfold realloc at h
  split at h
  · unfold malloc at h
    split at h
    · rename_i hno
      exact ⟨(Prod.mk.inj (Except.ok.inj h)).1.symm, hno⟩
    · exact absurd (Prod.mk.inj (Except.ok.inj h)).2 (Nat.succ_ne_zero _)
  · rename_i hb
    split at h
    · split at h
      · rename_i hno
        exact ⟨(Prod.mk.inj (Except.ok.inj h)).1.symm, hno⟩
      · split at h
        · exact absurd (Prod.mk.inj (Except.ok.inj h)).2 (Nat.succ_ne_zero _)
        · exact absurd (Prod.mk.inj (Except.ok.inj h)).2 hb
        · exact absurd (Prod.mk.inj (Except.ok.inj h)).2 hb
    · exact Except.noConfusion h

theorem intResult_error {x : Int} {e : Fault} (h : intResult x = .error e) : e = .undefined := by
  unfold intResult at h
  split at h
  · exact Except.noConfusion h
  · exact (Except.error.inj h).symm

theorem VectorNth_error_iff (v : vector) (position : Int) :
    VectorNth v position = .error .assertion ↔ position < 0 ∨ v.logicalSize ≤ position := by
  unfold VectorNth
  by_cases h0 : position ≥ 0
  · by_cases h1 : position < v.logicalSize
    · rw [if_neg (not_not.2 h0), if_neg (not_not.2 h1)]
      constructor
      · intro h; cases h
      · intro h; omega
    · rw [if_neg (not_not.2 h0), if_pos h1]
      exact ⟨fun _ => Or.inr (by omega), fun _ => rfl⟩
  · rw [if_pos h0]
    exact ⟨fun _ => Or.inl (by omega), fun _ => rfl⟩

theorem inState_bind_error {β α : Type} {m m1 : Machine β} {v v1 : vector} {e : Fault}
    {r : Except Fault α} {f : α → Except (Fault × Machine β × vector) (Machine β × vector)}
    (h : (inState m v r >>= f) = .error (e, m1, v1)) :
    (r = .error e ∧ m1 = m ∧ v1 = v) ∨ ∃ a, r = .ok a ∧ f a = .error (e, m1, v1) := by
  cases r with
  | error e0 =>
    have h1 : (e0, m, v) = (e, m1, v1) := Except.error.inj h
    injection h1 with h2 h3
    injection h3 with h4 h5
    exact Or.inl ⟨by rw [h2], h4.symm, h5.symm⟩
  | ok a => exact Or.inr ⟨a, rfl, h⟩

theorem bind_error {ε α γ : Type} {x : Except ε α} {f : α → Except ε γ} {e : ε}
    (h : (x >>= f) = .error e) : x = .error e ∨ ∃ a, x = .ok a ∧ f a = .error e := by
  cases x with
  | error e0 =>
    have : e0 = e := Except.error.inj h
    exact Or.inl (by rw [this])
  | ok a => exact Or.inr ⟨a, rfl, h⟩

theorem elemAddingRequieredRun_agrees {β : Type} (m : Machine β) (v : vector) :
    (elemAddingRequieredRun m v).mapError Prod.fst = elemAddingRequiered m v := by
  unfold elemAddingRequieredRun elemAddingRequiered
  split
  · cases h1 : intResult (v.allocatedSize + v.reallocSize) with
    | error e => rfl
    | ok a =>
      simp only [inState, bind, Except.bind]
      cases h2 : intResult (v.elemSize * a) with
      | error e => rfl
      | ok size =>
        simp only
        cases h3 : realloc m v.elems size with
        | error e => rfl
        | ok r =>
          obtain ⟨m1, p⟩ := r
          simp only
          split <;> rfl
  · rfl

theorem VectorReplaceRun_agrees {β : Type} (m : Machine β) (v : vector) (x : List β)
    (position : Int) :
    (VectorReplaceRun m v x position).mapError Prod.fst = VectorReplace m v x position := by
  unfold VectorReplaceRun VectorReplace
  simp only [mapError_inState_bind]
  rfl

theorem VectorAppendRun_agrees {β : Type} (m : Machine β) (v : vector) (x : List β) :
    (VectorAppendRun m v x).mapError Prod.fst = VectorAppend m v x := by
  unfold VectorAppendRun VectorAppend
  rw [mapError_bind, elemAddingRequieredRun_agrees]
  simp only [mapError_inState_bind]
  rfl

theorem VectorInsertRun_agrees {β : Type} (m : Machine β) (v : vector) (x : List β)
    (position : Int) :
    (VectorInsertRun m v x position).mapError Prod.fst = VectorInsert m v x position := by
  unfold VectorInsertRun VectorInsert
  split
  · exact VectorAppendRun_agrees m v x
  · simp only [mapError_bind, mapError_inState, elemAddingRequieredRun_agrees]
    rfl

theorem VectorDeleteRun_agrees {β : Type} (m : Machine β) (v : vector) (position : Int) :
    (VectorDeleteRun m v position).mapError Prod.fst = VectorDelete m v position := by
  unfold VectorDeleteRun VectorDelete
  simp only [mapError_inState_bind]
  rfl
theorem endsIn_bind {β α : Type} {P : vector → Prop}
    {x : Except (Fault × Machine β × vector) α}
    {f : α → Except (Fault × Machine β × vector) (Machine β × vector)}
    (herr : ∀ e m1 v1, x = .error (e, m1, v1) → P v1)
    (hok : ∀ a, x = .ok a → endsIn P (f a)) : endsIn P (x >>= f) := by
  cases x with
  | error e => exact herr e.1 e.2.1 e.2.2 rfl
  | ok a => exact hok a rfl

theorem endsIn_inState_bind {β α : Type} {P : vector → Prop} {m : Machine β} {v : vector}
    {r : Except Fault α} {f : α → Except (Fault × Machine β × vector) (Machine β × vector)}
    (hP : P v) (hok : ∀ a, r = .ok a → endsIn P (f a)) : endsIn P (inState m v r >>= f) := by
  cases r with
  | error e => exact hP
  | ok a => exact hok a rfl

theorem endsIn_of_ok {β : Type} {P : vector → Prop}
    {r : Except (Fault × Machine β × vector) (Machine β × vector)} {m1 : Machine β}
    {v1 : vector} (h : endsIn P r) (hr : r.mapError Prod.fst = .ok (m1, v1)) : P v1 := by
  cases r with
  | error e => exact Except.noConfusion hr
  | ok a =>
    have : a = (m1, v1) := Except.ok.inj hr
    subst this
    exact h

theorem endsIn_of_error {β : Type} {P : vector → Prop}
    {r : Except (Fault × Machine β × vector) (Machine β × vector)} {e : Fault}
    {m1 : Machine β} {v1 : vector} (h : endsIn P r) (hr : r = .error (e, m1, v1)) : P v1 := by
  subst hr
  exact h

theorem VectorNth_ok {v : vector} {position : Int} {p : Ptr} (h : VectorNth v position = .ok p) :
    0 ≤ position ∧ position < v.logicalSize := by
  unfold VectorNth at h
  by_cases h0 : position ≥ 0
  · by_cases h1 : position < v.logicalSize
    · exact ⟨h0, h1⟩
    · rw [if_neg (not_not.2 h0), if_pos h1] at h; exact Except.noConfusion h
  · rw [if_pos h0] at h; exact Except.noConfusion h

theorem SameConfig.self (v : vector) : SameConfig v v := ⟨rfl, rfl, rfl⟩

/-- What `elemAddingRequiered` has done when it returns. -/
theorem elemAddingRequiered_ok {β : Type} {m m1 : Machine β} {v v1 : vector}
    (h : elemAddingRequiered m v = .ok (m1, v1)) : GrowStep v v1 := by
  unfold elemAddingRequiered at h
  split at h
  · rename_i hfull
    obtain ⟨a, h1, h⟩ := bind_eq_ok h
    obtain ⟨rfl, -⟩ := intResult_eq_ok h1
    obtain ⟨size, h2, h⟩ := bind_eq_ok h
    obtain ⟨r, h3, h⟩ := bind_eq_ok h
    obtain ⟨m2, p⟩ := r
    simp only at h
    split at h
    · exact Except.noConfusion h
    · obtain ⟨-, rfl⟩ := Prod.mk.inj (Except.ok.inj h)
      exact ⟨⟨rfl, rfl, rfl⟩, rfl, by rw [if_pos hfull]⟩
  · rename_i hfull
    obtain ⟨-, rfl⟩ := Prod.mk.inj (Except.ok.inj h)
    exact ⟨SameConfig.self _, rfl, by rw [if_neg hfull]⟩

theorem elemAddingRequieredRun_ok {β : Type} {m : Machine β} {v : vector}
    {a : Machine β × vector} (h : elemAddingRequieredRun m v = .ok a) : GrowStep v a.2 := by
  have h1 := elemAddingRequieredRun_agrees m v
  rw [h] at h1
  exact elemAddingRequiered_ok h1.symm

/-- The states in which a run of `elemAddingRequiered` stops: on a full container, at an
overflow of the new capacity (nothing changed), at an overflow of the new buffer size or
an undefined `realloc` (the capacity already increased), or at the assertion after a
`realloc` that returned `NULL`. -/
theorem elemAddingRequieredRun_error {β : Type} {m m1 : Machine β} {v v1 : vector} {e : Fault}
    (h : elemAddingRequieredRun m v = .error (e, m1, v1)) :
    v.logicalSize = v.allocatedSize
      ∧ ((e = .undefined ∧ m1 = m ∧ v1 = v)
        ∨ (e = .undefined ∧ m1 = m
            ∧ v1 = { v with allocatedSize := v.allocatedSize + v.reallocSize })
        ∨ (e = .assertion ∧ GrowthRefused m v m1 v1
            ∧ v.elemSize * (v.allocatedSize + v.reallocSize) ≤ INT_MAX
            ∧ (m.refuse.head? = some true
                ∨ v.elemSize * (v.allocatedSize + v.reallocSize) < 0))) := by
  unfold elemAddingRequieredRun at h
  split at h
  · rename_i hfull
    refine ⟨hfull, ?_⟩
    rcases inState_bind_error h with ⟨hr, hm, hv⟩ | ⟨a, h1, h⟩
    · exact Or.inl ⟨intResult_error hr, hm, hv⟩
    · obtain ⟨rfl, -⟩ := intResult_eq_ok h1
      rcases inState_bind_error h with ⟨hr, hm, hv⟩ | ⟨size, h2, h⟩
      · exact Or.inr (Or.inl ⟨intResult_error hr, hm, hv⟩)
      · obtain ⟨rfl, hfit⟩ := intResult_eq_ok h2
        rcases inState_bind_error h with ⟨hr, hm, hv⟩ | ⟨r, h3, h⟩
        · exact Or.inr (Or.inl ⟨realloc_error hr, hm, hv⟩)
        · obtain ⟨m2, p⟩ := r
          simp only at h
          split at h
          · rename_i hp
            have hp0 : p = NULL := not_not.1 hp
            subst hp0
            obtain ⟨hm2, hcause⟩ := realloc_null h3
            have h4 := Except.error.inj h
            injection h4 with h5 h6
            injection h6 with h7 h8
            exact Or.inr (Or.inr ⟨h5.symm, ⟨hfull, by rw [← h7, hm2], h8.symm⟩, hfit, hcause⟩)
          · exact Except.noConfusion h
  · exact Except.noConfusion h

theorem elemAddingRequieredRun_stop {β : Type} {m m1 : Machine β} {v v1 : vector} {e : Fault}
    (h : elemAddingRequieredRun m v = .error (e, m1, v1)) : GrowStop v v1 := by
  obtain ⟨hfull, h1 | h1 | h1⟩ := elemAddingRequieredRun_error h
  · obtain ⟨-, -, rfl⟩ := h1
    exact ⟨SameConfig.self _, rfl, Or.inl rfl⟩
  · obtain ⟨-, -, rfl⟩ := h1
    exact ⟨⟨rfl, rfl, rfl⟩, rfl, Or.inr ⟨hfull, rfl⟩⟩
  · obtain ⟨-, ⟨-, -, rfl⟩, -⟩ := h1
    exact ⟨⟨rfl, rfl, rfl⟩, rfl, Or.inr ⟨hfull, rfl⟩⟩

theorem GrowStep.stop {v v1 : vector} (h : GrowStep v v1) : GrowStop v v1 := by
  obtain ⟨hc, hl, hal⟩ := h
  refine ⟨hc, hl, ?_⟩
  by_cases hfull : v.logicalSize = v.allocatedSize
  · rw [if_pos hfull] at hal; exact Or.inr ⟨hfull, hal⟩
  · rw [if_neg hfull] at hal; exact Or.inl hal

theorem VectorReplaceRun_step {β : Type} (m : Machine β) (v : vector) (x : List β)
    (position : Int) : endsIn (Eq v) (VectorReplaceRun m v x position) := by
  unfold VectorReplaceRun
  refine endsIn_inState_bind rfl (fun p _ => ?_)
  refine endsIn_inState_bind rfl (fun m1 _ => ?_)
  exact endsIn_inState_bind rfl (fun m2 _ => rfl)

theorem VectorAppendRun_step {β : Type} (m : Machine β) (v : vector) (x : List β) :
    endsIn (AddStep v) (VectorAppendRun m v x) := by
  unfold VectorAppendRun
  refine endsIn_bind (fun e m1 v1 he => ?_) (fun a ha => ?_)
  · obtain ⟨hc, hl, ha⟩ := elemAddingRequieredRun_stop he
    exact ⟨hc, ha, Or.inl hl⟩
  · obtain ⟨hc, hl, hal⟩ : GrowStep v a.2 := elemAddingRequieredRun_ok ha
    have hstep : AddStep v { a.2 with logicalSize := a.2.logicalSize + 1 } := by
      refine ⟨hc, ?_, Or.inr ⟨by show a.2.logicalSize + 1 = _; rw [hl], fun hfull => ?_⟩⟩
      · by_cases hfull : v.logicalSize = v.allocatedSize
        · rw [if_pos hfull] at hal; exact Or.inr ⟨hfull, hal⟩
        · rw [if_neg hfull] at hal; exact Or.inl hal
      · rw [if_pos hfull] at hal; exact hal
    refine endsIn_inState_bind hstep (fun p _ => ?_)
    exact endsIn_inState_bind hstep (fun m2 _ => hstep)

theorem VectorInsertRun_step {β : Type} (m : Machine β) (v : vector) (x : List β)
    (position : Int) : endsIn (AddStep v) (VectorInsertRun m v x position) := by
  unfold VectorInsertRun
  split
  · exact VectorAppendRun_step m v x
  · have hsame : AddStep v v := ⟨SameConfig.self v, Or.inl rfl, Or.inl rfl⟩
    refine endsIn_inState_bind hsame (fun p _ => ?_)
    have hgrown : ∀ v1 : vector, GrowStep v v1 →
        AddStep v v1 ∧ AddStep v { v1 with logicalSize := v1.logicalSize + 1 } := by
      intro v1 hv1
      obtain ⟨hc, hl, hcap⟩ := hv1.stop
      obtain ⟨-, -, hal⟩ := hv1
      refine ⟨⟨hc, hcap, Or.inl hl⟩, hc, hcap, Or.inr ⟨?_, fun hfull => ?_⟩⟩
      · show v1.logicalSize + 1 = _; rw [hl]
      · rw [if_pos hfull] at hal; exact hal
    refine endsIn_bind (fun e m1 v1 he => ?_) (fun a ha => ?_)
    · obtain ⟨hc, hl, hcap⟩ := elemAddingRequieredRun_stop he
      exact ⟨hc, hcap, Or.inl hl⟩
    have hstep := hgrown a.2 (elemAddingRequieredRun_ok ha)
    refine endsIn_inState_bind hstep.1 (fun m2 _ => ?_)
    exact endsIn_inState_bind hstep.1 (fun m3 _ => hstep.2)

theorem VectorDeleteRun_step {β : Type} (m : Machine β) (v : vector) (position : Int) :
    endsIn (DeleteStep v) (VectorDeleteRun m v position) := by
  unfold VectorDeleteRun
  have hsame : DeleteStep v v := ⟨SameConfig.self v, rfl, Or.inl rfl⟩
  refine endsIn_inState_bind hsame (fun p hp => ?_)
  have hpos := VectorNth_ok hp
  refine endsIn_inState_bind hsame (fun m1 _ => ?_)
  have hstep : DeleteStep v { v with logicalSize := v.logicalSize - 1 } :=
    ⟨⟨rfl, rfl, rfl⟩, rfl, Or.inr ⟨rfl, by omega⟩⟩
  exact endsIn_inState_bind hstep (fun m2 _ => hstep)

theorem SizesOk.add {v v1 : vector} (h : SizesOk v) (hs : AddStep v v1) : SizesOk v1 := by
  obtain ⟨h0, hle, hes, hr⟩ := h
  obtain ⟨⟨he, hre, -⟩, hcap, hlen⟩ := hs
  refine ⟨?_, ?_, by rw [he]; exact hes, by rw [hre]; exact hr⟩
  · rcases hlen with hl | ⟨hl, -⟩ <;> omega
  · rcases hlen with hl | ⟨hl, hgrow⟩
    · rcases hcap with hc | ⟨-, hc⟩ <;> omega
    · by_cases hfull : v.logicalSize = v.allocatedSize
      · have := hgrow hfull; omega
      · rcases hcap with hc | ⟨hf, -⟩
        · omega
        · exact absurd hf hfull

theorem SizesOk.delete {v v1 : vector} (h : SizesOk v) (hs : DeleteStep v v1) : SizesOk v1 := by
  obtain ⟨h0, hle, hes, hr⟩ := h
  obtain ⟨⟨he, hre, -⟩, hcap, hlen⟩ := hs
  refine ⟨?_, ?_, by rw [he]; exact hes, by rw [hre]; exact hr⟩
  · rcases hlen with hl | ⟨hl, hpos⟩ <;> omega
  · rcases hlen with hl | ⟨hl, hpos⟩ <;> omega

theorem VectorSort_struct {β : Type} {m m1 : Machine β} {v v1 : vector}
    {compare : List β → List β → Int} (h : VectorSort m v compare = .ok (m1, v1)) : v1 = v := by
  unfold VectorSort at h
  obtain ⟨m2, -, h2⟩ := bind_eq_ok h
  exact (Prod.mk.inj (Except.ok.inj h2)).2.symm

theorem VectorMap_struct {β : Type} {m m1 : Machine β} {v v1 : vector}
    {mapFn : Option (List β → Nat → List β)} {auxData : Nat}
    (h : VectorMap m v mapFn auxData = .ok (m1, v1)) : v1 = v := by
  unfold VectorMap at h
  cases mapFn with
  | none => exact Except.noConfusion h
  | some fn =>
    obtain ⟨m2, -, h2⟩ := bind_eq_ok h
    exact (Prod.mk.inj (Except.ok.inj h2)).2.symm
/-! ## Construction and invariants of the struct -/

theorem endsIn.mono {β : Type} {P Q : vector → Prop}
    {r : Except (Fault × Machine β × vector) (Machine β × vector)}
    (h : endsIn P r) (hPQ : ∀ v1, P v1 → Q v1) : endsIn Q r := by
  cases r with
  | error e => exact hPQ _ h
  | ok a => exact hPQ _ h

theorem VectorAppend_step {β : Type} {m m1 : Machine β} {v v1 : vector} {x : List β}
    (h : VectorAppend m v x = .ok (m1, v1)) : AddStep v v1 :=
  endsIn_of_ok (VectorAppendRun_step m v x) ((VectorAppendRun_agrees m v x).trans h)

theorem VectorInsert_step {β : Type} {m m1 : Machine β} {v v1 : vector} {x : List β}
    {position : Int} (h : VectorInsert m v x position = .ok (m1, v1)) : AddStep v v1 :=
  endsIn_of_ok (VectorInsertRun_step m v x position)
    ((VectorInsertRun_agrees m v x position).trans h)

theorem VectorDelete_step {β : Type} {m m1 : Machine β} {v v1 : vector} {position : Int}
    (h : VectorDelete m v position = .ok (m1, v1)) : DeleteStep v v1 :=
  endsIn_of_ok (VectorDeleteRun_step m v position)
    ((VectorDeleteRun_agrees m v position).trans h)

theorem VectorReplace_struct {β : Type} {m m1 : Machine β} {v v1 : vector} {x : List β}
    {position : Int} (h : VectorReplace m v x position = .ok (m1, v1)) : v1 = v :=
  (endsIn_of_ok (VectorReplaceRun_step m v x position)
    ((VectorReplaceRun_agrees m v x position).trans h)).symm

theorem Holds.sizesOk {β : Type} {m : Machine β} {v : vector} {s : List (List β)}
    (h : Holds m v s) : SizesOk v :=
  ⟨by rw [h.length_eq]; exact Int.natCast_nonneg _, h.le_alloc, h.elemSize_pos,
    h.reallocSize_pos⟩

/-- With a size of the buffer within `int`, a refused `malloc` makes `VectorNew` fail
its assertion. -/
theorem VectorNew_refused {β : Type} (m : Machine β) (elemSize : Int) (freeFn : Option Nat)
    (initialAllocation : Int) (hes : 0 < elemSize)
    (hfit : elemSize * (if initialAllocation ≤ 0 then 1 else initialAllocation) ≤ INT_MAX)
    (hrefuse : m.refuse.head? = some true) :
    VectorNew m elemSize freeFn initialAllocation = .error .assertion := by
  have hcap : 0 < (if initialAllocation ≤ 0 then DefaultAllocSize else initialAllocation) := by
    split
    · decide
    · omega
  have hpos := Int.mul_pos hes hcap
  have hint := intResult_ok _ (Int.le_of_lt hpos) hfit
  have hyes : m.refuse.head? = some true ∨
      elemSize * (if initialAllocation ≤ 0 then DefaultAllocSize else initialAllocation) < 0 :=
    Or.inl hrefuse
  unfold VectorNew
  rw [if_neg (not_not.2 hes)]
  simp only [bind, Except.bind, hint, malloc]
  rw [if_pos hyes]
  simp only [ne_eq, not_true_eq_false, not_false_eq_true, if_true]

/-- C17, counterexample: with element size 4 > 0, when `malloc` refuses the request,
`VectorNew` ends in a failed assertion instead of yielding a container; and with element
size 46341 and capacity hint 46341 the size of the buffer is outside the range of `int`,
and `VectorNew` yields no container either. -/
theorem VectorNew_stops :
    VectorNew (refusingMachine [true]) 4 (some 7) 2 = .error .assertion
      ∧ ¬ ∃ m1 v, VectorNew (emptyMachine []) 46341 (some 7) 46341 = .ok (m1, v) := by
  refine ⟨by decide, fun ⟨m1, v, h⟩ => ?_⟩
  have e : VectorNew (emptyMachine []) 46341 (some 7) 46341 = .error .undefined := by decide
  rw [e] at h
  exact Except.noConfusion h

/-- C17: whenever `VectorNew` returns, the struct has `logicalSize = 0`, the given
element size and destructor, and `allocatedSize` and `reallocSize` both equal to the hint
when it is positive and to 1 otherwise.  It returns, with a fresh buffer of that
capacity, for every element size > 0, destructor and hint for which the size of the
buffer, `elemSize` times that capacity, is within the range of `int` and `malloc` grants
the request.  It ends in a failed assertion for an element size ≤ 0, and for an element
size > 0 with a buffer size within `int` when `malloc` refuses the request. -/
theorem VectorNew_fields {β : Type} (m : Machine β) (elemSize : Int) (freeFn : Option Nat)
    (initialAllocation : Int) :
    (∀ (m1 : Machine β) (v : vector),
        VectorNew m elemSize freeFn initialAllocation = .ok (m1, v) →
        v.logicalSize = 0 ∧ v.elemSize = elemSize ∧ v.freeFn = freeFn
        ∧ v.allocatedSize = (if initialAllocation ≤ 0 then 1 else initialAllocation)
        ∧ v.reallocSize = (if initialAllocation ≤ 0 then 1 else initialAllocation))
      ∧ (0 < elemSize →
          elemSize * (if initialAllocation ≤ 0 then 1 else initialAllocation) ≤ INT_MAX →
          m.refuse.head? ≠ some true →
          ∃ m1 v, VectorNew m elemSize freeFn initialAllocation = .ok (m1, v)
            ∧ Holds m1 v [])
      ∧ (elemSize ≤ 0 → VectorNew m elemSize freeFn initialAllocation = .error .assertion)
      ∧ (0 < elemSize →
          elemSize * (if initialAllocation ≤ 0 then 1 else initialAllocation) ≤ INT_MAX →
          m.refuse.head? = some true →
          VectorNew m elemSize freeFn initialAllocation = .error .assertion) := by
  refine ⟨fun m1 v hnew => ?_, fun hes hfit hgrant => ?_, ?_,
    VectorNew_refused m elemSize freeFn initialAllocation⟩
  · obtain ⟨-, -, -, he, hf, ha, hr, hl, -⟩ := VectorNew_ok hnew
    exact ⟨hl, he, hf, ha, by rw [hr, ha]⟩
  · obtain ⟨m1, v, hnew, h0, -⟩ :=
      VectorNew_holds m elemSize freeFn initialAllocation hes hfit hgrant
    exact ⟨m1, v, hnew, h0⟩
  · intro hes
    simp only [VectorNew, gt_iff_lt, show ¬ (0 < elemSize) by omega, not_false_eq_true, if_true]

theorem VectorNew_fields_witness :
    (∃ m1 v, VectorNew (emptyMachine []) 4 (some 7) 0 = .ok (m1, v)
        ∧ v.logicalSize = 0 ∧ v.elemSize = 4 ∧ v.freeFn = some 7
        ∧ v.allocatedSize = 1 ∧ v.reallocSize = 1 ∧ Holds m1 v [])
      ∧ VectorNew (emptyMachine []) 0 (some 7) 5 = .error .assertion
      ∧ VectorNew (refusingMachine [true]) 4 (some 7) 5 = .error .assertion := by
  obtain ⟨m1, v, hnew, h0⟩ :=
    (VectorNew_fields (emptyMachine []) 4 (some 7) 0).2.1 (by decide) (by decide) (by decide)
  obtain ⟨hl, he, hf, ha, hr⟩ := (VectorNew_fields (emptyMachine []) 4 (some 7) 0).1 m1 v hnew
  exact ⟨⟨m1, v, hnew, hl, he, hf, ha, hr, h0⟩,
    (VectorNew_fields (emptyMachine []) 0 (some 7) 5).2.2.1 (by decide),
    (VectorNew_fields (refusingMachine [true]) 4 (some 7) 5).2.2.2 (by decide) (by decide)
      (by decide)⟩

/-- C18: the size invariant (`0 ≤ logicalSize ≤ allocatedSize`, `elemSize > 0`,
`reallocSize > 0`) holds of the struct `VectorNew` returns, whenever it returns, as it
does when the buffer size is within `int` and `malloc` grants the request; it holds of
the struct that `VectorAppend`, `VectorInsert`, `VectorDelete`, `VectorReplace`,
`VectorSort` and `VectorMap` return whenever it held before; and it holds of the struct
in every state in which a run of the four mutating operations ends, returning or not.
`VectorSearch`, `VectorNth` and `VectorLength` take the struct read-only. -/
theorem SizesOk_preserved {β : Type} :
    ((∀ (m m1 : Machine β) (elemSize : Int) (freeFn : Option Nat) (initialAllocation : Int)
          (v : vector),
          VectorNew m elemSize freeFn initialAllocation = .ok (m1, v) → SizesOk v)
        ∧ (∀ (m : Machine β) (elemSize : Int) (freeFn : Option Nat) (initialAllocation : Int),
          0 < elemSize →
          elemSize * (if initialAllocation ≤ 0 then 1 else initialAllocation) ≤ INT_MAX →
          m.refuse.head? ≠ some true →
          ∃ m1 v, VectorNew m elemSize freeFn initialAllocation = .ok (m1, v) ∧ SizesOk v))
      ∧ (∀ (m m1 : Machine β) (v v1 : vector) (x : List β),
          SizesOk v → VectorAppend m v x = .ok (m1, v1) → SizesOk v1)
      ∧ (∀ (m m1 : Machine β) (v v1 : vector) (x : List β) (position : Int),
          SizesOk v → VectorInsert m v x position = .ok (m1, v1) → SizesOk v1)
      ∧ (∀ (m m1 : Machine β) (v v1 : vector) (position : Int),
          SizesOk v → VectorDelete m v position = .ok (m1, v1) → SizesOk v1)
      ∧ (∀ (m m1 : Machine β) (v v1 : vector) (x : List β) (position : Int),
          SizesOk v → VectorReplace m v x position = .ok (m1, v1) → SizesOk v1)
      ∧ (∀ (m m1 : Machine β) (v v1 : vector) (compare : List β → List β → Int),
          SizesOk v → VectorSort m v compare = .ok (m1, v1) → SizesOk v1)
      ∧ (∀ (m m1 : Machine β) (v v1 : vector) (mapFn : Option (List β → Nat → List β))
          (auxData : Nat),
          SizesOk v → VectorMap m v mapFn auxData = .ok (m1, v1) → SizesOk v1)
      ∧ (∀ (m : Machine β) (v : vector) (x : List β) (position : Int), SizesOk v →
          endsIn SizesOk (VectorAppendRun m v x)
          ∧ endsIn SizesOk (VectorInsertRun m v x position)
          ∧ endsIn SizesOk (VectorDeleteRun m v position)
          ∧ endsIn SizesOk (VectorReplaceRun m v x position)) := by
  refine ⟨⟨?_, ?_⟩, ?_, ?_, ?_, ?_, ?_, ?_, ?_⟩
  · intro m m1 elemSize freeFn initialAllocation v hnew
    exact (VectorNew_ok hnew).2.1.sizesOk
  · intro m elemSize freeFn initialAllocation hes hfit hgrant
    obtain ⟨m1, v, hnew, h0, -⟩ :=
      VectorNew_holds m elemSize freeFn initialAllocation hes hfit hgrant
    exact ⟨m1, v, hnew, h0.sizesOk⟩
  · intro m m1 v v1 x hv h
    exact hv.add (VectorAppend_step h)
  · intro m m1 v v1 x position hv h
    exact hv.add (VectorInsert_step h)
  · intro m m1 v v1 position hv h
    exact hv.delete (VectorDelete_step h)
  · intro m m1 v v1 x position hv h
    rw [VectorReplace_struct h]; exact hv
  · intro m m1 v v1 compare hv h
    rw [VectorSort_struct h]; exact hv
  · intro m m1 v v1 mapFn auxData hv h
    rw [VectorMap_struct h]; exact hv
  · intro m v x position hv
    exact ⟨(VectorAppendRun_step m v x).mono (fun _ => hv.add),
      (VectorInsertRun_step m v x position).mono (fun _ => hv.add),
      (VectorDeleteRun_step m v position).mono (fun _ => hv.delete),
      (VectorReplaceRun_step m v x position).mono (fun _ e => e ▸ hv)⟩

theorem SizesOk_preserved_witness :
    (∃ m1 v, VectorNew (emptyMachine []) 4 none (-2) = .ok (m1, v) ∧ SizesOk v)
      ∧ SizesOk { roundTripVector with logicalSize := 2 } :=
  ⟨(SizesOk_preserved (β := Nat)).1.2 (emptyMachine []) 4 none (-2) (by decide) (by decide)
      (by decide),
    (SizesOk_preserved (β := Nat)).2.2.2.1 roundTripMachine
      { roundTripMachine with trace := [Call.free 7 [30]] } roundTripVector
      { roundTripVector with logicalSize := 2 } 2
      ⟨by decide, by decide, by decide, by decide⟩ (by decide)⟩

theorem NoShrink.of_add {v v1 : vector} (h : SizesOk v) (hs : AddStep v v1) : NoShrink v v1 := by
  obtain ⟨-, -, -, hr⟩ := h
  obtain ⟨hc, hcap, -⟩ := hs
  refine ⟨?_, hc⟩
  rcases hcap with hc | ⟨-, hc⟩ <;> omega

/-- C19: `VectorDelete`, `VectorReplace`, `VectorSort` and `VectorMap` return a struct
with the same `allocatedSize`, and `VectorAppend` and `VectorInsert` one whose
`allocatedSize` is the same or larger by `reallocSize`, hence not smaller; all six keep
`elemSize`, `reallocSize` and the destructor; and in every state in which a run of the
four mutating operations ends, returning or not, the capacity has not decreased and
those three fields are unchanged.  `VectorSearch`, `VectorNth` and `VectorLength` take
the struct read-only. -/
theorem capacity_never_shrinks {β : Type} :
    (∀ (m m1 : Machine β) (v v1 : vector) (position : Int),
        VectorDelete m v position = .ok (m1, v1) →
        v1.allocatedSize = v.allocatedSize ∧ SameConfig v v1)
      ∧ (∀ (m m1 : Machine β) (v v1 : vector) (x : List β) (position : Int),
          VectorReplace m v x position = .ok (m1, v1) →
          v1.allocatedSize = v.allocatedSize ∧ SameConfig v v1)
      ∧ (∀ (m m1 : Machine β) (v v1 : vector) (compare : List β → List β → Int),
          VectorSort m v compare = .ok (m1, v1) →
          v1.allocatedSize = v.allocatedSize ∧ SameConfig v v1)
      ∧ (∀ (m m1 : Machine β) (v v1 : vector) (mapFn : Option (List β → Nat → List β))
          (auxData : Nat),
          VectorMap m v mapFn auxData = .ok (m1, v1) →
          v1.allocatedSize = v.allocatedSize ∧ SameConfig v v1)
      ∧ (∀ (m m1 : Machine β) (v v1 : vector) (x : List β),
          SizesOk v → VectorAppend m v x = .ok (m1, v1) →
          (v1.allocatedSize = v.allocatedSize
            ∨ v1.allocatedSize = v.allocatedSize + v.reallocSize) ∧ NoShrink v v1)
      ∧ (∀ (m m1 : Machine β) (v v1 : vector) (x : List β) (position : Int),
          SizesOk v → VectorInsert m v x position = .ok (m1, v1) →
          (v1.allocatedSize = v.allocatedSize
            ∨ v1.allocatedSize = v.allocatedSize + v.reallocSize) ∧ NoShrink v v1)
      ∧ (∀ (m : Machine β) (v : vector) (x : List β) (position : Int), SizesOk v →
          endsIn (NoShrink v) (VectorAppendRun m v x)
          ∧ endsIn (NoShrink v) (VectorInsertRun m v x position)
          ∧ endsIn (NoShrink v) (VectorDeleteRun m v position)
          ∧ endsIn (NoShrink v) (VectorReplaceRun m v x position)) := by
  refine ⟨?_, ?_, ?_, ?_, ?_, ?_, ?_⟩
  · intro m m1 v v1 position h
    obtain ⟨hc, ha, -⟩ := VectorDelete_step h
    exact ⟨ha, hc⟩
  · intro m m1 v v1 x position h
    rw [VectorReplace_struct h]; exact ⟨rfl, SameConfig.self v⟩
  · intro m m1 v v1 compare h
    rw [VectorSort_struct h]; exact ⟨rfl, SameConfig.self v⟩
  · intro m m1 v v1 mapFn auxData h
    rw [VectorMap_struct h]; exact ⟨rfl, SameConfig.self v⟩
  · intro m m1 v v1 x hv h
    have hs := VectorAppend_step h
    exact ⟨hs.2.1.imp id (fun hh => hh.2), NoShrink.of_add hv hs⟩
  · intro m m1 v v1 x position hv h
    have hs := VectorInsert_step h
    exact ⟨hs.2.1.imp id (fun hh => hh.2), NoShrink.of_add hv hs⟩
  · intro m v x position hv
    exact ⟨(VectorAppendRun_step m v x).mono (fun _ => NoShrink.of_add hv),
      (VectorInsertRun_step m v x position).mono (fun _ => NoShrink.of_add hv),
      (VectorDeleteRun_step m v position).mono
        (fun _ hs => ⟨Int.le_of_eq hs.2.1.symm, hs.1⟩),
      (VectorReplaceRun_step m v x position).mono
        (fun _ e => e ▸ ⟨Int.le_refl _, SameConfig.self v⟩)⟩

theorem capacity_never_shrinks_witness :
    ({ roundTripVector with logicalSize := 2 } : vector).allocatedSize
        = roundTripVector.allocatedSize
      ∧ SameConfig roundTripVector { roundTripVector with logicalSize := 2 } :=
  (capacity_never_shrinks (β := Nat)).1 roundTripMachine
    { roundTripMachine with trace := [Call.free 7 [30]] } roundTripVector
    { roundTripVector with logicalSize := 2 } 2 (by decide)

/-! ## Position checks -/

/-- A run of `VectorReplace` that stops at a failed assertion stops at the position check,
in the state it started in. -/
theorem VectorReplaceRun_assertion {β : Type} {m m1 : Machine β} {v v1 : vector} {x : List β}
    {position : Int} (h : VectorReplaceRun m v x position = .error (.assertion, m1, v1)) :
    m1 = m ∧ v1 = v ∧ VectorNth v position = .error .assertion := by
  unfold VectorReplaceRun at h
  rcases inState_bind_error h with ⟨hr, hm, hv⟩ | ⟨p, -, h2⟩
  · exact ⟨hm, hv, hr⟩
  · rcases inState_bind_error h2 with ⟨hr, -, -⟩ | ⟨m2, -, h3⟩
    · exact absurd hr (freeVecElement_ne_assertion _ _ _)
    · rcases inState_bind_error h3 with ⟨hr, -, -⟩ | ⟨m3, -, h4⟩
      · exact absurd hr (memmoveFrom_ne_assertion _ _ _ _)
      · cases h4

/-- A run of `VectorDelete` that stops at a failed assertion stops at the position check,
in the state it started in. -/
theorem VectorDeleteRun_assertion {β : Type} {m m1 : Machine β} {v v1 : vector}
    {position : Int} (h : VectorDeleteRun m v position = .error (.assertion, m1, v1)) :
    m1 = m ∧ v1 = v ∧ VectorNth v position = .error .assertion := by
  unfold VectorDeleteRun at h
  rcases inState_bind_error h with ⟨hr, hm, hv⟩ | ⟨p, -, h2⟩
  · exact ⟨hm, hv, hr⟩
  · rcases inState_bind_error h2 with ⟨hr, -, -⟩ | ⟨m2, -, h3⟩
    · exact absurd hr (freeVecElement_ne_assertion _ _ _)
    · rcases inState_bind_error h3 with ⟨hr, -, -⟩ | ⟨m3, -, h4⟩
      · exact absurd hr (memmove_ne_assertion _ _ _ _)
      · cases h4

/-- A run of `VectorAppend` on a struct of length ≥ 0 that stops at a failed assertion
stops at the one on the result of `realloc`, which has returned `NULL`. -/
theorem VectorAppendRun_assertion {β : Type} {m m1 : Machine β} {v v1 : vector} {x : List β}
    (h0 : 0 ≤ v.logicalSize) (h : VectorAppendRun m v x = .error (.assertion, m1, v1)) :
    GrowthRefused m v m1 v1
      ∧ v.elemSize * (v.allocatedSize + v.reallocSize) ≤ INT_MAX
      ∧ (m.refuse.head? = some true
          ∨ v.elemSize * (v.allocatedSize + v.reallocSize) < 0) := by
  unfold VectorAppendRun at h
  rcases bind_error h with hg | ⟨a, ha, h2⟩
  · obtain ⟨-, h1 | h1 | h1⟩ := elemAddingRequieredRun_error hg
    · exact Fault.noConfusion h1.1
    · exact Fault.noConfusion h1.1
    · exact h1.2
  · have hstep : GrowStep v a.2 := elemAddingRequieredRun_ok ha
    rcases inState_bind_error h2 with ⟨hr, -, -⟩ | ⟨p, -, h3⟩
    · have := (VectorNth_error_iff _ _).1 hr
      have hl : a.2.logicalSize = v.logicalSize := hstep.2.1
      simp only at this
      omega
    · rcases inState_bind_error h3 with ⟨hr, -, -⟩ | ⟨m3, -, h4⟩
      · exact absurd hr (memmoveFrom_ne_assertion _ _ _ _)
      · cases h4

/-- A run of `VectorInsert` on a struct of length ≥ 0 that stops at a failed assertion
stops at the position check, in the state it started in, or, with the position in range,
at the assertion on the result of `realloc`, which has returned `NULL`. -/
theorem VectorInsertRun_assertion {β : Type} {m m1 : Machine β} {v v1 : vector} {x : List β}
    {position : Int} (h0 : 0 ≤ v.logicalSize)
    (h : VectorInsertRun m v x position = .error (.assertion, m1, v1)) :
    (m1 = m ∧ v1 = v ∧ position ≠ v.logicalSize ∧ VectorNth v position = .error .assertion)
      ∨ (0 ≤ position ∧ position ≤ v.logicalSize ∧ GrowthRefused m v m1 v1
          ∧ v.elemSize * (v.allocatedSize + v.reallocSize) ≤ INT_MAX
          ∧ (m.refuse.head? = some true
              ∨ v.elemSize * (v.allocatedSize + v.reallocSize) < 0)) := by
  unfold VectorInsertRun at h
  split at h
  · rename_i heq
    exact Or.inr ⟨by omega, by omega, VectorAppendRun_assertion h0 h⟩
  · rename_i hne
    rcases inState_bind_error h with ⟨hr, hm, hv⟩ | ⟨p, hp, h2⟩
    · exact Or.inl ⟨hm, hv, hne, hr⟩
    · have hpos := VectorNth_ok hp
      rcases bind_error h2 with hg | ⟨a, -, h3⟩
      · obtain ⟨-, h1 | h1 | h1⟩ := elemAddingRequieredRun_error hg
        · exact Fault.noConfusion h1.1
        · exact Fault.noConfusion h1.1
        · exact Or.inr ⟨hpos.1, Int.le_of_lt hpos.2, h1.2⟩
      · rcases inState_bind_error h3 with ⟨hr, -, -⟩ | ⟨m3, -, h4⟩
        · exact absurd hr (memmove_ne_assertion _ _ _ _)
        · rcases inState_bind_error h4 with ⟨hr, -, -⟩ | ⟨m4, -, h5⟩
          · exact absurd hr (memmoveFrom_ne_assertion _ _ _ _)
          · cases h5

/-- On a full container whose grown buffer size is within `int`, a refused `realloc`
makes the growth step fail its assertion. -/
theorem elemAddingRequiered_refused {β : Type} {m : Machine β} {v : vector}
    {s : List (List β)} (h : Holds m v s) (hfull : v.logicalSize = v.allocatedSize)
    (hfit : v.elemSize * (v.allocatedSize + v.reallocSize) ≤ INT_MAX)
    (hrefuse : m.refuse.head? = some true) :
    elemAddingRequiered m v = .error .assertion := by
  obtain ⟨hes, hrs, hlen, hle, -, buf, hblk, -, -⟩ := h
  have hb := block_lt hblk
  have hcap : v.allocatedSize + v.reallocSize
      ≤ v.elemSize * (v.allocatedSize + v.reallocSize) :=
    le_mul_of_one_le_left (by omega) (by omega)
  have hint1 := intResult_ok (v.allocatedSize + v.reallocSize) (by omega) (by omega)
  have hint2 := intResult_ok (v.elemSize * (v.allocatedSize + v.reallocSize)) (by omega) hfit
  have hyes : m.refuse.head? = some true
      ∨ v.elemSize * (v.allocatedSize + v.reallocSize) < 0 := Or.inl hrefuse
  unfold elemAddingRequiered
  rw [if_pos hfull]
  simp only [bind, Except.bind, hint1, hint2, realloc]
  rw [if_neg hb.1]
  simp only [hblk]
  rw [if_pos hyes]
  simp only [ne_eq, not_true_eq_false, not_false_eq_true, if_true]

theorem mapError_eq_error {β : Type}
    {r : Except (Fault × Machine β × vector) (Machine β × vector)} {e : Fault}
    (h : r.mapError Prod.fst = .error e) : ∃ m1 v1, r = .error (e, m1, v1) := by
  cases r with
  | ok a => cases h
  | error st =>
    obtain ⟨e0, m1, v1⟩ := st
    have : e0 = e := Except.error.inj h
    exact ⟨m1, v1, by rw [this]⟩
/-- C13, counterexample: on a full container holding `[10, 20, 30]`, when the allocator
refuses the growth, `VectorInsert` at position 1, which is inside `[0, logicalSize]`,
ends in a failed assertion, and the run stops with `allocatedSize` changed from 3 to 6
and `elems` set to `NULL`. -/
theorem VectorInsert_in_range_stops :
    Holds roundTripRefusedMachine roundTripVector [[10], [20], [30]]
      ∧ VectorInsert roundTripRefusedMachine roundTripVector [40] 1 = .error .assertion
      ∧ VectorInsertRun roundTripRefusedMachine roundTripVector [40] 1
          = .error (.assertion, { roundTripRefusedMachine with refuse := [] },
              { roundTripVector with allocatedSize := 6, elems := NULL }) :=
  ⟨⟨by decide, by decide, by decide, by decide, by decide, ⟨_, rfl, by decide, by decide⟩⟩,
    by decide, by decide⟩

/-- C13: on a container that holds `s`, `VectorNth`, `VectorReplace` and `VectorDelete`
end in a failed assertion exactly when the position is outside `[0, logicalSize)`.
`VectorInsert` ends in a failed assertion whenever the position is outside
`[0, logicalSize]`; and, the size of the grown buffer being within `int` if the
container is full, it ends in a failed assertion exactly when the position is outside
`[0, logicalSize]` or, with the position inside, the container is full and `realloc`
refuses the growth.  A run that stops at a failed position check stops in the machine
and with the struct it started with (no element, size or capacity changed, no destructor
call recorded); a run of `VectorInsert` that stops at the assertion on the refused growth
has the capacity already increased by `reallocSize` and `elems` set to `NULL`, with heap,
trace and `logicalSize` as they were.  Inside the range `VectorNth` returns the address
of the slot holding the element at that position, `VectorDelete` returns, and
`VectorReplace` and `VectorInsert` return for an element of `elemSize` bytes,
`VectorInsert` provided that the growth step (if one is due) goes through and, below the
length, leaves the buffer at its address. -/
theorem position_checks {β : Type} (m : Machine β) (v : vector) (s : List (List β))
    (x : List β) (position : Int) (h : Holds m v s) :
    (VectorNth v position = .error .assertion ↔ position < 0 ∨ VectorLength v ≤ position)
      ∧ (VectorReplace m v x position = .error .assertion
          ↔ position < 0 ∨ VectorLength v ≤ position)
      ∧ (VectorDelete m v position = .error .assertion
          ↔ position < 0 ∨ VectorLength v ≤ position)
      ∧ (position < 0 ∨ VectorLength v < position →
          VectorInsert m v x position = .error .assertion
          ∧ VectorInsertRun m v x position = .error (.assertion, m, v))
      ∧ ((v.logicalSize = v.allocatedSize →
            v.elemSize * (v.allocatedSize + v.reallocSize) ≤ INT_MAX) →
          (VectorInsert m v x position = .error .assertion
            ↔ (position < 0 ∨ VectorLength v < position)
              ∨ (0 ≤ position ∧ position ≤ VectorLength v ∧ v.logicalSize = v.allocatedSize
                  ∧ m.refuse.head? = some true))
          ∧ ∀ (m1 : Machine β) (v1 : vector),
              VectorInsertRun m v x position = .error (.assertion, m1, v1) →
              ((position < 0 ∨ VectorLength v < position) ∧ m1 = m ∧ v1 = v)
                ∨ (0 ≤ position ∧ position ≤ VectorLength v ∧ GrowthRefused m v m1 v1))
      ∧ (∀ (m1 : Machine β) (v1 : vector),
          VectorReplaceRun m v x position = .error (.assertion, m1, v1) → m1 = m ∧ v1 = v)
      ∧ (∀ (m1 : Machine β) (v1 : vector),
          VectorDeleteRun m v position = .error (.assertion, m1, v1) → m1 = m ∧ v1 = v)
      ∧ (∀ (i : Nat) (hi : i < s.length), position = i →
          (∃ p, VectorNth v position = .ok p ∧ load m p v.elemSize = .ok s[i])
          ∧ (∃ r, VectorDelete m v position = .ok r)
          ∧ ((x.length : Int) = v.elemSize → ∃ r, VectorReplace m v x position = .ok r))
      ∧ (0 ≤ position → position ≤ VectorLength v → (x.length : Int) = v.elemSize →
          (v.logicalSize = v.allocatedSize → CanGrow m v) →
          (position < VectorLength v → v.logicalSize = v.allocatedSize →
            m.relocate.head? ≠ some true) →
          ∃ r, VectorInsert m v x position = .ok r) := by
  have hl := h.length_eq
  have h0 : 0 ≤ v.logicalSize := by omega
  have hnth := VectorNth_error_iff v position
  have hsize : 0 ≤ v.elemSize * (v.allocatedSize + v.reallocSize) :=
    Int.mul_nonneg (Int.le_of_lt h.elemSize_pos)
      (by have := h.le_alloc; have := h.reallocSize_pos; omega)
  have hout : position < 0 ∨ VectorLength v < position →
      VectorInsert m v x position = .error .assertion
      ∧ VectorInsertRun m v x position = .error (.assertion, m, v) := by
    intro hout
    have hne : ¬ (position = v.logicalSize) := by
      simp only [VectorLength] at hout; omega
    have hfail := hnth.2 (by simp only [VectorLength] at hout ⊢; omega)
    constructor
    · simp only [VectorInsert, hne, if_false, hfail, bind, Except.bind]
    · simp only [VectorInsertRun, hne, if_false, hfail, inState, bind, Except.bind]
  refine ⟨hnth, ⟨fun herr => ?_, fun hout => ?_⟩, ⟨fun herr => ?_, fun hout => ?_⟩,
    hout, fun hfit => ⟨⟨fun herr => ?_, fun hcases => ?_⟩, ?_⟩, ?_, ?_, ?_, ?_⟩
  · obtain ⟨m1, v1, hrun⟩ := mapError_eq_error ((VectorReplaceRun_agrees m v x position).trans herr)
    exact hnth.1 (VectorReplaceRun_assertion hrun).2.2
  · simp only [VectorReplace, hnth.2 hout, bind, Except.bind]
  · obtain ⟨m1, v1, hrun⟩ := mapError_eq_error ((VectorDeleteRun_agrees m v position).trans herr)
    exact hnth.1 (VectorDeleteRun_assertion hrun).2.2
  · simp only [VectorDelete, hnth.2 hout, bind, Except.bind]
  · obtain ⟨m1, v1, hrun⟩ := mapError_eq_error ((VectorInsertRun_agrees m v x position).trans herr)
    rcases VectorInsertRun_assertion h0 hrun with ⟨-, -, hne, hfail⟩ | ⟨hp0, hp1, hg, -, hc⟩
    · have := hnth.1 hfail
      simp only [VectorLength]
      exact Or.inl (by omega)
    · refine Or.inr ⟨hp0, hp1, hg.1, ?_⟩
      rcases hc with hc | hc
      · exact hc
      · omega
  · rcases hcases with hcase | ⟨hp0, hp1, hfull, hrefuse⟩
    · exact (hout hcase).1
    · have hgrow := elemAddingRequiered_refused h hfull (hfit hfull) hrefuse
      simp only [VectorLength] at hp1
      by_cases heq : position = v.logicalSize
      · simp only [VectorInsert, heq, if_true, VectorAppend, hgrow, bind, Except.bind]
      · simp only [VectorInsert, heq, if_false, VectorNth, bind, Except.bind]
        rw [if_neg (by omega), if_neg (by omega)]
        simp only [hgrow]
  · intro m1 v1 hrun
    rcases VectorInsertRun_assertion h0 hrun with ⟨hm, hv, hne, hfail⟩ | ⟨hp0, hp1, hg, -⟩
    · have := hnth.1 hfail
      simp only [VectorLength] at this ⊢
      exact Or.inl ⟨by omega, hm, hv⟩
    · exact Or.inr ⟨hp0, hp1, hg⟩
  · intro m1 v1 hrun
    exact ⟨(VectorReplaceRun_assertion hrun).1, (VectorReplaceRun_assertion hrun).2.1⟩
  · intro m1 v1 hrun
    exact ⟨(VectorDeleteRun_assertion hrun).1, (VectorDeleteRun_assertion hrun).2.1⟩
  · intro i hi hpos
    subst hpos
    refine ⟨?_, ?_, fun hx => ?_⟩
    · refine ⟨(Ptr.mk v.elems 0).add (i * v.elemSize), ?_, ?_⟩
      · unfold VectorNth
        rw [if_neg (by omega), if_neg (by omega)]
      · exact h.load_slot i hi _ (by simp only [Ptr.add]; ring)
    · obtain ⟨m1, v1, hdel, -⟩ := VectorDelete_holds m v s i h hi
      exact ⟨_, hdel⟩
    · obtain ⟨m1, hrep, -⟩ := VectorReplace_holds m v s x i h hx hi
      exact ⟨_, hrep⟩
  · intro hp0 hp1 hx hgrow hstay
    simp only [VectorLength] at hp1 hstay
    by_cases heq : position = v.logicalSize
    · obtain ⟨m1, v1, happ, -⟩ := VectorAppend_holds m v s x h hx hgrow
      exact ⟨_, by simp only [VectorInsert, heq, if_true]; exact happ⟩
    · have e : position = (position.toNat : Int) := by omega
      obtain ⟨m1, v1, hins, -⟩ := VectorInsert_holds m v s x position.toNat h hx (by omega)
        hgrow (hstay (by omega))
      rw [← e] at hins
      exact ⟨_, hins⟩

theorem position_checks_witness :
    VectorDelete roundTripMachine roundTripVector 3 = .error .assertion
      ∧ VectorInsert roundTripMachine roundTripVector [40] 4 = .error .assertion
      ∧ VectorInsert roundTripMachine roundTripVector [40] 3 ≠ .error .assertion
      ∧ VectorInsert roundTripRefusedMachine roundTripVector [40] 3 = .error .assertion
      ∧ (∃ p, VectorNth roundTripVector 2 = .ok p
          ∧ load roundTripMachine p roundTripVector.elemSize = .ok [30])
      ∧ ∃ r, VectorInsert roundTripMachine roundTripVector [40] 3 = .ok r := by
  have hholds : Holds roundTripMachine roundTripVector [[10], [20], [30]] :=
    ⟨by decide, by decide, by decide, by decide, by decide, ⟨_, rfl, by decide, by decide⟩⟩
  have hrefused : Holds roundTripRefusedMachine roundTripVector [[10], [20], [30]] :=
    ⟨by decide, by decide, by decide, by decide, by decide, ⟨_, rfl, by decide, by decide⟩⟩
  refine ⟨(position_checks roundTripMachine roundTripVector _ [40] 3 hholds).2.2.1.2
      (Or.inr (by decide)),
    ((position_checks roundTripMachine roundTripVector _ [40] 4 hholds).2.2.2.1
      (Or.inr (by decide))).1,
    fun herr => ?_,
    ((position_checks roundTripRefusedMachine roundTripVector _ [40] 3 hrefused).2.2.2.2.1
      (fun _ => by decide)).1.2 (Or.inr ⟨by decide, by decide, by decide, by decide⟩),
    ((position_checks roundTripMachine roundTripVector _ [40] 2 hholds).2.2.2.2.2.2.2.1
      2 (by decide) rfl).1,
    (position_checks roundTripMachine roundTripVector _ [40] 3 hholds).2.2.2.2.2.2.2.2
      (by decide) (by decide) (by decide) (fun _ => by decide) (fun hlt => absurd hlt (by decide))⟩
  have := ((position_checks roundTripMachine roundTripVector _ [40] 3 hholds).2.2.2.2.1
    (fun _ => by decide)).1.1 herr
  revert this
  decide

/-! ## Capacity as a multiple of the growth increment -/

theorem VectorNth_eq (v : vector) (i : Nat) (hi : (i : Int) < v.logicalSize) :
    VectorNth v i = .ok ⟨v.elems, 0 + i * v.elemSize⟩ := by
  unfold VectorNth
  rw [if_neg (by omega), if_neg (by omega)]
  rfl

/-- The loop of `VectorDispose` records one destructor call per remaining element, in
index order. -/
theorem VectorDisposeLoop_spec {β : Type} {m : Machine β} {v : vector} {s : List (List β)}
    (h : Holds m v s) (fn : Nat) :
    ∀ (fuel i : Nat) (m1 : Machine β), m1.heap = m.heap → i + fuel = s.length →
      VectorDisposeLoop v fn fuel i m1
        = .ok { m1 with trace := m1.trace ++ (s.drop i).map (Call.free fn) } := by
  have hl := h.length_eq
  intro fuel
  induction fuel with
  | zero =>
    intro i m1 _ hi
    have : s.drop i = [] := List.drop_eq_nil_of_le (by omega)
    simp [VectorDisposeLoop, this]
  | succ fuel ih =>
    intro i m1 hh hi
    have hlt : i < s.length := by omega
    have hload := (h.congr_heap hh).load_slot i hlt (0 + i * v.elemSize) (by ring)
    have hcond : (i : Int) < v.logicalSize := by omega
    simp only [VectorDisposeLoop, hcond, if_true, VectorNth_eq v i hcond, hload, bind,
      Except.bind]
    have hrec := ih (i + 1) { m1 with trace := m1.trace ++ [Call.free fn s[i]] } hh (by omega)
    rw [show ((i : Int) + 1) = ((i + 1 : Nat) : Int) by push_cast; ring, hrec,
      List.drop_eq_getElem_cons hlt]
    simp only [List.map_cons, List.append_assoc, List.singleton_append]

/-- C15: on a container that holds `s`, `VectorDispose` succeeds; with a destructor set
the trace gains exactly one destructor call per element, the call number `i` on `s[i]`,
in ascending index order, and with no destructor it gains nothing; the buffer is
released afterwards. -/
theorem VectorDispose_calls {β : Type} (m : Machine β) (v : vector) (s : List (List β))
    (h : Holds m v s) :
    ∃ m1, VectorDispose m v = .ok m1
      ∧ m1.trace = m.trace ++ (match v.freeFn with
          | some fn => s.map (Call.free fn)
          | none => [])
      ∧ m1.block v.elems = none := by
  have hl := h.length_eq
  obtain ⟨buf, hblk, -, -⟩ := h.live
  have hb := block_lt hblk
  have hfree : ∀ m0 : Machine β, m0.heap = m.heap →
      free m0 v.elems = .ok { m0 with heap := m0.heap.set (v.elems - 1) none }
      ∧ Machine.block { m0 with heap := m0.heap.set (v.elems - 1) none } v.elems = none := by
    intro m0 hh
    have hblk0 : m0.block v.elems = some buf := by rw [Machine.block, hh]; exact hblk
    refine ⟨by unfold free; rw [if_neg hb.1]; simp only [hblk0], ?_⟩
    rw [Machine.block, if_neg hb.1]
    exact getD_set_self _ _ _ (by rw [hh]; exact hb.2)
  cases hf : v.freeFn with
  | none =>
    obtain ⟨h1, h2⟩ := hfree m rfl
    refine ⟨_, ?_, ?_, h2⟩
    · simp only [VectorDispose, hf, bind, Except.bind, h1]
    · simp
  | some fn =>
    have hloop := VectorDisposeLoop_spec h fn s.length 0 m rfl (by omega)
    have hn : v.logicalSize.toNat = s.length := by omega
    obtain ⟨h1, h2⟩ := hfree { m with trace := m.trace ++ (s.drop 0).map (Call.free fn) } rfl
    refine ⟨_, ?_, ?_, h2⟩
    · simp only [VectorDispose, hf, hn, bind, Except.bind]
      rw [show ((0 : Nat) : Int) = 0 from rfl] at hloop
      simp only [hloop, h1]
    · simp

theorem VectorDispose_calls_witness :
    ∃ m1, VectorDispose roundTripMachine roundTripVector = .ok m1
      ∧ m1.trace = [Call.free 7 [10], Call.free 7 [20], Call.free 7 [30]]
      ∧ m1.block roundTripVector.elems = none :=
  VectorDispose_calls roundTripMachine roundTripVector [[10], [20], [30]]
    ⟨by decide, by decide, by decide, by decide, by decide, ⟨_, rfl, by decide, by decide⟩⟩

/-! ## Map -/

/-- One call of the visit function on the slot after the elements `done`. -/
theorem Holds.visit_slot {β : Type} {m : Machine β} {v : vector} {done rest : List (List β)}
    {x : List β} (h : Holds m v (done ++ x :: rest)) (mapFn : List β → Nat → List β)
    (auxData : Nat) (hf : (mapFn x auxData).length = x.length) :
    ∃ m1, callMapFn m mapFn ⟨v.elems, 0 + done.length * v.elemSize⟩ v.elemSize auxData = .ok m1
      ∧ Holds m1 v (done ++ mapFn x auxData :: rest)
      ∧ m1.trace = m.trace ++ [Call.visit x auxData] := by
  obtain ⟨hes, hr, hlen, hle, helem, buf, hblk, hbuf, t, ht⟩ := h
  have hdone : ((done.flatten).length : Int) = done.length * v.elemSize :=
    length_flatten_of done _ (fun y hy => helem y (List.mem_append_left _ hy))
  have hx : (x.length : Int) = v.elemSize :=
    helem x (List.mem_append_right _ (List.mem_cons_self x rest))
  have hflat : (done ++ x :: rest).flatten = done.flatten ++ (x ++ rest.flatten) := by
    rw [List.flatten_append, List.flatten_cons]
  have hblk1 : m.block v.elems = some (done.flatten ++ x ++ (rest.flatten ++ t)) := by
    rw [hblk, ← ht, hflat]; simp only [List.append_assoc]
  have hload : load m ⟨v.elems, 0 + done.length * v.elemSize⟩ v.elemSize = .ok x := by
    have := load_at m v.elems done.flatten x (rest.flatten ++ t) hblk1
    rw [hdone, hx] at this
    rw [← this]; congr 2; ring
  obtain ⟨m1, hst, hblk2, htr, -⟩ := store_ok
    { m with trace := m.trace ++ [Call.visit x auxData] } v.elems
    (0 + done.length * v.elemSize) done.flatten (mapFn x auxData) (x ++ (rest.flatten ++ t))
    (by rw [← List.append_assoc]; exact hblk1) (by rw [hdone]; ring)
    (by rw [List.length_append, hf]; omega)
  rw [List.drop_left' hf.symm] at hblk2
  refine ⟨m1, ?_, ?_, htr⟩
  · simp only [callMapFn, hload, bind, Except.bind, hf, if_true]
    exact hst
  · refine ⟨hes, hr, by rw [hlen]; simp, hle, ?_, _, hblk2, ?_, t, ?_⟩
    · intro y hy
      rcases List.mem_append.1 hy with hy | hy
      · exact helem y (List.mem_append_left _ hy)
      · rcases List.mem_cons.1 hy with hy | hy
        · rw [hy, hf]; exact hx
        · exact helem y (List.mem_append_right _ (List.mem_cons_of_mem x hy))
    · rw [← hbuf, ← ht, hflat]
      simp only [List.length_append, hf]
      push_cast
      ring
    · rw [List.flatten_append, List.flatten_cons]
      simp only [List.append_assoc]

/-- The loop of `VectorMap` visits the remaining elements in index order and leaves in
each slot what the visit function made of its element. -/
theorem VectorMapLoop_spec {β : Type} (v : vector) (mapFn : List β → Nat → List β)
    (auxData : Nat) :
    ∀ (todo done : List (List β)) (m : Machine β), Holds m v (done ++ todo) →
      (∀ x ∈ todo, (mapFn x auxData).length = x.length) →
      ∃ m1, VectorMapLoop v mapFn auxData todo.length done.length m = .ok m1
        ∧ Holds m1 v (done ++ todo.map (fun x => mapFn x auxData))
        ∧ m1.trace = m.trace ++ todo.map (fun x => Call.visit x auxData) := by
  intro todo
  induction todo with
  | nil =>
    intro done m h _
    exact ⟨m, rfl, by simpa using h, by simp⟩
  | cons x rest ih =>
    intro done m h hf
    have hl := h.length_eq
    have hcond : (done.length : Int) < v.logicalSize := by
      rw [hl]; simp only [List.length_append, List.length_cons]; push_cast; omega
    obtain ⟨m1, hcall, h1, htr1⟩ :=
      h.visit_slot mapFn auxData (hf x (List.mem_cons_self x rest))
    have h1' : Holds m1 v ((done ++ [mapFn x auxData]) ++ rest) := by
      simpa [List.append_assoc] using h1
    obtain ⟨m2, hloop, h2, htr2⟩ := ih (done ++ [mapFn x auxData]) m1 h1'
      (fun y hy => hf y (List.mem_cons_of_mem x hy))
    refine ⟨m2, ?_, by simpa [List.append_assoc] using h2, ?_⟩
    · simp only [List.length_cons, VectorMapLoop, hcond, if_true, VectorNth_eq v _ hcond,
        hcall, bind, Except.bind]
      rw [List.length_append, List.length_singleton] at hloop
      rw [show ((done.length : Int) + 1) = ((done.length + 1 : Nat) : Int) by push_cast; ring]
      exact hloop
    · rw [htr2, htr1]
      simp only [List.map_cons, List.append_assoc, List.singleton_append]

/-- C16: on a container that holds `s`, `VectorMap` with a visit function that rewrites
each element within its own bytes succeeds, returns the struct as it was (same length
and capacity), records exactly one call per element, the call number `i` on `s[i]`, in
ascending index order and each with the same `auxData`, and leaves in the slot at each
index what the visit function made of the element originally there; with a null visit
function it ends in a failed assertion. -/
theorem VectorMap_visits {β : Type} (m : Machine β) (v : vector) (s : List (List β))
    (mapFn : List β → Nat → List β) (auxData : Nat) (h : Holds m v s)
    (hf : ∀ x ∈ s, (mapFn x auxData).length = x.length) :
    (∃ m1, VectorMap m v (some mapFn) auxData = .ok (m1, v)
        ∧ Holds m1 v (s.map (fun x => mapFn x auxData))
        ∧ m1.trace = m.trace ++ s.map (fun x => Call.visit x auxData))
      ∧ VectorMap m v none auxData = .error .assertion := by
  refine ⟨?_, rfl⟩
  have hl := h.length_eq
  obtain ⟨m1, hloop, h1, htr⟩ := VectorMapLoop_spec v mapFn auxData s [] m
    (by simpa using h) hf
  have hn : v.logicalSize.toNat = s.length := by omega
  refine ⟨m1, ?_, by simpa using h1, htr⟩
  simp only [VectorMap, hn, bind, Except.bind]
  rw [show (0 : Int) = (([] : List (List β)).length : Int) from rfl, hloop]

theorem VectorMap_visits_witness :
    (∃ m1, VectorMap roundTripMachine roundTripVector
          (some (fun x a => x.map (fun b => b + a))) 5 = .ok (m1, roundTripVector)
        ∧ Holds m1 roundTripVector
            (([[10], [20], [30]] : List (List Nat)).map (fun x => x.map (fun b => b + 5)))
        ∧ m1.trace = roundTripMachine.trace
            ++ ([[10], [20], [30]] : List (List Nat)).map (fun x => Call.visit x 5))
      ∧ VectorMap roundTripMachine roundTripVector none 5 = .error .assertion :=
  VectorMap_visits roundTripMachine roundTripVector [[10], [20], [30]]
    (fun x a => x.map (fun b => b + a)) 5
    ⟨by decide, by decide, by decide, by decide, by decide, ⟨_, rfl, by decide, by decide⟩⟩
    (by decide)

/-! ## Sort -/

theorem quicksort_perm {β : Type} (compar : List β → List β → Int) :
    ∀ (fuel : Nat) (xs : List (List β)), (quicksort compar fuel xs).Perm xs := by
  intro fuel
  induction fuel with
  | zero => intro xs; exact List.Perm.refl _
  | succ fuel ih =>
    intro xs
    cases xs with
    | nil => exact List.Perm.refl _
    | cons pivot rest =>
      simp only [quicksort]
      have hL := ih (rest.filter (fun a => compar a pivot < 0))
      have hR := ih (rest.filter (fun a => ¬ compar a pivot < 0))
      have hsplit : (rest.filter (fun a => compar a pivot < 0)
          ++ rest.filter (fun a => ¬ compar a pivot < 0)).Perm rest := by
        have e : (fun a => decide (¬ compar a pivot < 0))
            = (fun a => !decide (compar a pivot < 0)) := by
          funext a; exact decide_not
        rw [e]
        exact List.filter_append_perm (fun a => decide (compar a pivot < 0)) rest
      exact List.perm_middle.trans (List.Perm.cons pivot ((hL.append hR).trans hsplit))

theorem quicksort_sorted {β : Type} {compar : List β → List β → Int}
    (hc : ConsistentComparator compar) :
    ∀ (fuel : Nat) (xs : List (List β)), xs.length ≤ fuel →
      (quicksort compar fuel xs).Pairwise (fun a b => compar a b ≤ 0) := by
  intro fuel
  induction fuel with
  | zero =>
    intro xs hlen
    have : xs = [] := List.length_eq_zero.1 (Nat.le_zero.1 hlen)
    subst this
    exact List.Pairwise.nil
  | succ fuel ih =>
    intro xs hlen
    cases xs with
    | nil => exact List.Pairwise.nil
    | cons pivot rest =>
      simp only [quicksort]
      have hlenL : (rest.filter (fun a => compar a pivot < 0)).length ≤ fuel :=
        Nat.le_trans (List.length_filter_le _ _) (Nat.le_of_succ_le_succ hlen)
      have hlenR : (rest.filter (fun a => ¬ compar a pivot < 0)).length ≤ fuel :=
        Nat.le_trans (List.length_filter_le _ _) (Nat.le_of_succ_le_succ hlen)
      have hbelow : ∀ a ∈ quicksort compar fuel (rest.filter (fun a => compar a pivot < 0)),
          compar a pivot < 0 := by
        intro a ha
        have := ((quicksort_perm compar fuel _).mem_iff).1 ha
        simpa using (List.mem_filter.1 this).2
      have habove : ∀ b ∈ quicksort compar fuel (rest.filter (fun a => ¬ compar a pivot < 0)),
          compar pivot b ≤ 0 := by
        intro b hb
        have := ((quicksort_perm compar fuel _).mem_iff).1 hb
        have hnot : ¬ compar b pivot < 0 := by simpa using (List.mem_filter.1 this).2
        have := hc.swap b pivot
        omega
      rw [List.pairwise_append]
      refine ⟨ih _ hlenL, List.pairwise_cons.2 ⟨habove, ih _ hlenR⟩, ?_⟩
      intro a ha b hb
      have hap : compar a pivot ≤ 0 := Int.le_of_lt (hbelow a ha)
      rcases List.mem_cons.1 hb with hb | hb
      · rw [hb]; exact hap
      · exact hc.trans _ _ _ hap (habove b hb)

theorem chunks_flatten {β : Type} (k : Nat) (s : List (List β))
    (h : ∀ x ∈ s, x.length = k) : chunks k s.length s.flatten = s := by
  induction s with
  | nil => rfl
  | cons a t ih =>
    have ha := h a (List.mem_cons_self a t)
    simp only [List.length_cons, List.flatten_cons, chunks]
    rw [List.take_left' ha, List.drop_left' ha, ih (fun x hx => h x (List.mem_cons_of_mem a hx))]

/-- Sorting a container that holds `s` leaves it holding `quicksort` of `s`. -/
theorem VectorSort_holds {β : Type} (m : Machine β) (v : vector) (s : List (List β))
    (compare : List β → List β → Int) (h : Holds m v s) :
    ∃ m1, VectorSort m v compare = .ok (m1, v)
      ∧ Holds m1 v (quicksort compare s.length s) ∧ m1.trace = m.trace := by
  obtain ⟨hes, hr, hlen, hle, helem, buf, hblk, hbuf, t, ht⟩ := h
  have hperm := quicksort_perm compare s.length s
  have helem1 : ∀ x ∈ quicksort compare s.length s, (x.length : Int) = v.elemSize :=
    fun x hx => helem x (hperm.mem_iff.1 hx)
  have hflat := length_flatten_of s _ helem
  have hflat1 := length_flatten_of _ _ helem1
  rw [hperm.length_eq] at hflat1
  have hn : v.logicalSize.toNat = s.length := by omega
  have hload : load m ⟨v.elems, 0⟩ ((s.length : Nat) * v.elemSize) = .ok s.flatten := by
    have := load_at m v.elems [] s.flatten t (by rw [hblk, ← ht]; rfl)
    rw [hflat] at this
    exact this
  have hchunks : chunks v.elemSize.toNat s.length s.flatten = s :=
    chunks_flatten _ s (fun x hx => by have := helem x hx; omega)
  obtain ⟨m1, hst, hblk1, htr, -⟩ := store_ok m v.elems 0 [] (quicksort compare s.length s).flatten
    (s.flatten ++ t) (by rw [hblk, ← ht]; rfl) rfl (by rw [List.length_append]; omega)
  have hsame : (quicksort compare s.length s).flatten.length = s.flatten.length := by omega
  rw [List.drop_left' hsame.symm, List.nil_append] at hblk1
  refine ⟨m1, ?_, ⟨hes, hr, by rw [hlen, hperm.length_eq], hle, helem1, _, hblk1, ?_, t, rfl⟩, htr⟩
  · simp only [VectorSort, qsort, hn, hload, hchunks, bind, Except.bind, hst]
  · rw [← hbuf, ← ht]
    simp only [List.length_append]
    omega

/-- C14: on a container that holds `s`, `VectorSort` with a comparator consistent with a
total order succeeds, returns the struct as it was, and leaves the container holding a
permutation of `s` (same elements with the same multiplicities, same length) in which
the comparator puts no element above its successor. -/
theorem VectorSort_sorts {β : Type} (m : Machine β) (v : vector) (s : List (List β))
    (compare : List β → List β → Int) (h : Holds m v s) (hc : ConsistentComparator compare) :
    ∃ m1 s1, VectorSort m v compare = .ok (m1, v) ∧ Holds m1 v s1 ∧ s1.Perm s
      ∧ s1.length = s.length
      ∧ ∀ (i : Nat) (hi : i + 1 < s1.length), compare s1[i] s1[i + 1] ≤ 0 := by
  obtain ⟨m1, hsort, h1, -⟩ := VectorSort_holds m v s compare h
  have hperm := quicksort_perm compare s.length s
  have hpw := quicksort_sorted hc s.length s (Nat.le_refl _)
  refine ⟨m1, _, hsort, h1, hperm, hperm.length_eq, fun i hi => ?_⟩
  exact (List.pairwise_iff_getElem.1 hpw) i (i + 1) (by omega) hi (Nat.lt_succ_self i)

theorem VectorSort_sorts_witness :
    ∃ m1 s1, VectorSort sortMachine sortVector byteCompare = .ok (m1, sortVector)
      ∧ Holds m1 sortVector s1
      ∧ s1.Perm [[7], [5], [9], [7]] ∧ s1.length = ([[7], [5], [9], [7]] : List (List Nat)).length
      ∧ ∀ (i : Nat) (hi : i + 1 < s1.length), byteCompare s1[i] s1[i + 1] ≤ 0 :=
  VectorSort_sorts sortMachine sortVector [[7], [5], [9], [7]] byteCompare
    ⟨by decide, by decide, by decide, by decide, by decide, ⟨_, rfl, by decide, by decide⟩⟩
    byteCompare_consistent

end CVector
